import Mathlib

/-!
# qtl::unordered_set

A shallow embedding of `dependencies/qtl/qtl/unordered_set.h`: the open-addressing hash set
with first-fit linear-probe insertion, access-triggered promotion in `find` and
backward-shift deletion in `erase`.

Conventions of the embedding.

* `std::size_t` is 64 bits wide: every `size_t` expression is a natural number reduced
  modulo `size_mod = 2 ^ 64` at the places where the C++ expression can wrap.
* The slot buffer `__data` is `Option (List node)`: `none` is the null pointer, `some buf`
  an allocation holding `buf.length` nodes.  The field `__capacity` is kept apart from the
  length of the buffer, as in the class.
* A function that can abort or touch memory outside the buffer returns `Except Fault _`.
* The hasher is a stateless functor; it is passed as a function `Key → Nat` and its result is
  reduced modulo `size_mod`.
* Every loop of the source is a bounded `for`; it is embedded as a structural recursion on the
  number of remaining iterations, with the loop variable as a second argument.
-/

set_option autoImplicit false
set_option linter.unusedSectionVars false
set_option linter.unusedVariables false

namespace qtl

/-- The number of values of `std::size_t`. -/
def size_mod : Nat := 18446744073709551616

/-- The ways in which an operation can leave the defined behaviour of the program. -/
inductive Fault where
  | assertion
  | out_of_bounds
  | null_deref
  deriving DecidableEq, Repr

/-- Modelled from the spec: `fast_mod2` of the absent header `qtl/utility.h`; the spec gives
`index(digest, offset, capacity) = (digest + offset) & (capacity − 1)`, the subtraction being
a `size_t` subtraction. -/
def fast_mod2 (x n : Nat) : Nat :=
  x &&& ((n + size_mod - 1) % size_mod)

/-- The slot record `qinternal::unordered_set_node<Key>`. -/
structure unordered_set_node (Key : Type) where
  key : Key
  probe_count : Nat
  is_occupied : Bool
  deriving DecidableEq, Repr

/-- The class `unordered_set<Key, Hash, DefaultSize>`; the hasher member is passed to the
operations as an argument. -/
structure unordered_set (Key : Type) where
  __capacity : Nat
  __usage : Nat
  __data : Option (List (unordered_set_node Key))
  deriving DecidableEq, Repr

section code

variable {Key : Type} [DecidableEq Key] [Inhabited Key]

/-- A node as left by `memset(buf, 0, sz)` and by `new (p) unordered_set_node<Key>()`:
the zero key, probe count zero, not occupied. -/
def empty_node : unordered_set_node Key :=
  { key := default, probe_count := 0, is_occupied := false }

/-- Read of `buffer[idx]`. -/
def load (buffer : List (unordered_set_node Key)) (idx : Nat) :
    Except Fault (unordered_set_node Key) :=
  match buffer[idx]? with
  | some n => .ok n
  | none => .error .out_of_bounds

/-- Write of `buffer[idx]`. -/
def store (buffer : List (unordered_set_node Key)) (idx : Nat) (n : unordered_set_node Key) :
    Except Fault (List (unordered_set_node Key)) :=
  if idx < buffer.length then .ok (buffer.set idx n) else .error .out_of_bounds

/-- The loop of `__insert`, `i` being the loop variable and the first argument the number of
iterations left. -/
def __insert_loop (data : Key) (hashed bufferSize : Nat) (buffer : List (unordered_set_node Key)) :
    Nat → Nat → Except Fault (Bool × List (unordered_set_node Key))
  | 0, _ => .ok (false, buffer)
  | rem + 1, i =>
    let idx := fast_mod2 ((hashed + i) % size_mod) bufferSize
    match load buffer idx with
    | .error e => .error e
    | .ok n =>
      if n.is_occupied = false then
        match store buffer idx { key := data, probe_count := 0, is_occupied := true } with
        | .error e => .error e
        | .ok buffer1 => .ok (true, buffer1)
      else if n.key = data then .ok (false, buffer)
      else if i = bufferSize - 1 then .error .assertion
      else __insert_loop data hashed bufferSize buffer rem (i + 1)

/-- The function `unordered_set::__insert(const Key&, node*, size_t)`. -/
def __insert (hasher : Key → Nat) (data : Key) (buffer : List (unordered_set_node Key))
    (bufferSize : Nat) : Except Fault (Bool × List (unordered_set_node Key)) :=
  __insert_loop data (hasher data % size_mod) bufferSize buffer bufferSize 0

/-- The loop of `__resize` over the old buffer. -/
def __resize_loop (hasher : Key → Nat) (old : List (unordered_set_node Key)) (newSize : Nat) :
    Nat → Nat → List (unordered_set_node Key) → Except Fault (List (unordered_set_node Key))
  | 0, _, buf => .ok buf
  | rem + 1, i, buf =>
    match load old i with
    | .error e => .error e
    | .ok n =>
      if n.is_occupied then
        match __insert hasher n.key buf newSize with
        | .error e => .error e
        | .ok r => __resize_loop hasher old newSize rem (i + 1) r.2
      else __resize_loop hasher old newSize rem (i + 1) buf

/-- The value of `sizeof(qinternal::unordered_set_node<Key>)` on a 64-bit target for the key
types for which `hash.h` provides a hash (the integer types and the pointers, of at most 8
bytes): the key padded to 8 bytes, the `size_t` probe count, the flag padded to 8 bytes. -/
def node_size : Nat := 24

/-- The function `unordered_set::__resize`.  The fresh buffer has
`sz = newSize * sizeof(node)` bytes, a `size_t` product, and so holds `sz / sizeof(node)` whole
nodes, all zeroed; the allocation is taken to succeed.  With a null `__data` the fresh buffer is
installed and the function returns before `__capacity` is assigned. -/
def __resize (hasher : Key → Nat) (t : unordered_set Key) (newSize : Nat) :
    Except Fault (unordered_set Key) :=
  let sz := newSize * node_size % size_mod
  let buf : List (unordered_set_node Key) := List.replicate (sz / node_size) empty_node
  match t.__data with
  | none => .ok { t with __data := some buf }
  | some old =>
    match __resize_loop hasher old newSize t.__capacity 0 buf with
    | .error e => .error e
    | .ok buf1 => .ok { t with __data := some buf1, __capacity := newSize }

/-- The default constructor, `DefaultSize` being a template argument. -/
def construct (DefaultSize : Nat) : unordered_set Key :=
  { __capacity := DefaultSize, __usage := 0,
    __data := some (List.replicate DefaultSize empty_node) }

/-- The member `size()`. -/
def size (t : unordered_set Key) : Nat := t.__usage

/-- The member `empty()`. -/
def empty (t : unordered_set Key) : Bool := decide (t.__usage = 0)

/-- The loop of `clear`: each node of the buffer is read, and an occupied one has its destructor
run; the destructor writes no field of the node. -/
def clear_loop (buffer : List (unordered_set_node Key)) : Nat → Nat → Except Fault Unit
  | 0, _ => .ok ()
  | rem + 1, i =>
    match load buffer i with
    | .error e => .error e
    | .ok _ => clear_loop buffer rem (i + 1)

/-- The member `clear()`. -/
def clear (t : unordered_set Key) : Except Fault (unordered_set Key) :=
  match t.__data with
  | none => if t.__capacity = 0 then .ok { t with __usage := 0 } else .error .null_deref
  | some buffer =>
    match clear_loop buffer t.__capacity 0 with
    | .error e => .error e
    | .ok _ => .ok { t with __usage := 0 }

/-- The member `reserve(newSize)`. -/
def reserve (hasher : Key → Nat) (t : unordered_set Key) (newSize : Nat) :
    Except Fault (unordered_set Key) :=
  if newSize > t.__usage then __resize hasher t newSize else .ok t

/-- The number of low bits that the conversion of `x` to binary64 drops: the number of halvings
that bring `x` below `2 ^ 53`.  The first argument bounds the number of halvings. -/
def double_shift : Nat → Nat → Nat
  | 0, _ => 0
  | fuel + 1, x => if x < 9007199254740992 then 0 else double_shift fuel (x / 2) + 1

/-- The conversion `static_cast<double>(x)` of a `size_t` to IEEE 754 binary64, as the integer
the result denotes: a value below `2 ^ 53` is kept, a larger one is rounded to 53 significant
bits, to nearest, ties to even. -/
def to_double (x : Nat) : Nat :=
  if x < 9007199254740992 then x
  else
    let e := double_shift x x
    let q := x / 2 ^ e
    let r := x % 2 ^ e
    if 2 ^ e < 2 * r ∨ (2 * r = 2 ^ e ∧ q % 2 = 1) then (q + 1) * 2 ^ e else q * 2 ^ e

/-- The test `static_cast<double>(__usage) / static_cast<double>(__capacity) >
__rebalance_factor` of `insert` in binary64 arithmetic, round to nearest, ties to even.  The
constant `0.7` denotes the double `6305039478318694 / 2 ^ 53`, of even significand, whose
successor is `6305039478318695 / 2 ^ 53`.  The quotient of the two converted operands, rounded
once, is greater than the constant exactly when the exact quotient is greater than the midpoint
`12610078956637389 / 2 ^ 54` of the two: at the midpoint the tie falls to the constant.  With
`capacity = 0` the quotient is NaN for `usage = 0` (test false) and infinite otherwise (test
true). -/
def load_exceeds (usage capacity : Nat) : Bool :=
  if capacity = 0 then decide (0 < usage)
  else decide (12610078956637389 * to_double capacity < 18014398509481984 * to_double usage)

/-- The member `insert(const Key&)`. -/
def insert (hasher : Key → Nat) (t : unordered_set Key) (pair : Key) :
    Except Fault (unordered_set Key) :=
  match (if load_exceeds t.__usage t.__capacity
         then __resize hasher t (t.__capacity * 2 % size_mod) else .ok t) with
  | .error e => .error e
  | .ok t1 =>
    match t1.__data with
    | none => if t1.__capacity = 0 then .ok t1 else .error .null_deref
    | some buffer =>
      match __insert hasher pair buffer t1.__capacity with
      | .error e => .error e
      | .ok r =>
        if r.1 then .ok { t1 with __data := some r.2, __usage := (t1.__usage + 1) % size_mod }
        else .ok { t1 with __data := some r.2 }

/-- The loop of the non-const `find`. -/
def find_loop (key : Key) (hashed capacity : Nat) (data : List (unordered_set_node Key)) :
    Nat → Nat → Except Fault (Nat × List (unordered_set_node Key))
  | 0, _ => .ok (capacity, data)
  | rem + 1, i =>
    let idx := fast_mod2 ((hashed + i) % size_mod) capacity
    match load data idx with
    | .error e => .error e
    | .ok n =>
      if n.is_occupied then
        let next_idx := fast_mod2 ((hashed + i + 1) % size_mod) capacity
        match load data next_idx with
        | .error e => .error e
        | .ok m =>
          if m.is_occupied ∧ m.key = key then
            let m1 : unordered_set_node Key :=
              { m with probe_count := (m.probe_count + 1) % size_mod }
            let data1 := data.set next_idx m1
            match load data1 idx with
            | .error e => .error e
            | .ok n1 =>
              if m1.probe_count > n1.probe_count then
                .ok (idx, (data1.set next_idx n1).set idx m1)
              else .ok (next_idx, data1)
          else find_loop key hashed capacity data rem (i + 1)
      else .ok (capacity, data)

/-- The body of the non-const `find` on the buffer: the cursor of the returned iterator and the
buffer after the call. -/
def find_buf (hasher : Key → Nat) (key : Key) (capacity : Nat)
    (data : List (unordered_set_node Key)) :
    Except Fault (Nat × List (unordered_set_node Key)) :=
  let hashed := hasher key % size_mod
  let idx := fast_mod2 hashed capacity
  match load data idx with
  | .error e => .error e
  | .ok n =>
    if n.is_occupied ∧ n.key = key then
      .ok (idx, data.set idx { n with probe_count := (n.probe_count + 1) % size_mod })
    else find_loop key hashed capacity data capacity 0

/-- The non-const member `find(key)`: the cursor of the returned iterator (the end iterator has
cursor `__capacity`) and the set after the call. -/
def find (hasher : Key → Nat) (t : unordered_set Key) (key : Key) :
    Except Fault (Nat × unordered_set Key) :=
  match t.__data with
  | none => .error .null_deref
  | some data =>
    match find_buf hasher key t.__capacity data with
    | .error e => .error e
    | .ok r => .ok (r.1, { t with __data := some r.2 })

/-- The loop of the const overload of `find`.  The nodes are reached through the pointer `__data`
and are written as in the non-const overload; after `probe_count++` without a swap the loop
goes on, the `else` branch with the second `return` being absent. -/
def find_const_loop (key : Key) (hashed capacity : Nat) :
    Nat → Nat → List (unordered_set_node Key) →
    Except Fault (Nat × List (unordered_set_node Key))
  | 0, _, data => .ok (capacity, data)
  | rem + 1, i, data =>
    let idx := fast_mod2 ((hashed + i) % size_mod) capacity
    match load data idx with
    | .error e => .error e
    | .ok n =>
      if n.is_occupied then
        let next_idx := fast_mod2 ((hashed + i + 1) % size_mod) capacity
        match load data next_idx with
        | .error e => .error e
        | .ok m =>
          if m.is_occupied ∧ m.key = key then
            let m1 : unordered_set_node Key :=
              { m with probe_count := (m.probe_count + 1) % size_mod }
            let data1 := data.set next_idx m1
            match load data1 idx with
            | .error e => .error e
            | .ok n1 =>
              if m1.probe_count > n1.probe_count then
                .ok (idx, (data1.set next_idx n1).set idx m1)
              else find_const_loop key hashed capacity rem (i + 1) data1
          else find_const_loop key hashed capacity rem (i + 1) data
      else .ok (capacity, data)

/-- The body of the const overload of `find` on the buffer. -/
def find_const_buf (hasher : Key → Nat) (key : Key) (capacity : Nat)
    (data : List (unordered_set_node Key)) :
    Except Fault (Nat × List (unordered_set_node Key)) :=
  let hashed := hasher key % size_mod
  let idx := fast_mod2 hashed capacity
  match load data idx with
  | .error e => .error e
  | .ok n =>
    if n.is_occupied ∧ n.key = key then
      .ok (idx, data.set idx { n with probe_count := (n.probe_count + 1) % size_mod })
    else find_const_loop key hashed capacity capacity 0 data

/-- The const overload `find(key) const`: the cursor of the returned iterator and the set after
the call. -/
def find_const (hasher : Key → Nat) (t : unordered_set Key) (key : Key) :
    Except Fault (Nat × unordered_set Key) :=
  match t.__data with
  | none => .error .null_deref
  | some data =>
    match find_const_buf hasher key t.__capacity data with
    | .error e => .error e
    | .ok r => .ok (r.1, { t with __data := some r.2 })

/-- The first loop of `erase`: the search for a node whose key equals `key`. -/
def erase_search (key : Key) (hashed capacity : Nat) (data : List (unordered_set_node Key)) :
    Nat → Nat → Except Fault Nat
  | 0, _ => .ok capacity
  | rem + 1, i =>
    let search_idx := fast_mod2 ((hashed + i) % size_mod) capacity
    match load data search_idx with
    | .error e => .error e
    | .ok n =>
      if n.key = key then .ok search_idx
      else erase_search key hashed capacity data rem (i + 1)

/-- The second loop of `erase`: the value of `search_len`. -/
def erase_search_len (open_slot capacity : Nat) (data : List (unordered_set_node Key)) :
    Nat → Nat → Except Fault Nat
  | 0, _ => .ok 1
  | rem + 1, i =>
    let search_idx := fast_mod2 ((open_slot + i) % size_mod) capacity
    match load data search_idx with
    | .error e => .error e
    | .ok n =>
      if n.is_occupied = false then .ok i
      else erase_search_len open_slot capacity data rem (i + 1)

/-- The probe length computed in the repair walk of `erase` for the slot index `slot` and the
digest `hash_v`. -/
def probe_length (slot hash_v capacity : Nat) : Nat :=
  if slot ≥ hash_v then slot - hash_v
  else (capacity + size_mod - (hash_v - slot)) % size_mod

/-- The third loop of `erase`, the repair walk: the final `open_slot` and the buffer. -/
def erase_walk (hasher : Key → Nat) (remove_loc capacity : Nat) :
    Nat → Nat → Nat → List (unordered_set_node Key) →
    Except Fault (Nat × List (unordered_set_node Key))
  | 0, _, open_slot, data => .ok (open_slot, data)
  | rem + 1, i, open_slot, data =>
    let search_idx := fast_mod2 ((remove_loc + i) % size_mod) capacity
    match load data search_idx with
    | .error e => .error e
    | .ok n =>
      let hash_v := hasher n.key % size_mod
      let cur_probe_length := probe_length search_idx hash_v capacity
      let new_probe_length := probe_length open_slot hash_v capacity
      if new_probe_length < cur_probe_length then
        match store data open_slot n with
        | .error e => .error e
        | .ok data1 =>
          match store data1 search_idx empty_node with
          | .error e => .error e
          | .ok data2 => erase_walk hasher remove_loc capacity rem (i + 1) search_idx data2
      else erase_walk hasher remove_loc capacity rem (i + 1) open_slot data

/-- The body of `erase` on the buffer: the returned count, the final `open_slot` of the repair
walk (`capacity` when nothing was removed) and the buffer after the call. -/
def erase_buf (hasher : Key → Nat) (key : Key) (capacity : Nat)
    (data : List (unordered_set_node Key)) :
    Except Fault (Nat × Nat × List (unordered_set_node Key)) :=
  match erase_search key (hasher key % size_mod) capacity data capacity 0 with
  | .error e => .error e
  | .ok remove_loc =>
    if remove_loc ≠ capacity then
      match store data remove_loc empty_node with
      | .error e => .error e
      | .ok data1 =>
        match erase_search_len remove_loc capacity data1 (capacity - 1) 1 with
        | .error e => .error e
        | .ok search_len =>
          match erase_walk hasher remove_loc capacity (search_len - 1) 1 remove_loc data1 with
          | .error e => .error e
          | .ok r => .ok (1, r.1, r.2)
    else .ok (0, capacity, data)

/-- The member `erase(key)`: the returned count and the set after the call. -/
def erase (hasher : Key → Nat) (t : unordered_set Key) (key : Key) :
    Except Fault (Nat × unordered_set Key) :=
  match t.__data with
  | none => if t.__capacity = 0 then .ok (0, t) else .error .null_deref
  | some data =>
    match erase_buf hasher key t.__capacity data with
    | .error e => .error e
    | .ok r =>
      if r.1 = 1 then
        .ok (1, { t with __data := some r.2.2, __usage := (t.__usage + size_mod - 1) % size_mod })
      else .ok (0, { t with __data := some r.2.2 })

/-- The loop of `begin()`: the first index at or after `first` whose node is occupied. -/
def begin_loop (data : List (unordered_set_node Key)) : Nat → Nat → Except Fault Nat
  | 0, first => .ok first
  | rem + 1, first =>
    match load data first with
    | .error e => .error e
    | .ok n => if n.is_occupied = false then begin_loop data rem (first + 1) else .ok first

/-- The member `begin()`: the cursor of the returned iterator. -/
def «begin» (t : unordered_set Key) : Except Fault Nat :=
  match t.__data with
  | none => if t.__capacity = 0 then .ok 0 else .error .null_deref
  | some data => begin_loop data t.__capacity 0

/-- The member `end()`: the cursor of the returned iterator. -/
def «end» (t : unordered_set Key) : Nat := t.__capacity

/-- The loop of `forward_unordered_set_iterator::operator++`, `while (++__cursor < __capacity)`
with a `break` at an occupied node, for an iterator into the buffer `data`.  The first argument
bounds the number of iterations; `capacity + 1` of them are never used up. -/
def increment_loop (data : List (unordered_set_node Key)) (capacity : Nat) :
    Nat → Nat → Except Fault Nat
  | 0, cursor => .ok cursor
  | fuel + 1, cursor =>
    let cursor1 := (cursor + 1) % size_mod
    if cursor1 < capacity then
      match load data cursor1 with
      | .error e => .error e
      | .ok n =>
        if n.is_occupied then .ok cursor1 else increment_loop data capacity fuel cursor1
    else .ok cursor1

/-- The function `forward_unordered_set_iterator::operator++` on an iterator of the set `t` with
the given cursor: the cursor after the call. -/
def increment (t : unordered_set Key) (cursor : Nat) : Except Fault Nat :=
  match t.__data with
  | none => if (cursor + 1) % size_mod < t.__capacity then .error .null_deref
            else .ok ((cursor + 1) % size_mod)
  | some data => increment_loop data t.__capacity (t.__capacity + 1) cursor

/-- The loop `for (auto it = begin(); it != end(); ++it)` over the set `t`, from the given
cursor on: the cursors at which the body runs, in order.  The first argument bounds the number
of iterations. -/
def iterate_loop (t : unordered_set Key) : Nat → Nat → Except Fault (List Nat)
  | 0, _ => .ok []
  | fuel + 1, cursor =>
    if cursor = «end» t then .ok []
    else
      match increment t cursor with
      | .error e => .error e
      | .ok cursor1 =>
        match iterate_loop t fuel cursor1 with
        | .error e => .error e
        | .ok rest => .ok (cursor :: rest)

/-- The cursors visited by a forward iteration from `begin()` to `end()`. -/
def iterate (t : unordered_set Key) : Except Fault (List Nat) :=
  match «begin» t with
  | .error e => .error e
  | .ok first => iterate_loop t (t.__capacity + 1) first

/-- The move constructor `unordered_set(unordered_set&& other)`: the constructed set and `other`
after the call. -/
def move_construct (other : unordered_set Key) : unordered_set Key × unordered_set Key :=
  ({ __capacity := other.__capacity, __usage := other.__usage, __data := other.__data },
   { other with __data := none })

/-- The move assignment `operator=(unordered_set&& other)`: `*this` and `other` after the
call. -/
def move_assign (this other : unordered_set Key) : unordered_set Key × unordered_set Key :=
  ({ this with __data := other.__data, __usage := other.__usage,
               __capacity := other.__capacity },
   { other with __data := none })

/-- The loop `for (auto it : other) insert(it)` of the copy constructor and of the copy
assignment, each element being inserted as the key itself; `other` is another object than
`*this`.  The first argument bounds the number of iterations. -/
def copy_loop (hasher : Key → Nat) (other : unordered_set Key) :
    Nat → Nat → unordered_set Key → Except Fault (unordered_set Key)
  | 0, _, this => .ok this
  | fuel + 1, cursor, this =>
    if cursor = «end» other then .ok this
    else
      match other.__data with
      | none => .error .null_deref
      | some data =>
        match load data cursor with
        | .error e => .error e
        | .ok n =>
          match insert hasher this n.key with
          | .error e => .error e
          | .ok this1 =>
            match increment other cursor with
            | .error e => .error e
            | .ok cursor1 => copy_loop hasher other fuel cursor1 this1

/-- The copy constructor `unordered_set(const unordered_set& other)`. -/
def copy_construct (hasher : Key → Nat) (other : unordered_set Key) :
    Except Fault (unordered_set Key) :=
  match __resize hasher { __capacity := other.__capacity, __usage := 0, __data := none }
      other.__capacity with
  | .error e => .error e
  | .ok this1 =>
    match «begin» other with
    | .error e => .error e
    | .ok first => copy_loop hasher other (other.__capacity + 1) first this1

/-- The copy assignment `operator=(const unordered_set& other)`, `other` being another object
than `*this`. -/
def copy_assign (hasher : Key → Nat) (this other : unordered_set Key) :
    Except Fault (unordered_set Key) :=
  match (match this.__data with
         | none => Except.ok this
         | some _ =>
           match clear this with
           | .error e => .error e
           | .ok this0 => .ok { this0 with __data := none }) with
  | .error e => .error e
  | .ok this1 =>
    match reserve hasher this1 other.__capacity with
    | .error e => .error e
    | .ok this2 =>
      match «begin» other with
      | .error e => .error e
      | .ok first => copy_loop hasher other (other.__capacity + 1) first this2

end code

/-! ## The vocabulary of the specification -/

section vocabulary

variable {Key : Type} [DecidableEq Key] [Inhabited Key]

/-- The node at index `i` of a buffer; past the end of the buffer, the empty node. -/
def slot (buf : List (unordered_set_node Key)) (i : Nat) : unordered_set_node Key :=
  buf.getD i empty_node

/-- The ideal index of a key: its digest mapped into the index range by `fast_mod2`. -/
def ideal_index (hasher : Key → Nat) (k : Key) (capacity : Nat) : Nat :=
  fast_mod2 (hasher k % size_mod) capacity

/-- The index probed at offset `i` for the digest `hashed`, as computed in every probe loop. -/
def probe (hashed capacity i : Nat) : Nat :=
  fast_mod2 ((hashed + i) % size_mod) capacity

/-- The keys held by the occupied slots, in index order. -/
def stored_keys (buf : List (unordered_set_node Key)) : List Key :=
  (buf.filter (fun n => n.is_occupied)).map (fun n => n.key)

/-- The number of slots whose occupancy flag is set, by a full scan. -/
def occupied_count (buf : List (unordered_set_node Key)) : Nat :=
  buf.countP (fun n => n.is_occupied)

/-- Some occupied slot holds a key equal to `k`. -/
def stored (buf : List (unordered_set_node Key)) (k : Key) : Prop :=
  k ∈ stored_keys buf

/-- A power of two that is a value of `size_t`. -/
def power_of_two (capacity : Nat) : Prop :=
  ∃ j, j < 64 ∧ capacity = 2 ^ j

/-- No two occupied slots hold equal keys. -/
def no_duplicates (buf : List (unordered_set_node Key)) : Prop :=
  (stored_keys buf).Nodup

/-- The contiguous-run property: an occupied slot at index `i`, at distance `d` from the ideal
index `h` of its key, has the slots `h, h + 1, ..., h + d - 1` (indices modulo the capacity)
occupied. -/
def contiguous_run (hasher : Key → Nat) (capacity : Nat)
    (buf : List (unordered_set_node Key)) : Prop :=
  ∀ i, i < capacity → (slot buf i).is_occupied = true →
    ∀ d, d < capacity → (ideal_index hasher (slot buf i).key capacity + d) % capacity = i →
      ∀ e, e < d →
        (slot buf ((ideal_index hasher (slot buf i).key capacity + e) % capacity)).is_occupied
          = true

/-- The key `k` is met at probe offset `j` of the digest `hashed`: the slots probed at the offsets
below `j` are occupied by other keys, and the slot probed at offset `j` is occupied by `k`. -/
def reached (hashed capacity : Nat) (buf : List (unordered_set_node Key)) (k : Key)
    (j : Nat) : Prop :=
  (∀ d, d < j → (slot buf (probe hashed capacity d)).is_occupied = true ∧
      (slot buf (probe hashed capacity d)).key ≠ k) ∧
    (slot buf (probe hashed capacity j)).is_occupied = true ∧
    (slot buf (probe hashed capacity j)).key = k

/-- At least one slot is Empty. -/
def has_empty_slot (buf : List (unordered_set_node Key)) : Prop :=
  ∃ i, i < buf.length ∧ (slot buf i).is_occupied = false

/-- A valid buffer for a capacity and a count.  The third clause says that the buffer is an
object inside the address space: its size in bytes, `capacity * sizeof(node)`, is below `2 ^ 63`,
as the size of every array is. -/
def valid_buf (hasher : Key → Nat) (capacity usage : Nat)
    (buf : List (unordered_set_node Key)) : Prop :=
  buf.length = capacity ∧ power_of_two capacity ∧ capacity * node_size * 2 < size_mod ∧
    usage = occupied_count buf ∧ no_duplicates buf ∧ contiguous_run hasher capacity buf ∧
    has_empty_slot buf

/-- A valid table: the buffer is allocated with `__capacity` nodes, the capacity is a power of
two (of a size that fits the address space), the count is the number of occupied slots, no two occupied slots hold equal keys, the
contiguous-run property holds and at least one slot is Empty. -/
def valid (hasher : Key → Nat) (t : unordered_set Key) : Prop :=
  match t.__data with
  | none => False
  | some buf => valid_buf hasher t.__capacity t.__usage buf

/-- The buffer of a table; a null `__data` has no slots. -/
def buffer (t : unordered_set Key) : List (unordered_set_node Key) :=
  t.__data.getD []

/-- A sequence of `insert` calls, from left to right. -/
def insert_all (hasher : Key → Nat) :
    unordered_set Key → List Key → Except Fault (unordered_set Key)
  | t, [] => .ok t
  | t, k :: ks =>
    match insert hasher t k with
    | .error e => .error e
    | .ok t1 => insert_all hasher t1 ks

/-- A call of one of the public operations `insert`, `find`, `erase`, `clear`, `reserve`. -/
inductive operation (Key : Type) where
  | insert (k : Key)
  | find (k : Key)
  | erase (k : Key)
  | clear
  | reserve (n : Nat)
  deriving DecidableEq, Repr

/-- The set after one public operation; the value returned by `find` and `erase` is dropped. -/
def apply_operation (hasher : Key → Nat) (t : unordered_set Key) :
    operation Key → Except Fault (unordered_set Key)
  | .insert k => insert hasher t k
  | .find k =>
    match find hasher t k with
    | .error e => .error e
    | .ok r => .ok r.2
  | .erase k =>
    match erase hasher t k with
    | .error e => .error e
    | .ok r => .ok r.2
  | .clear => clear t
  | .reserve n => reserve hasher t n

/-- A sequence of public operations, from left to right. -/
def run (hasher : Key → Nat) :
    unordered_set Key → List (operation Key) → Except Fault (unordered_set Key)
  | t, [] => .ok t
  | t, o :: os =>
    match apply_operation hasher t o with
    | .error e => .error e
    | .ok t1 => run hasher t1 os

/-- The number of calls `find(k)` in a sequence of operations. -/
def find_calls (k : Key) (os : List (operation Key)) : Nat :=
  os.count (operation.find k)

/-- The cyclic distance of the index `i` from the index `h`: `(i - h) mod capacity`. -/
def cyclic_distance (i h capacity : Nat) : Nat :=
  (i + capacity - h) % capacity

/-- The node `n` is the node `m` after `probe_count++`. -/
def bumped (m n : unordered_set_node Key) : Prop :=
  n = { m with probe_count := (m.probe_count + 1) % size_mod }

/-- Plain first-fit insertion of a list of keys, from left to right, into a buffer of the given
capacity: each key goes through `__insert`. -/
def first_fit_all (hasher : Key → Nat) (capacity : Nat) :
    List Key → List (unordered_set_node Key) → Except Fault (List (unordered_set_node Key))
  | [], buf => .ok buf
  | k :: ks, buf =>
    match __insert hasher k buf capacity with
    | .error e => .error e
    | .ok r => first_fit_all hasher capacity ks r.2

/-- The order form of the contiguous-run property: seen from the ideal index of the key of an
occupied slot, every Empty slot lies at a greater cyclic distance than the slot itself. -/
def gap_free (hasher : Key → Nat) (capacity : Nat) (buf : List (unordered_set_node Key)) :
    Prop :=
  ∀ y z, y < capacity → z < capacity → (slot buf y).is_occupied = true →
    (slot buf z).is_occupied = false →
    cyclic_distance y (ideal_index hasher (slot buf y).key capacity) capacity
      < cyclic_distance z (ideal_index hasher (slot buf y).key capacity) capacity

/-- The indices of the occupied slots, in increasing order. -/
def occupied_indices (buf : List (unordered_set_node Key)) : List Nat :=
  (List.range buf.length).filter (fun i => (slot buf i).is_occupied)

instance (capacity : Nat) : Decidable (power_of_two capacity) := by
  unfold power_of_two; infer_instance

instance (buf : List (unordered_set_node Key)) (k : Key) : Decidable (stored buf k) := by
  unfold stored; infer_instance

instance (buf : List (unordered_set_node Key)) : Decidable (no_duplicates buf) := by
  unfold no_duplicates; infer_instance

instance (hasher : Key → Nat) (capacity : Nat) (buf : List (unordered_set_node Key)) :
    Decidable (contiguous_run hasher capacity buf) := by
  unfold contiguous_run; infer_instance

instance (buf : List (unordered_set_node Key)) : Decidable (has_empty_slot buf) := by
  unfold has_empty_slot; infer_instance

instance (hasher : Key → Nat) (capacity usage : Nat) (buf : List (unordered_set_node Key)) :
    Decidable (valid_buf hasher capacity usage buf) := by
  unfold valid_buf; infer_instance

instance (hasher : Key → Nat) (t : unordered_set Key) : Decidable (valid hasher t) := by
  unfold valid; split <;> infer_instance

end vocabulary

/-! ## Sample tables -/

/-- The hasher of the samples: an integer key is its own digest. -/
def identity_hash : Nat → Nat := fun k => k

/-- A table of capacity 8 in which the keys 1, 9 and 17 form one probe chain from index 1. -/
def chain_table : unordered_set Nat :=
  { __capacity := 8, __usage := 3,
    __data := some [⟨0, 0, false⟩, ⟨1, 0, true⟩, ⟨9, 0, true⟩, ⟨17, 0, true⟩,
      ⟨0, 0, false⟩, ⟨0, 0, false⟩, ⟨0, 0, false⟩, ⟨0, 0, false⟩] }

/-- A table of capacity 8 holding the keys 1 to 5 at their ideal indices. -/
def five_table : unordered_set Nat :=
  { __capacity := 8, __usage := 5,
    __data := some [⟨0, 0, false⟩, ⟨1, 0, true⟩, ⟨2, 0, true⟩, ⟨3, 0, true⟩,
      ⟨4, 0, true⟩, ⟨5, 0, true⟩, ⟨0, 0, false⟩, ⟨0, 0, false⟩] }

/-- A table of capacity 8 holding the keys 17 and 18, each at its ideal index (1 and 2). -/
def adjacent_table : unordered_set Nat :=
  { __capacity := 8, __usage := 2,
    __data := some [⟨0, 0, false⟩, ⟨17, 0, true⟩, ⟨18, 0, true⟩, ⟨0, 0, false⟩,
      ⟨0, 0, false⟩, ⟨0, 0, false⟩, ⟨0, 0, false⟩, ⟨0, 0, false⟩] }

/-- A table of capacity 8 holding the single key 9 at its ideal index 1. -/
def single_table : unordered_set Nat :=
  { __capacity := 8, __usage := 1,
    __data := some [⟨0, 0, false⟩, ⟨9, 0, true⟩, ⟨0, 0, false⟩, ⟨0, 0, false⟩,
      ⟨0, 0, false⟩, ⟨0, 0, false⟩, ⟨0, 0, false⟩, ⟨0, 0, false⟩] }

/-- A table of capacity 8 holding the keys 1, 9 and 2 in one probe chain from index 1; every
digest is below 16. -/
def small_digest_table : unordered_set Nat :=
  { __capacity := 8, __usage := 3,
    __data := some [⟨0, 0, false⟩, ⟨1, 0, true⟩, ⟨9, 0, true⟩, ⟨2, 0, true⟩,
      ⟨0, 0, false⟩, ⟨0, 0, false⟩, ⟨0, 0, false⟩, ⟨0, 0, false⟩] }

/-! ## The owning pointer `qtl::unique_ptr`

A pointer is an address, 0 being `nullptr`; the `delete` of the owned object has no effect on
the fields of the class and is left out. -/

/-- The class `unique_ptr<T>`. -/
structure unique_ptr where
  pointer : Nat
  deriving DecidableEq, Repr

/-- The member `unique_ptr::reset()`. -/
def unique_ptr.reset (u : unique_ptr) : unique_ptr :=
  { u with pointer := 0 }

/-- The member `unique_ptr::reset(T* ptr)`: `if (pointer) delete pointer; pointer = nullptr;`. -/
def unique_ptr.reset_ptr (u : unique_ptr) (ptr : Nat) : unique_ptr :=
  { u with pointer := 0 }

/-- The member `unique_ptr::get()`. -/
def unique_ptr.get (u : unique_ptr) : Nat := u.pointer

/-- The conversion `unique_ptr::operator bool()`. -/
def unique_ptr.to_bool (u : unique_ptr) : Bool := decide (u.pointer ≠ 0)

/-! ## The containers of `qtl/vector.h` -/

/-- Modelled from the spec: the class `vector` of the absent header `qtl/vector.h`, about which
the spec is silent: the sequence of its elements, to which `push_back` appends. -/
@[reducible] def vector (T : Type) : Type := List T

/-- Modelled from the spec: `qtl::find(first, last, value)` over a whole vector followed by
`vector::erase` at the position found, which removes the first element equal to `value`; `none`
when no element equals it and the position is `end()`. -/
def vector.erase_found (v : vector Nat) (value : Nat) : Option (vector Nat) :=
  if value ∈ v then some (List.erase v value) else none

/-! ## The multimap `qtl::tree_multimap` -/

/-- Modelled from the spec: the class `redblack_tree` of the absent header
`qtl/redblack_tree.h`, about which the spec is silent, at the node type of `tree_multimap`: a
node is `(kv.first, kv.second)`, nodes are compared by `kv.first`, and the tree holds at most one
node for a key, as the calls in `tree_multimap.h` use it. -/
@[reducible] def redblack_tree (Key Value : Type) : Type := List (Key × vector Value)

/-- The class `tree_multimap<Key, Value>`. -/
structure tree_multimap (Key Value : Type) where
  __sz : Nat
  __tree : redblack_tree Key Value
  deriving DecidableEq, Repr

section tree_multimap_code

variable {Key Value : Type} [DecidableEq Key]

/-- Modelled from the spec: `redblack_tree::find`, the node whose key equals the key searched
for, `none` for `end()`. -/
def redblack_tree.find (tree : redblack_tree Key Value) (key : Key) :
    Option (Key × vector Value) :=
  List.find? (fun n => decide (n.1 = key)) tree

/-- Modelled from the spec: `redblack_tree::insert` of a node whose key is not in the tree. -/
def redblack_tree.insert (tree : redblack_tree Key Value) (node : Key × vector Value) :
    redblack_tree Key Value :=
  tree ++ [node]

/-- Modelled from the spec: `redblack_tree::erase`, which removes the node with the given
key. -/
def redblack_tree.erase (tree : redblack_tree Key Value) (key : Key) :
    redblack_tree Key Value :=
  List.filter (fun n => decide (n.1 ≠ key)) tree

/-- The constructor `tree_multimap()`. -/
def tree_multimap.construct : tree_multimap Key Value :=
  { __sz := 0, __tree := [] }

/-- The member `tree_multimap::insert(const pair<Key, Value>& kv)`: a key that is not found gets
a new node holding the value; otherwise the value is pushed onto the vector of the node found.
Then `__sz++`. -/
def tree_multimap.insert (m : tree_multimap Key Value) (kv : Key × Value) :
    tree_multimap Key Value :=
  match redblack_tree.find m.__tree kv.1 with
  | none =>
    { __tree := redblack_tree.insert m.__tree (kv.1, [kv.2]), __sz := (m.__sz + 1) % size_mod }
  | some _ =>
    { __tree := List.map (fun n => if n.1 = kv.1 then (n.1, n.2 ++ [kv.2]) else n) m.__tree,
      __sz := (m.__sz + 1) % size_mod }

/-- The member `tree_multimap::erase(const Key& key)`: when the key is found, `__sz--` and
`__tree.erase(key)`. -/
def tree_multimap.erase (m : tree_multimap Key Value) (key : Key) : tree_multimap Key Value :=
  match redblack_tree.find m.__tree key with
  | none => m
  | some _ =>
    { __sz := (m.__sz + size_mod - 1) % size_mod,
      __tree := redblack_tree.erase m.__tree key }

/-- The member `tree_multimap::size()`. -/
def tree_multimap.size (m : tree_multimap Key Value) : Nat := m.__sz

/-- The member `tree_multimap::empty()`. -/
def tree_multimap.empty (m : tree_multimap Key Value) : Bool := decide (m.__sz = 0)

/-- The number of values held by the map, over all keys. -/
def tree_multimap.held (m : tree_multimap Key Value) : Nat :=
  (List.map (fun n => n.2.length) m.__tree).sum

end tree_multimap_code

/-! ## The tree `qtl::tree`

The nodes live on the heap: the state is the member `__root` together with the allocated nodes,
each under its address; 0 is `nullptr`. -/

/-- The struct `tree_node<T>`: the stored pointer and the addresses of the parent and of the
children. -/
structure tree_node where
  value : Nat
  parent : Nat
  children : vector Nat
  deriving DecidableEq, Repr

/-- The class `tree<T>` with the heap of its nodes. -/
structure tree where
  __root : Nat
  heap : List (Nat × tree_node)
  deriving DecidableEq, Repr

/-- Read through a node pointer. -/
def tree.deref (heap : List (Nat × tree_node)) (p : Nat) : Except Fault tree_node :=
  if p = 0 then .error .null_deref
  else
    match heap.find? (fun e => decide (e.1 = p)) with
    | some e => .ok e.2
    | none => .error .out_of_bounds

/-- Write through a node pointer. -/
def tree.assign (heap : List (Nat × tree_node)) (p : Nat) (n : tree_node) :
    List (Nat × tree_node) :=
  heap.map (fun e => if e.1 = p then (p, n) else e)

/-- The address returned by `new tree_node<T>`. -/
def tree.fresh (heap : List (Nat × tree_node)) : Nat :=
  (heap.map (fun e => e.1)).foldl max 0 + 1

/-- The constructor `tree(T* value)`. -/
def tree.construct (value : Nat) : tree :=
  if value ≠ 0 then
    { __root := 1, heap := [(1, { value := value, parent := 0, children := [] })] }
  else { __root := 0, heap := [] }

/-- The member `tree::add(T* value, tree_node<T>* parent)`: the tree and the returned node. -/
def tree.add (t : tree) (value parent : Nat) : Except Fault (tree × Nat) :=
  let node := tree.fresh t.heap
  let heap1 := t.heap ++ [(node, { value := value, parent := 0, children := [] })]
  if parent ≠ 0 then
    match tree.deref heap1 parent with
    | .error e => .error e
    | .ok p =>
      let heap2 := tree.assign heap1 parent ⟨p.value, p.parent, p.children ++ [node]⟩
      .ok (⟨t.__root, tree.assign heap2 node ⟨value, parent, []⟩⟩, node)
  else if t.__root ≠ 0 then
    match tree.deref heap1 t.__root with
    | .error e => .error e
    | .ok r =>
      let heap2 := tree.assign heap1 node ⟨value, 0, [t.__root]⟩
      .ok (⟨node, tree.assign heap2 t.__root ⟨r.value, node, r.children⟩⟩, node)
  else .ok (⟨node, heap1⟩, node)

/-- The function `tree::__recursive_delete`, with a bound on the depth of the recursion (`none`
when the bound is reached): the heap after the nodes below and at `node` are deleted. -/
def tree.__recursive_delete :
    Nat → List (Nat × tree_node) → Nat → Option (Except Fault (List (Nat × tree_node)))
  | 0, _, _ => none
  | fuel + 1, heap, node =>
    match tree.deref heap node with
    | .error e => some (.error e)
    | .ok n =>
      let step := fun (acc : Option (Except Fault (List (Nat × tree_node)))) (child : Nat) =>
        match acc with
        | some (.ok h) => if child ≠ 0 then tree.__recursive_delete fuel h child else some (.ok h)
        | other => other
      match n.children.foldl step (some (.ok heap)) with
      | some (.ok h) => some (.ok (h.filter (fun e => decide (e.1 ≠ node))))
      | other => other

/-- The function `tree::__recursive_search`, with a bound on the depth of the recursion (`none`
when the bound is reached): the address of the node found, 0 for `nullptr`. -/
def tree.__recursive_search (heap : List (Nat × tree_node)) (value : Nat) :
    Nat → Nat → Option (Except Fault Nat)
  | 0, _ => none
  | fuel + 1, node =>
    if node = 0 then some (.ok 0)
    else
      match tree.deref heap node with
      | .error e => some (.error e)
      | .ok n =>
        if n.value = value then some (.ok node)
        else
          let step := fun (acc : Option (Except Fault Nat)) (child : Nat) =>
            match acc with
            | some (.ok 0) => tree.__recursive_search heap value fuel child
            | other => other
          n.children.foldl step (some (.ok 0))

/-- The member `tree::search(T* value)`; the depth of a tree is below the number of its
nodes. -/
def tree.search (t : tree) (value : Nat) : Option (Except Fault Nat) :=
  tree.__recursive_search t.heap value (t.heap.length + 1) t.__root

/-- The member `tree::remove(tree_node<T>* node)`. -/
def tree.remove (t : tree) (node : Nat) : Option (Except Fault tree) :=
  if node ≠ 0 then
    match tree.deref t.heap node with
    | .error e => some (.error e)
    | .ok n =>
      match tree.deref t.heap n.parent with
      | .error e => some (.error e)
      | .ok p =>
        match vector.erase_found p.children node with
        | none => some (.error .out_of_bounds)
        | some children1 =>
          let heap1 := tree.assign t.heap n.parent ⟨p.value, p.parent, children1⟩
          match tree.__recursive_delete (t.heap.length + 1) heap1 node with
          | some (.ok h) => some (.ok { t with heap := h })
          | some (.error e) => some (.error e)
          | none => none
  else some (.ok t)

/-! ## Index arithmetic -/

section arithmetic

theorem size_mod_eq : size_mod = 2 ^ 64 := by
  norm_num [size_mod]

theorem node_size_pos : 0 < node_size := by
  unfold node_size; omega

theorem double_of_bytes {c : Nat} (h : c * node_size * 2 < size_mod) : c * 2 < size_mod := by
  unfold node_size at h
  omega

theorem load_exceeds_iff {u c : Nat} (hu : u < 9007199254740992)
    (hc : c < 9007199254740992) : load_exceeds u c = true ↔ 7 * c < 10 * u := by
  unfold load_exceeds to_double
  rw [if_pos hu, if_pos hc]
  by_cases h0 : c = 0
  · rw [if_pos h0, decide_eq_true_eq, h0]
    omega
  · rw [if_neg h0, decide_eq_true_eq]
    omega

theorem resize_nodes {n : Nat} (h : n * node_size < size_mod) :
    n * node_size % size_mod / node_size = n := by
  rw [Nat.mod_eq_of_lt h]
  exact Nat.mul_div_cancel n node_size_pos

theorem fast_mod2_pow (j : Nat) (hj : j < 64) (x : Nat) :
    fast_mod2 x (2 ^ j) = x % 2 ^ j := by
  unfold fast_mod2
  have h1 : 2 ^ j < size_mod := by
    rw [size_mod_eq]; exact Nat.pow_lt_pow_right (by norm_num) hj
  have h2 : 0 < 2 ^ j := Nat.two_pow_pos j
  have h3 : (2 ^ j + size_mod - 1) % size_mod = 2 ^ j - 1 := by
    generalize 2 ^ j = c at h1 h2
    have h4 : c + size_mod - 1 = (c - 1) + size_mod := by omega
    rw [h4, Nat.add_mod_right, Nat.mod_eq_of_lt (by omega)]
  rw [h3, Nat.and_pow_two_sub_one_eq_mod]

theorem probe_pow (j : Nat) (hj : j < 64) (hashed i : Nat) :
    probe hashed (2 ^ j) i = (hashed + i) % 2 ^ j := by
  unfold probe
  rw [fast_mod2_pow j hj, size_mod_eq, Nat.mod_mod_of_dvd _ (Nat.pow_dvd_pow 2 (le_of_lt hj))]

theorem power_of_two_pos {c : Nat} (hc : power_of_two c) : 0 < c := by
  obtain ⟨j, _, rfl⟩ := hc
  exact Nat.two_pow_pos j

theorem power_of_two_double {c : Nat} (hc : power_of_two c) (h : c * 2 < size_mod) :
    power_of_two (c * 2) := by
  obtain ⟨j, hj, rfl⟩ := hc
  refine ⟨j + 1, ?_, by ring⟩
  by_contra hcon
  have h5 : 64 ≤ j + 1 := by omega
  have h6 : 2 ^ 64 ≤ 2 ^ (j + 1) := Nat.pow_le_pow_right (by norm_num) h5
  have h7 : 2 ^ j * 2 = 2 ^ (j + 1) := by ring
  rw [size_mod_eq] at h
  omega

theorem probe_mod {c : Nat} (hc : power_of_two c) (hashed i : Nat) :
    probe hashed c i = (hashed + i) % c := by
  obtain ⟨j, hj, rfl⟩ := hc
  exact probe_pow j hj hashed i

theorem fast_mod2_mod {c : Nat} (hc : power_of_two c) (x : Nat) :
    fast_mod2 x c = x % c := by
  obtain ⟨j, hj, rfl⟩ := hc
  exact fast_mod2_pow j hj x

theorem probe_lt {c : Nat} (hc : power_of_two c) (hashed i : Nat) :
    probe hashed c i < c := by
  rw [probe_mod hc]
  exact Nat.mod_lt _ (power_of_two_pos hc)

theorem probe_ideal {c : Nat} (hc : power_of_two c) (hashed i : Nat) :
    probe hashed c i = (fast_mod2 hashed c + i) % c := by
  rw [probe_mod hc, fast_mod2_mod hc, Nat.mod_add_mod]

theorem probe_inj {c : Nat} (hc : power_of_two c) (hashed : Nat) {d e : Nat}
    (hd : d < c) (he : e < c) (h : probe hashed c d = probe hashed c e) : d = e := by
  rw [probe_mod hc, probe_mod hc] at h
  have h1 : hashed + d ≡ hashed + e [MOD c] := h
  exact (Nat.ModEq.add_left_cancel' hashed h1).eq_of_lt_of_lt hd he

theorem probe_surj {c : Nat} (hc : power_of_two c) (hashed : Nat) {idx : Nat}
    (hidx : idx < c) : ∃ d, d < c ∧ probe hashed c d = idx := by
  have hpos := power_of_two_pos hc
  have hr : hashed % c < c := Nat.mod_lt _ hpos
  by_cases h : hashed % c ≤ idx
  · refine ⟨idx - hashed % c, by omega, ?_⟩
    rw [probe_mod hc, ← Nat.mod_add_mod]
    have h1 : hashed % c + (idx - hashed % c) = idx := by omega
    rw [h1, Nat.mod_eq_of_lt hidx]
  · refine ⟨idx + c - hashed % c, by omega, ?_⟩
    rw [probe_mod hc, ← Nat.mod_add_mod]
    have h1 : hashed % c + (idx + c - hashed % c) = idx + c := by omega
    rw [h1, Nat.add_mod_right, Nat.mod_eq_of_lt hidx]

end arithmetic

/-! ## Buffer access -/

section access

variable {Key : Type} [DecidableEq Key] [Inhabited Key]

theorem load_of_lt {buf : List (unordered_set_node Key)} {i : Nat} (h : i < buf.length) :
    load buf i = .ok (slot buf i) := by
  unfold load slot
  rw [List.getD_eq_getElem?_getD, List.getElem?_eq_getElem h]
  rfl

theorem store_of_lt {buf : List (unordered_set_node Key)} {i : Nat} (h : i < buf.length)
    (n : unordered_set_node Key) : store buf i n = .ok (buf.set i n) := by
  unfold store
  rw [if_pos h]

theorem slot_set_self {buf : List (unordered_set_node Key)} {i : Nat} (h : i < buf.length)
    (n : unordered_set_node Key) : slot (buf.set i n) i = n := by
  unfold slot
  rw [List.getD_eq_getElem?_getD, List.getElem?_set_self h]
  rfl

theorem slot_set_ne (buf : List (unordered_set_node Key)) {i j : Nat} (h : i ≠ j)
    (n : unordered_set_node Key) : slot (buf.set i n) j = slot buf j := by
  unfold slot
  rw [List.getD_eq_getElem?_getD, List.getD_eq_getElem?_getD, List.getElem?_set_ne h]

theorem slot_past_end {buf : List (unordered_set_node Key)} {i : Nat} (h : buf.length ≤ i) :
    slot buf i = empty_node := by
  unfold slot
  rw [List.getD_eq_getElem?_getD, List.getElem?_eq_none h]
  rfl

theorem lt_of_occupied {buf : List (unordered_set_node Key)} {i : Nat}
    (h : (slot buf i).is_occupied = true) : i < buf.length := by
  by_contra hcon
  rw [slot_past_end (by omega)] at h
  simp [empty_node] at h

theorem slot_replicate (n i : Nat) :
    slot (List.replicate n (empty_node : unordered_set_node Key)) i = empty_node := by
  unfold slot
  rw [List.getD_eq_getElem?_getD, List.getElem?_replicate]
  split <;> rfl

theorem slot_eq_getElem {buf : List (unordered_set_node Key)} {i : Nat} (h : i < buf.length) :
    slot buf i = buf[i] := by
  unfold slot
  exact List.getD_eq_getElem buf empty_node h

theorem stored_iff (buf : List (unordered_set_node Key)) (k : Key) :
    stored buf k ↔
      ∃ i, i < buf.length ∧ (slot buf i).is_occupied = true ∧ (slot buf i).key = k := by
  unfold stored stored_keys
  simp only [List.mem_map, List.mem_filter]
  constructor
  · rintro ⟨n, ⟨hn, hocc⟩, hk⟩
    obtain ⟨i, hi, rfl⟩ := List.mem_iff_getElem.mp hn
    exact ⟨i, hi, by rw [slot_eq_getElem hi]; exact hocc, by rw [slot_eq_getElem hi]; exact hk⟩
  · rintro ⟨i, hi, hocc, hk⟩
    rw [slot_eq_getElem hi] at hocc hk
    exact ⟨buf[i], ⟨List.getElem_mem hi, hocc⟩, hk⟩

end access

/-! ## The probe loop of `__insert` -/

section insert_loop

variable {Key : Type} [DecidableEq Key] [Inhabited Key]

theorem insert_loop_stop (k : Key) (hashed c : Nat) (buf : List (unordered_set_node Key))
    (hlen : ∀ i, probe hashed c i < buf.length) :
    ∀ (rem i j : Nat), i ≤ j → j < i + rem → i + rem = c →
      (∀ d, i ≤ d → d < j → (slot buf (probe hashed c d)).is_occupied = true ∧
        (slot buf (probe hashed c d)).key ≠ k) →
      ((slot buf (probe hashed c j)).is_occupied = false ∨
        (slot buf (probe hashed c j)).key = k) →
      __insert_loop k hashed c buf rem i =
        if (slot buf (probe hashed c j)).is_occupied = false
        then .ok (true, buf.set (probe hashed c j)
          { key := k, probe_count := 0, is_occupied := true })
        else .ok (false, buf) := by
  intro rem
  induction rem with
  | zero => intro i j h1 h2; omega
  | succ rem ih =>
    intro i j h1 h2 h3 hbefore hstop
    unfold __insert_loop
    simp only []
    have hl : load buf (fast_mod2 ((hashed + i) % size_mod) c) = .ok (slot buf (probe hashed c i)) :=
      load_of_lt (hlen i)
    rw [hl]
    simp only []
    by_cases hij : i = j
    · subst hij
      by_cases hocc : (slot buf (probe hashed c i)).is_occupied = false
      · rw [if_pos hocc, if_pos hocc]
        have hs := store_of_lt (hlen i) ({ key := k, probe_count := 0, is_occupied := true } : unordered_set_node Key)
        unfold probe at hs
        rw [hs]
        rfl
      · rw [if_neg hocc, if_neg hocc]
        have hk : (slot buf (probe hashed c i)).key = k := by
          rcases hstop with h | h
          · exact absurd h hocc
          · exact h
        rw [if_pos hk]
    · have hlt : i < j := by omega
      obtain ⟨ho, hk⟩ := hbefore i (le_refl i) hlt
      have hocc : ¬ (slot buf (probe hashed c i)).is_occupied = false := by
        rw [ho]; simp
      rw [if_neg hocc, if_neg hk]
      have hne : ¬ i = c - 1 := by omega
      rw [if_neg hne]
      exact ih (i + 1) j (by omega) (by omega) (by omega)
        (fun d hd1 hd2 => hbefore d (by omega) hd2) hstop

theorem exists_first_stop {c : Nat} (hc : power_of_two c) (hashed : Nat)
    (buf : List (unordered_set_node Key)) (hlen : buf.length = c) (k : Key)
    (h : has_empty_slot buf ∨ stored buf k) :
    ∃ j, j < c ∧
      (∀ d, d < j → (slot buf (probe hashed c d)).is_occupied = true ∧
        (slot buf (probe hashed c d)).key ≠ k) ∧
      ((slot buf (probe hashed c j)).is_occupied = false ∨
        (slot buf (probe hashed c j)).key = k) := by
  have hex : ∃ d, d < c ∧ ((slot buf (probe hashed c d)).is_occupied = false ∨
      (slot buf (probe hashed c d)).key = k) := by
    rcases h with ⟨i, hi, hv⟩ | hs
    · obtain ⟨d, hd, hp⟩ := probe_surj hc hashed (hlen ▸ hi)
      exact ⟨d, hd, Or.inl (by rw [hp]; exact hv)⟩
    · obtain ⟨i, hi, _, hk⟩ := (stored_iff buf k).mp hs
      obtain ⟨d, hd, hp⟩ := probe_surj hc hashed (hlen ▸ hi)
      exact ⟨d, hd, Or.inr (by rw [hp]; exact hk)⟩
  classical
  refine ⟨Nat.find hex, (Nat.find_spec hex).1, ?_, (Nat.find_spec hex).2⟩
  intro d hd
  have hmin := Nat.find_min hex hd
  have hdc : d < c := lt_trans hd (Nat.find_spec hex).1
  constructor
  · by_contra hcon
    exact hmin ⟨hdc, Or.inl (by simpa using hcon)⟩
  · intro hcon
    exact hmin ⟨hdc, Or.inr hcon⟩

theorem insert_result {c : Nat} (hc : power_of_two c) (hasher : Key → Nat)
    (buf : List (unordered_set_node Key)) (hlen : buf.length = c) (k : Key)
    (h : has_empty_slot buf ∨ stored buf k) :
    ∃ j, j < c ∧
      (∀ d, d < j → (slot buf (probe (hasher k % size_mod) c d)).is_occupied = true ∧
        (slot buf (probe (hasher k % size_mod) c d)).key ≠ k) ∧
      (((slot buf (probe (hasher k % size_mod) c j)).is_occupied = true ∧
          (slot buf (probe (hasher k % size_mod) c j)).key = k ∧
          __insert hasher k buf c = .ok (false, buf)) ∨
        ((slot buf (probe (hasher k % size_mod) c j)).is_occupied = false ∧
          __insert hasher k buf c = .ok (true, buf.set (probe (hasher k % size_mod) c j)
            { key := k, probe_count := 0, is_occupied := true }))) := by
  obtain ⟨j, hj, hbefore, hstop⟩ := exists_first_stop hc (hasher k % size_mod) buf hlen k h
  have hl : ∀ i, probe (hasher k % size_mod) c i < buf.length := by
    intro i; rw [hlen]; exact probe_lt hc _ i
  have hrun := insert_loop_stop k (hasher k % size_mod) c buf hl c 0 j (Nat.zero_le j)
    (by omega) (by omega) (fun d _ hd => hbefore d hd) hstop
  refine ⟨j, hj, hbefore, ?_⟩
  by_cases hocc : (slot buf (probe (hasher k % size_mod) c j)).is_occupied = false
  · right
    rw [if_pos hocc] at hrun
    exact ⟨hocc, hrun⟩
  · left
    rw [if_neg hocc] at hrun
    have hk : (slot buf (probe (hasher k % size_mod) c j)).key = k := by
      rcases hstop with h | h
      · exact absurd h hocc
      · exact h
    exact ⟨by simpa using hocc, hk, hrun⟩

end insert_loop

/-! ## The loop of `find` -/

section find_loop

variable {Key : Type} [DecidableEq Key] [Inhabited Key]

theorem probe_fold (hashed c i : Nat) :
    fast_mod2 ((hashed + i) % size_mod) c = probe hashed c i := rfl

theorem probe_fold_succ (hashed c i : Nat) :
    fast_mod2 ((hashed + i + 1) % size_mod) c = probe hashed c (i + 1) := rfl

theorem probe_zero (hashed c : Nat) : probe hashed c 0 = fast_mod2 (hashed % size_mod) c := rfl

theorem find_loop_hit (k : Key) (hashed c : Nat) (buf : List (unordered_set_node Key))
    (hlen : ∀ i, probe hashed c i < buf.length) :
    ∀ (rem i j : Nat), i < j → j ≤ i + rem →
      (∀ d, i ≤ d → d < j → (slot buf (probe hashed c d)).is_occupied = true) →
      (∀ d, i < d → d < j → (slot buf (probe hashed c d)).key ≠ k) →
      (slot buf (probe hashed c j)).is_occupied = true →
      (slot buf (probe hashed c j)).key = k →
      ∃ pos buf1, find_loop k hashed c buf rem i = .ok (pos, buf1) ∧
        (pos = probe hashed c (j - 1) ∨ pos = probe hashed c j) ∧
        buf1.length = buf.length ∧
        (slot buf1 pos).is_occupied = true ∧ (slot buf1 pos).key = k := by
  intro rem
  induction rem with
  | zero => intro i j h1 h2; omega
  | succ rem ih =>
    intro i j h1 h2 hocc hne hjo hjk
    unfold find_loop
    simp only [probe_fold, probe_fold_succ]
    rw [load_of_lt (hlen i)]
    simp only []
    rw [if_pos (hocc i (le_refl i) h1), load_of_lt (hlen (i + 1))]
    simp only []
    by_cases hij : i + 1 = j
    · subst hij
      rw [if_pos ⟨hjo, hjk⟩]
      have hidx : ∀ n, probe hashed c i < (buf.set (probe hashed c (i + 1)) n).length := by
        intro n; rw [List.length_set]; exact hlen i
      rw [load_of_lt (hidx _)]
      simp only []
      split
      · refine ⟨_, _, rfl, Or.inl (by simp), ?_, ?_, ?_⟩
        · simp only [List.length_set]
        · rw [slot_set_self (by simp only [List.length_set]; exact hlen i)]
          exact hjo
        · rw [slot_set_self (by simp only [List.length_set]; exact hlen i)]
          exact hjk
      · refine ⟨_, _, rfl, Or.inr rfl, ?_, ?_, ?_⟩
        · simp only [List.length_set]
        · rw [slot_set_self (hlen (i + 1))]
          exact hjo
        · rw [slot_set_self (hlen (i + 1))]
          exact hjk
    · have hk : ¬ ((slot buf (probe hashed c (i + 1))).is_occupied = true ∧
          (slot buf (probe hashed c (i + 1))).key = k) := by
        intro hcon
        exact hne (i + 1) (by omega) (by omega) hcon.2
      rw [if_neg hk]
      exact ih (i + 1) j (by omega) (by omega) (fun d hd1 hd2 => hocc d (by omega) hd2)
        (fun d hd1 hd2 => hne d (by omega) hd2) hjo hjk

theorem find_buf_hit {c : Nat} (hc : power_of_two c) (hasher : Key → Nat)
    (buf : List (unordered_set_node Key)) (hlen : buf.length = c) (k : Key) (j : Nat)
    (hj : j < c) (hr : reached (hasher k % size_mod) c buf k j) :
    ∃ pos buf1, find_buf hasher k c buf = .ok (pos, buf1) ∧ pos < c ∧
      buf1.length = c ∧ (slot buf1 pos).is_occupied = true ∧ (slot buf1 pos).key = k := by
  have hl : ∀ i, probe (hasher k % size_mod) c i < buf.length := by
    intro i; rw [hlen]; exact probe_lt hc _ i
  obtain ⟨hbefore, hjo, hjk⟩ := hr
  unfold find_buf
  simp only []
  have h0 : fast_mod2 (hasher k % size_mod) c = probe (hasher k % size_mod) c 0 := by
    unfold probe
    rw [Nat.add_zero, Nat.mod_mod]
  rw [h0, load_of_lt (hl 0)]
  simp only []
  by_cases hj0 : j = 0
  · subst hj0
    rw [if_pos ⟨hjo, hjk⟩]
    refine ⟨_, _, rfl, probe_lt hc _ 0, ?_, ?_, ?_⟩
    · rw [List.length_set]; exact hlen
    · rw [slot_set_self (hl 0)]; exact hjo
    · rw [slot_set_self (hl 0)]; exact hjk
  · have hk : ¬ ((slot buf (probe (hasher k % size_mod) c 0)).is_occupied = true ∧
        (slot buf (probe (hasher k % size_mod) c 0)).key = k) := by
      intro hcon
      exact (hbefore 0 (by omega)).2 hcon.2
    rw [if_neg hk]
    obtain ⟨pos, buf1, he, hpos, hlen1, ho, hkk⟩ :=
      find_loop_hit k (hasher k % size_mod) c buf hl c 0 j (by omega) (by omega)
        (fun d _ hd => (hbefore d hd).1) (fun d _ hd => (hbefore d hd).2) hjo hjk
    refine ⟨pos, buf1, he, ?_, by rw [hlen1, hlen], ho, hkk⟩
    rcases hpos with h | h <;> rw [h] <;> exact probe_lt hc _ _

theorem find_loop_sound (k : Key) (hashed c : Nat) (buf : List (unordered_set_node Key))
    (hlen : ∀ i, probe hashed c i < buf.length) (hcap : ∀ i, probe hashed c i < c) :
    ∀ (rem i : Nat), ∃ pos buf1, find_loop k hashed c buf rem i = .ok (pos, buf1) ∧
      buf1.length = buf.length ∧
      ((pos = c ∧ buf1 = buf) ∨
        (pos < c ∧ stored buf k ∧ (slot buf1 pos).is_occupied = true ∧
          (slot buf1 pos).key = k)) := by
  intro rem
  induction rem with
  | zero => intro i; exact ⟨c, buf, rfl, rfl, Or.inl ⟨rfl, rfl⟩⟩
  | succ rem ih =>
    intro i
    unfold find_loop
    simp only [probe_fold, probe_fold_succ]
    rw [load_of_lt (hlen i)]
    simp only []
    by_cases ho : (slot buf (probe hashed c i)).is_occupied = true
    · rw [if_pos ho, load_of_lt (hlen (i + 1))]
      simp only []
      by_cases hk : (slot buf (probe hashed c (i + 1))).is_occupied = true ∧
          (slot buf (probe hashed c (i + 1))).key = k
      · rw [if_pos hk]
        have hst : stored buf k :=
          (stored_iff buf k).mpr ⟨_, hlen (i + 1), hk.1, hk.2⟩
        have hidx : ∀ n, probe hashed c i < (buf.set (probe hashed c (i + 1)) n).length := by
          intro n; rw [List.length_set]; exact hlen i
        rw [load_of_lt (hidx _)]
        simp only []
        split
        · refine ⟨_, _, rfl, by simp only [List.length_set], Or.inr ⟨hcap i, hst, ?_, ?_⟩⟩
          · rw [slot_set_self (by simp only [List.length_set]; exact hlen i)]
            exact hk.1
          · rw [slot_set_self (by simp only [List.length_set]; exact hlen i)]
            exact hk.2
        · refine ⟨_, _, rfl, by simp only [List.length_set], Or.inr ⟨hcap (i + 1), hst, ?_, ?_⟩⟩
          · rw [slot_set_self (hlen (i + 1))]
            exact hk.1
          · rw [slot_set_self (hlen (i + 1))]
            exact hk.2
      · rw [if_neg hk]
        exact ih (i + 1)
    · rw [if_neg ho]
      exact ⟨c, buf, rfl, rfl, Or.inl ⟨rfl, rfl⟩⟩

theorem find_buf_sound {c : Nat} (hc : power_of_two c) (hasher : Key → Nat)
    (buf : List (unordered_set_node Key)) (hlen : buf.length = c) (k : Key) :
    ∃ pos buf1, find_buf hasher k c buf = .ok (pos, buf1) ∧ buf1.length = c ∧
      ((pos = c ∧ buf1 = buf) ∨
        (pos < c ∧ stored buf k ∧ (slot buf1 pos).is_occupied = true ∧
          (slot buf1 pos).key = k)) := by
  have hl : ∀ i, probe (hasher k % size_mod) c i < buf.length := by
    intro i; rw [hlen]; exact probe_lt hc _ i
  unfold find_buf
  simp only []
  have h0 : fast_mod2 (hasher k % size_mod) c = probe (hasher k % size_mod) c 0 := by
    unfold probe
    rw [Nat.add_zero, Nat.mod_mod]
  rw [h0, load_of_lt (hl 0)]
  simp only []
  by_cases hk : (slot buf (probe (hasher k % size_mod) c 0)).is_occupied = true ∧
      (slot buf (probe (hasher k % size_mod) c 0)).key = k
  · rw [if_pos hk]
    refine ⟨_, _, rfl, by rw [List.length_set]; exact hlen,
      Or.inr ⟨probe_lt hc _ 0, (stored_iff buf k).mpr ⟨_, hl 0, hk.1, hk.2⟩, ?_, ?_⟩⟩
    · rw [slot_set_self (hl 0)]; exact hk.1
    · rw [slot_set_self (hl 0)]; exact hk.2
  · rw [if_neg hk]
    obtain ⟨pos, buf1, he, hlen1, hres⟩ :=
      find_loop_sound k (hasher k % size_mod) c buf hl (fun i => probe_lt hc _ i) c 0
    exact ⟨pos, buf1, he, by rw [hlen1, hlen], hres⟩

end find_loop

/-! ## Stored keys and occupancy counts under a write -/

section keys

variable {Key : Type} [DecidableEq Key] [Inhabited Key]

theorem stored_keys_cons (a : unordered_set_node Key) (l : List (unordered_set_node Key)) :
    stored_keys (a :: l) = if a.is_occupied = true then a.key :: stored_keys l else stored_keys l := by
  unfold stored_keys
  by_cases h : a.is_occupied = true
  · simp [List.filter_cons, h]
  · simp [List.filter_cons, h]

theorem stored_keys_set_perm (n : unordered_set_node Key) (hn : n.is_occupied = true) :
    ∀ (buf : List (unordered_set_node Key)) (p : Nat), p < buf.length →
      (slot buf p).is_occupied = false →
      (stored_keys (buf.set p n)).Perm (n.key :: stored_keys buf) := by
  intro buf
  induction buf with
  | nil => intro p hp; simp at hp
  | cons a l ih =>
    intro p hp hv
    cases p with
    | zero =>
      have ha : a.is_occupied = false := by
        have : slot (a :: l) 0 = a := rfl
        rw [this] at hv; exact hv
      rw [List.set_cons_zero, stored_keys_cons, stored_keys_cons, if_pos hn, if_neg (by simp [ha])]
    | succ p =>
      have hv1 : (slot l p).is_occupied = false := hv
      have hp1 : p < l.length := by simpa using hp
      have h1 := ih p hp1 hv1
      rw [List.set_cons_succ, stored_keys_cons, stored_keys_cons]
      by_cases ha : a.is_occupied = true
      · rw [if_pos ha, if_pos ha]
        exact (List.Perm.cons a.key h1).trans (List.Perm.swap n.key a.key _)
      · rw [if_neg ha, if_neg ha]
        exact h1

theorem set_getElem_same (buf : List (unordered_set_node Key)) (p : Nat) (hp : p < buf.length) :
    buf.set p buf[p] = buf := by
  apply List.ext_getElem?
  intro i
  rw [List.getElem?_set]
  by_cases h : p = i
  · subst h
    rw [if_pos rfl, if_pos hp, List.getElem?_eq_getElem hp]
  · rw [if_neg h]

theorem stored_keys_clear_perm (buf : List (unordered_set_node Key)) (p : Nat)
    (ho : (slot buf p).is_occupied = true) :
    (stored_keys buf).Perm ((slot buf p).key :: stored_keys (buf.set p empty_node)) := by
  have hp : p < buf.length := lt_of_occupied ho
  have hp1 : p < (buf.set p (empty_node : unordered_set_node Key)).length := by
    rw [List.length_set]; exact hp
  have hv : (slot (buf.set p (empty_node : unordered_set_node Key)) p).is_occupied = false := by
    rw [slot_set_self hp]; rfl
  have h := stored_keys_set_perm (slot buf p) ho (buf.set p empty_node) p hp1 hv
  have hb : (buf.set p (empty_node : unordered_set_node Key)).set p (slot buf p) = buf := by
    rw [List.set_set, slot_eq_getElem hp, set_getElem_same buf p hp]
  rw [hb] at h
  exact h

theorem occupied_count_eq_length (buf : List (unordered_set_node Key)) :
    occupied_count buf = (stored_keys buf).length := by
  unfold occupied_count stored_keys
  rw [List.length_map, List.countP_eq_length_filter]

theorem has_empty_of_count_lt (buf : List (unordered_set_node Key))
    (h : occupied_count buf < buf.length) : has_empty_slot buf := by
  by_contra hcon
  have hall : ∀ n ∈ buf, (fun n : unordered_set_node Key => n.is_occupied) n = true := by
    intro n hn
    obtain ⟨i, hi, rfl⟩ := List.mem_iff_getElem.mp hn
    by_contra hv
    apply hcon
    refine ⟨i, hi, ?_⟩
    rw [slot_eq_getElem hi]
    simpa using hv
  have := List.countP_eq_length.mpr hall
  unfold occupied_count at h
  omega

theorem count_lt_of_has_empty (buf : List (unordered_set_node Key))
    (h : has_empty_slot buf) : occupied_count buf < buf.length := by
  obtain ⟨i, hi, hv⟩ := h
  have hle : occupied_count buf ≤ buf.length := List.countP_le_length _
  rcases Nat.lt_or_ge (occupied_count buf) buf.length with h1 | h1
  · exact h1
  · have heq : List.countP (fun n : unordered_set_node Key => n.is_occupied) buf = buf.length := by
      unfold occupied_count at h1 hle; omega
    have hall := List.countP_eq_length.mp heq
    have := hall buf[i] (List.getElem_mem hi)
    rw [slot_eq_getElem hi] at hv
    simp [hv] at this

end keys

/-! ## What `__insert` leaves behind -/

section insert_effect

variable {Key : Type} [DecidableEq Key] [Inhabited Key]

theorem occupied_set_of_occupied (buf : List (unordered_set_node Key)) (p x : Nat)
    (n : unordered_set_node Key) (hn : n.is_occupied = true)
    (hx : (slot buf x).is_occupied = true) : (slot (buf.set p n) x).is_occupied = true := by
  by_cases h : p = x
  · subst h
    rw [slot_set_self (lt_of_occupied hx)]; exact hn
  · rw [slot_set_ne buf h]; exact hx

theorem reached_of_stored {c : Nat} (hc : power_of_two c) (hasher : Key → Nat)
    (buf : List (unordered_set_node Key)) (hlen : buf.length = c)
    (hrun : contiguous_run hasher c buf) (k : Key) (hs : stored buf k) :
    ∃ j, j < c ∧ reached (hasher k % size_mod) c buf k j := by
  obtain ⟨i, hi, hocc, hkey⟩ := (stored_iff buf k).mp hs
  rw [hlen] at hi
  obtain ⟨D, hD, hp⟩ := probe_surj hc (hasher k % size_mod) hi
  have hall : ∀ e, e < D → (slot buf (probe (hasher k % size_mod) c e)).is_occupied = true := by
    intro e he
    have h1 := hrun i hi hocc D hD
    rw [hkey] at h1
    unfold ideal_index at h1
    rw [← probe_ideal hc] at h1
    have h2 := h1 hp e he
    rw [← probe_ideal hc] at h2
    exact h2
  have hex : ∃ d, d ≤ D ∧ (slot buf (probe (hasher k % size_mod) c d)).key = k :=
    ⟨D, le_refl D, by rw [hp]; exact hkey⟩
  classical
  have hspec := Nat.find_spec hex
  refine ⟨Nat.find hex, lt_of_le_of_lt hspec.1 hD, ?_, ?_, hspec.2⟩
  · intro d hd
    have hmin := Nat.find_min hex hd
    refine ⟨hall d (lt_of_lt_of_le hd hspec.1), ?_⟩
    intro hcon
    exact hmin ⟨le_of_lt (lt_of_lt_of_le hd hspec.1), hcon⟩
  · rcases Nat.lt_or_ge (Nat.find hex) D with h | h
    · exact hall _ h
    · have : Nat.find hex = D := le_antisymm hspec.1 h
      rw [this, hp]; exact hocc

theorem insert_of_reached {c : Nat} (hc : power_of_two c) (hasher : Key → Nat)
    (buf : List (unordered_set_node Key)) (hlen : buf.length = c) (k : Key) (j : Nat)
    (hj : j < c) (hr : reached (hasher k % size_mod) c buf k j) :
    __insert hasher k buf c = .ok (false, buf) := by
  have hl : ∀ i, probe (hasher k % size_mod) c i < buf.length := by
    intro i; rw [hlen]; exact probe_lt hc _ i
  have hrun := insert_loop_stop k (hasher k % size_mod) c buf hl c 0 j (Nat.zero_le j)
    (by omega) (by omega) (fun d _ hd => hr.1 d hd) (Or.inr hr.2.2)
  rw [if_neg (by rw [hr.2.1]; simp)] at hrun
  exact hrun

theorem reached_after_set {c : Nat} (hc : power_of_two c) (hashed : Nat)
    (buf : List (unordered_set_node Key)) (hlen : buf.length = c) (k : Key) (j : Nat)
    (hj : j < c)
    (hbefore : ∀ d, d < j → (slot buf (probe hashed c d)).is_occupied = true ∧
      (slot buf (probe hashed c d)).key ≠ k) :
    reached hashed c (buf.set (probe hashed c j)
      { key := k, probe_count := 0, is_occupied := true }) k j := by
  have hp : probe hashed c j < buf.length := by rw [hlen]; exact probe_lt hc _ j
  refine ⟨?_, ?_, ?_⟩
  · intro d hd
    have hne : probe hashed c j ≠ probe hashed c d := by
      intro hcon
      have := probe_inj hc hashed hj (lt_trans hd hj) hcon
      omega
    rw [slot_set_ne buf hne]
    exact hbefore d hd
  · rw [slot_set_self hp]
  · rw [slot_set_self hp]

theorem contiguous_after_set {c : Nat} (hc : power_of_two c) (hasher : Key → Nat)
    (buf : List (unordered_set_node Key)) (hlen : buf.length = c)
    (hrun : contiguous_run hasher c buf) (k : Key) (j : Nat) (hj : j < c)
    (hbefore : ∀ d, d < j →
      (slot buf (probe (hasher k % size_mod) c d)).is_occupied = true) :
    contiguous_run hasher c (buf.set (probe (hasher k % size_mod) c j)
      { key := k, probe_count := 0, is_occupied := true }) := by
  have hp : probe (hasher k % size_mod) c j < buf.length := by
    rw [hlen]; exact probe_lt hc _ j
  intro i hi hocc d hd hD e he
  by_cases hip : probe (hasher k % size_mod) c j = i
  · subst hip
    rw [slot_set_self hp] at hD ⊢
    simp only [] at hD ⊢
    unfold ideal_index at hD ⊢
    rw [← probe_ideal hc] at hD ⊢
    have hdj : d = j := probe_inj hc _ hd hj hD
    subst hdj
    exact occupied_set_of_occupied buf _ _ _ rfl (hbefore e he)
  · rw [slot_set_ne buf hip] at hocc hD ⊢
    exact occupied_set_of_occupied buf _ _ _ rfl (hrun i hi hocc d hd hD e he)

/-- Everything the later proofs need to know about one call of `__insert` on a buffer of
power-of-two size that has an Empty slot or already holds the key. -/
theorem insert_effect {c : Nat} (hc : power_of_two c) (hasher : Key → Nat)
    (buf : List (unordered_set_node Key)) (hlen : buf.length = c) (k : Key)
    (h : has_empty_slot buf ∨ stored buf k) :
    ∃ b buf1, __insert hasher k buf c = .ok (b, buf1) ∧ buf1.length = c ∧
      (∃ j, j < c ∧ reached (hasher k % size_mod) c buf1 k j) ∧
      (contiguous_run hasher c buf → contiguous_run hasher c buf1) ∧
      (b = false → buf1 = buf ∧ stored buf k) ∧
      (b = true → (stored_keys buf1).Perm (k :: stored_keys buf)) ∧
      (∀ x, (slot buf x).is_occupied = true → slot buf1 x = slot buf x) := by
  obtain ⟨j, hj, hbefore, hres⟩ := insert_result hc hasher buf hlen k h
  have hp : probe (hasher k % size_mod) c j < buf.length := by
    rw [hlen]; exact probe_lt hc _ j
  rcases hres with ⟨ho, hk, he⟩ | ⟨hv, he⟩
  · refine ⟨false, buf, he, hlen, ⟨j, hj, hbefore, ho, hk⟩, fun hr => hr, ?_, ?_, fun _ _ => rfl⟩
    · intro _
      exact ⟨rfl, (stored_iff buf k).mpr ⟨_, hp, ho, hk⟩⟩
    · intro hcon; cases hcon
  · refine ⟨true, _, he, by rw [List.length_set]; exact hlen,
      ⟨j, hj, reached_after_set hc _ buf hlen k j hj hbefore⟩, ?_, ?_, ?_, ?_⟩
    · intro hr
      exact contiguous_after_set hc hasher buf hlen hr k j hj (fun d hd => (hbefore d hd).1)
    · intro hcon; cases hcon
    · intro _
      exact stored_keys_set_perm _ rfl buf _ hp hv
    · intro x hx
      have hne : probe (hasher k % size_mod) c j ≠ x := by
        intro hcon; subst hcon; rw [hv] at hx; cases hx
      exact slot_set_ne buf hne _

end insert_effect

/-! ## The rehash of `__resize` -/

section resize

variable {Key : Type} [DecidableEq Key] [Inhabited Key]

theorem stored_keys_append (l1 l2 : List (unordered_set_node Key)) :
    stored_keys (l1 ++ l2) = stored_keys l1 ++ stored_keys l2 := by
  unfold stored_keys
  rw [List.filter_append, List.map_append]

theorem stored_keys_take_succ (old : List (unordered_set_node Key)) (i : Nat)
    (hi : i < old.length) :
    stored_keys (old.take (i + 1)) =
      stored_keys (old.take i) ++
        (if (slot old i).is_occupied = true then [(slot old i).key] else []) := by
  rw [List.take_succ, stored_keys_append, List.getElem?_eq_getElem hi, slot_eq_getElem hi]
  congr 1
  show stored_keys [old[i]] = _
  rw [stored_keys_cons]
  rfl

theorem stored_keys_take_sublist (old : List (unordered_set_node Key)) (i : Nat) :
    (stored_keys (old.take i)).Sublist (stored_keys old) := by
  unfold stored_keys
  exact ((List.take_sublist i old).filter _).map _

theorem stored_keys_replicate (n : Nat) :
    stored_keys (List.replicate n (empty_node : unordered_set_node Key)) = [] := by
  unfold stored_keys
  rw [List.map_eq_nil_iff, List.filter_eq_nil_iff]
  intro a ha
  rw [List.eq_of_mem_replicate ha]
  simp [empty_node]

theorem contiguous_replicate (hasher : Key → Nat) (n : Nat) :
    contiguous_run hasher n (List.replicate n (empty_node : unordered_set_node Key)) := by
  intro i hi hocc
  rw [slot_replicate] at hocc
  simp [empty_node] at hocc

theorem resize_loop_spec {n : Nat} (hn : power_of_two n) (hasher : Key → Nat)
    (old : List (unordered_set_node Key)) (hnd : no_duplicates old)
    (hcnt : occupied_count old < n) :
    ∀ (rem i : Nat) (buf : List (unordered_set_node Key)), i + rem = old.length →
      buf.length = n → contiguous_run hasher n buf →
      (stored_keys buf).Perm (stored_keys (old.take i)) →
      ∃ buf1, __resize_loop hasher old n rem i buf = .ok buf1 ∧ buf1.length = n ∧
        contiguous_run hasher n buf1 ∧ (stored_keys buf1).Perm (stored_keys old) := by
  intro rem
  induction rem with
  | zero =>
    intro i buf hi hlen hrun hperm
    have : i = old.length := by omega
    subst this
    rw [List.take_length] at hperm
    exact ⟨buf, rfl, hlen, hrun, hperm⟩
  | succ rem ih =>
    intro i buf hi hlen hrun hperm
    have hil : i < old.length := by omega
    unfold __resize_loop
    rw [load_of_lt hil]
    simp only []
    have htake := stored_keys_take_succ old i hil
    by_cases ho : (slot old i).is_occupied = true
    · rw [if_pos ho]
      rw [if_pos ho] at htake
      have hsub := stored_keys_take_sublist old (i + 1)
      have hnd1 : (stored_keys (old.take (i + 1))).Nodup := List.Nodup.sublist hsub hnd
      rw [htake] at hnd1
      have hnotin : (slot old i).key ∉ stored_keys (old.take i) := by
        intro hcon
        have := (List.nodup_append.mp hnd1).2.2
        exact this hcon (List.mem_singleton.mpr rfl)
      have hcount : occupied_count buf < buf.length := by
        rw [occupied_count_eq_length, hperm.length_eq, hlen]
        have h1 := (stored_keys_take_sublist old i).length_le
        rw [occupied_count_eq_length] at hcnt
        omega
      obtain ⟨b, buf1, he, hlen1, _, hrun1, hfalse, htrue, _⟩ :=
        insert_effect hn hasher buf hlen (slot old i).key
          (Or.inl (has_empty_of_count_lt buf hcount))
      rw [he]
      simp only []
      have hb : b = true := by
        cases b with
        | true => rfl
        | false =>
          exfalso
          have hst := (hfalse rfl).2
          unfold stored at hst
          exact hnotin (hperm.mem_iff.mp hst)
      apply ih (i + 1) buf1 (by omega) hlen1 (hrun1 hrun)
      rw [htake]
      refine (htrue hb).trans ?_
      refine (List.Perm.cons _ hperm).trans ?_
      exact (List.perm_append_singleton _ _).symm
    · rw [if_neg ho]
      rw [if_neg ho, List.append_nil] at htake
      apply ih (i + 1) buf (by omega) hlen hrun
      rw [htake]
      exact hperm

theorem resize_spec {n : Nat} (hn : power_of_two n) (hasher : Key → Nat)
    (old : List (unordered_set_node Key)) (hnd : no_duplicates old)
    (hcnt : occupied_count old < n) :
    ∃ buf1, __resize_loop hasher old n old.length 0 (List.replicate n empty_node) = .ok buf1 ∧
      buf1.length = n ∧ contiguous_run hasher n buf1 ∧
      (stored_keys buf1).Perm (stored_keys old) := by
  apply resize_loop_spec hn hasher old hnd hcnt old.length 0 _ (by omega)
    (List.length_replicate _ _) (contiguous_replicate hasher n)
  rw [stored_keys_replicate, List.take_zero]
  exact List.Perm.refl _

end resize

/-! ## `insert` on a valid table -/

section insert_table

variable {Key : Type} [DecidableEq Key] [Inhabited Key]

theorem valid_data {hasher : Key → Nat} {t : unordered_set Key} (hv : valid hasher t) :
    ∃ buf, t.__data = some buf ∧ valid_buf hasher t.__capacity t.__usage buf := by
  unfold valid at hv
  split at hv
  · exact absurd hv id
  · next buf heq => exact ⟨buf, heq, hv⟩

/-- The first statement of `insert`: the doubling when the load test succeeds. -/
theorem insert_rehash_step (hasher : Key → Nat) (c u : Nat)
    (buf : List (unordered_set_node Key)) (hv : valid_buf hasher c u buf) :
    ∃ buf0 c0, (if load_exceeds u c
        then __resize hasher { __capacity := c, __usage := u, __data := some buf }
          (c * 2 % size_mod)
        else .ok { __capacity := c, __usage := u, __data := some buf })
        = .ok { __capacity := c0, __usage := u, __data := some buf0 } ∧
      c0 = (if load_exceeds u c then c * 2 else c) ∧
      buf0.length = c0 ∧ power_of_two c0 ∧ contiguous_run hasher c0 buf0 ∧
      (stored_keys buf0).Perm (stored_keys buf) ∧ has_empty_slot buf0 := by
  obtain ⟨hlen, hc, hbytes, hu, hnd, hrun, hemp⟩ := hv
  have hdbl := double_of_bytes hbytes
  by_cases hl : load_exceeds u c = true
  · rw [if_pos hl, Nat.mod_eq_of_lt hdbl]
    have hc2 := power_of_two_double hc hdbl
    have hcnt : occupied_count buf < c * 2 := by
      have := count_lt_of_has_empty buf hemp
      omega
    obtain ⟨buf1, he, hlen1, hrun1, hperm⟩ := resize_spec hc2 hasher buf hnd hcnt
    have hn : c * 2 * node_size < size_mod := by
      unfold node_size at hbytes ⊢
      omega
    refine ⟨buf1, c * 2, ?_, by rw [if_pos hl], hlen1, hc2, hrun1, hperm, ?_⟩
    · unfold __resize
      simp only []
      rw [hlen] at he
      rw [resize_nodes hn, he]
    · apply has_empty_of_count_lt
      rw [occupied_count_eq_length, hperm.length_eq, ← occupied_count_eq_length, hlen1]
      exact hcnt
  · rw [if_neg hl]
    exact ⟨buf, c, rfl, by rw [if_neg hl], hlen, hc, hrun, List.Perm.refl _, hemp⟩

/-- The effect of `insert` on a valid table. -/
theorem insert_valid (hasher : Key → Nat) (c u : Nat)
    (buf : List (unordered_set_node Key)) (hv : valid_buf hasher c u buf) (k : Key) :
    ∃ buf1 c1 u1, insert hasher { __capacity := c, __usage := u, __data := some buf } k
        = .ok { __capacity := c1, __usage := u1, __data := some buf1 } ∧
      c1 = (if load_exceeds u c then c * 2 else c) ∧
      buf1.length = c1 ∧ power_of_two c1 ∧ contiguous_run hasher c1 buf1 ∧
      (∃ j, j < c1 ∧ reached (hasher k % size_mod) c1 buf1 k j) ∧
      ((stored buf k ∧ u1 = u ∧ (stored_keys buf1).Perm (stored_keys buf) ∧
          (load_exceeds u c = false → buf1 = buf)) ∨
        (¬ stored buf k ∧ u1 = u + 1 ∧ (stored_keys buf1).Perm (k :: stored_keys buf))) := by
  obtain ⟨buf0, c0, he0, hc0, hlen0, hpow0, hrun0, hperm0, hemp0⟩ :=
    insert_rehash_step hasher c u buf hv
  obtain ⟨b, buf1, he, hlen1, hreach, hrun1, hfalse, htrue, _⟩ :=
    insert_effect hpow0 hasher buf0 hlen0 k (Or.inl hemp0)
  have hu : u + 1 < size_mod := by
    obtain ⟨hlen, _, hbytes, hu, _, _, hemp⟩ := hv
    have hdbl := double_of_bytes hbytes
    have := count_lt_of_has_empty buf hemp
    omega
  cases b with
  | false =>
    refine ⟨buf1, c0, u, ?_, hc0, hlen1, hpow0, hrun1 hrun0, hreach, Or.inl ?_⟩
    · unfold insert
      rw [he0]
      simp only []
      rw [he]
      simp
    · obtain ⟨h1, h2⟩ := hfalse rfl
      subst h1
      refine ⟨?_, rfl, hperm0, ?_⟩
      · unfold stored at h2 ⊢
        exact hperm0.mem_iff.mp h2
      · intro hl
        rw [hl] at he0
        simp only [Bool.false_eq_true, if_false] at he0
        injection he0 with h3
        injection h3 with _ _ h4
        injection h4 with h5
        exact h5.symm
  | true =>
    have hns : ¬ stored buf k := by
      intro hs
      have hs0 : stored buf0 k := by
        unfold stored at hs ⊢
        exact hperm0.mem_iff.mpr hs
      obtain ⟨j, hj, hr⟩ := reached_of_stored hpow0 hasher buf0 hlen0 hrun0 k hs0
      have := insert_of_reached hpow0 hasher buf0 hlen0 k j hj hr
      rw [this] at he
      injection he with h3
      injection h3 with h4 _
      cases h4
    refine ⟨buf1, c0, u + 1, ?_, hc0, hlen1, hpow0, hrun1 hrun0, hreach, Or.inr ⟨hns, rfl, ?_⟩⟩
    · unfold insert
      rw [he0]
      simp only []
      rw [he]
      simp [Nat.mod_eq_of_lt hu]
    · exact (htrue rfl).trans (List.Perm.cons k hperm0)

end insert_table

/-! ## Round trip of `insert` and `find`, and `find` as a membership test -/

section claims_insert_find

variable {Key : Type} [DecidableEq Key] [Inhabited Key]

/-- C1. Round trip insert/find: on every valid table, for every hash and every key `k`,
`insert(k)` completes, and on the resulting table the non-const `find(k)` returns a cursor
below the capacity (never the end sentinel) whose slot, in the table as `find` leaves it, is
occupied and holds `k`. -/
theorem insert_then_find_hits (hasher : Key → Nat) (t : unordered_set Key) (k : Key)
    (hv : valid hasher t) :
    ∃ t1 pos t2, insert hasher t k = .ok t1 ∧ find hasher t1 k = .ok (pos, t2) ∧
      pos < t1.__capacity ∧ pos ≠ «end» t1 ∧
      (slot (buffer t2) pos).is_occupied = true ∧ (slot (buffer t2) pos).key = k := by
  obtain ⟨buf, hd, hvb⟩ := valid_data hv
  obtain ⟨c, u, data⟩ := t
  simp only at hd hvb
  subst hd
  obtain ⟨buf1, c1, u1, he, _, hlen1, hpow1, _, ⟨j, hj, hr⟩, _⟩ :=
    insert_valid hasher c u buf hvb k
  obtain ⟨pos, buf2, hf, hpos, _, ho, hk⟩ := find_buf_hit hpow1 hasher buf1 hlen1 k j hj hr
  refine ⟨_, pos, { __capacity := c1, __usage := u1, __data := some buf2 }, he, ?_, hpos, ?_,
    ho, hk⟩
  · unfold find
    simp only []
    rw [hf]
  · show pos ≠ c1
    omega

/-- Witness for C1: the key 25 inserted into the chain table, then looked up. -/
theorem insert_then_find_hits_witness :
    valid identity_hash chain_table ∧
    ∃ t1 pos t2, insert identity_hash chain_table 25 = .ok t1 ∧
      find identity_hash t1 25 = .ok (pos, t2) ∧
      pos < t1.__capacity ∧ pos ≠ «end» t1 ∧
      (slot (buffer t2) pos).is_occupied = true ∧ (slot (buffer t2) pos).key = 25 :=
  ⟨by decide, insert_then_find_hits identity_hash chain_table 25 (by decide)⟩

/-- C4. `find` is a membership test: on every valid table the non-const `find(k)` completes;
it returns the end sentinel exactly when no occupied slot holds `k`, and a cursor other than
the sentinel is below the capacity and points, in the table as `find` leaves it, at an occupied
slot holding `k`. -/
theorem find_is_membership_test (hasher : Key → Nat) (t : unordered_set Key) (k : Key)
    (hv : valid hasher t) :
    ∃ pos t1, find hasher t k = .ok (pos, t1) ∧
      (pos = «end» t ↔ ¬ stored (buffer t) k) ∧
      (pos ≠ «end» t → pos < t.__capacity ∧
        (slot (buffer t1) pos).is_occupied = true ∧ (slot (buffer t1) pos).key = k) := by
  obtain ⟨buf, hd, hvb⟩ := valid_data hv
  obtain ⟨c, u, data⟩ := t
  simp only at hd hvb
  subst hd
  obtain ⟨hlen, hpow, _, _, _, hrun, _⟩ := hvb
  obtain ⟨pos, buf1, hf, hlen1, hres⟩ := find_buf_sound hpow hasher buf hlen k
  refine ⟨pos, { __capacity := c, __usage := u, __data := some buf1 }, ?_, ?_, ?_⟩
  · unfold find
    simp only []
    rw [hf]
  · show pos = c ↔ ¬ stored buf k
    constructor
    · intro hpc hs
      obtain ⟨j, hj, hr⟩ := reached_of_stored hpow hasher buf hlen hrun k hs
      obtain ⟨pos2, buf2, hf2, hpos2, _⟩ := find_buf_hit hpow hasher buf hlen k j hj hr
      rw [hf] at hf2
      injection hf2 with h1
      injection h1 with h2 _
      omega
    · intro hns
      rcases hres with ⟨h1, _⟩ | ⟨_, h2, _⟩
      · exact h1
      · exact absurd h2 hns
  · intro hne
    rcases hres with ⟨h1, _⟩ | ⟨h1, _, h3, h4⟩
    · exact absurd h1 hne
    · exact ⟨h1, h3, h4⟩

/-- Witness for C4: the key 17, third of its chain, looked up in the chain table. -/
theorem find_is_membership_test_witness :
    valid identity_hash chain_table ∧
    ∃ pos t1, find identity_hash chain_table 17 = .ok (pos, t1) ∧
      (pos = «end» chain_table ↔ ¬ stored (buffer chain_table) 17) ∧
      (pos ≠ «end» chain_table → pos < chain_table.__capacity ∧
        (slot (buffer t1) pos).is_occupied = true ∧ (slot (buffer t1) pos).key = 17) :=
  ⟨by decide, find_is_membership_test identity_hash chain_table 17 (by decide)⟩

end claims_insert_find

/-! ## Repeated `insert` -/

section claims_insert_again

variable {Key : Type} [DecidableEq Key] [Inhabited Key]

/-- C5. Insert idempotence on size: on every valid table, for every key `k` already held by an
occupied slot, `insert(k)` completes, leaves `size()` unchanged and leaves the multiset of
stored keys unchanged; `k` is stored exactly once. -/
theorem insert_present_keeps_size_and_keys (hasher : Key → Nat) (t : unordered_set Key)
    (k : Key) (hv : valid hasher t) (hs : stored (buffer t) k) :
    ∃ t1, insert hasher t k = .ok t1 ∧ size t1 = size t ∧
      (stored_keys (buffer t1) : Multiset Key) = (stored_keys (buffer t) : Multiset Key) ∧
      (stored_keys (buffer t1)).count k = 1 := by
  obtain ⟨buf, hd, hvb⟩ := valid_data hv
  obtain ⟨c, u, data⟩ := t
  simp only at hd hvb
  subst hd
  obtain ⟨buf1, c1, u1, he, _, _, _, _, _, hcases⟩ := insert_valid hasher c u buf hvb k
  have hs0 : stored buf k := hs
  rcases hcases with ⟨_, hu, hperm, _⟩ | ⟨hns, _⟩
  · refine ⟨_, he, hu, Multiset.coe_eq_coe.mpr hperm, ?_⟩
    show (stored_keys buf1).count k = 1
    have hnd : (stored_keys buf1).Nodup := hperm.nodup_iff.mpr hvb.2.2.2.2.1
    have hmem : k ∈ stored_keys buf1 := hperm.mem_iff.mpr hs0
    exact List.count_eq_one_of_mem hnd hmem
  · exact absurd hs0 hns

/-- Witness for C5: the stored key 9 inserted again into the chain table. -/
theorem insert_present_keeps_size_and_keys_witness :
    valid identity_hash chain_table ∧ stored (buffer chain_table) 9 ∧
    ∃ t1, insert identity_hash chain_table 9 = .ok t1 ∧ size t1 = size chain_table ∧
      (stored_keys (buffer t1) : Multiset Nat) = (stored_keys (buffer chain_table) : Multiset Nat) ∧
      (stored_keys (buffer t1)).count 9 = 1 :=
  ⟨by decide, by decide,
    insert_present_keeps_size_and_keys identity_hash chain_table 9 (by decide) (by decide)⟩

/-- C6, as stated, fails: the table holding 1 to 5 in capacity 8 is valid; the first `insert(6)`
leaves capacity 8 and count 6, and the second `insert(6)`, finding 6 / 8 above the rebalance
factor, doubles the capacity to 16 before it meets the key. -/
theorem insert_twice_doubles_capacity :
    valid identity_hash five_table ∧
    ∃ t1 t2, insert identity_hash five_table 6 = .ok t1 ∧ insert identity_hash t1 6 = .ok t2 ∧
      t1.__capacity = 8 ∧ t2.__capacity = 16 ∧ t2 ≠ t1 :=
  ⟨by decide, _, _, rfl, rfl, rfl, rfl, by decide⟩

/-- C6, amended. On every valid table `insert(k)` completes, and when the table it leaves does
not exceed the rebalance factor (count / capacity ≤ 0.7), a second `insert(k)` yields exactly
that table again: same capacity, same count, same slots. -/
theorem insert_twice_same_below_load (hasher : Key → Nat) (t : unordered_set Key) (k : Key)
    (hv : valid hasher t) :
    ∃ t1, insert hasher t k = .ok t1 ∧
      (load_exceeds t1.__usage t1.__capacity = false → insert hasher t1 k = .ok t1) := by
  obtain ⟨buf, hd, hvb⟩ := valid_data hv
  obtain ⟨c, u, data⟩ := t
  simp only at hd hvb
  subst hd
  obtain ⟨buf1, c1, u1, he, _, hlen1, hpow1, _, ⟨j, hj, hr⟩, _⟩ :=
    insert_valid hasher c u buf hvb k
  refine ⟨_, he, ?_⟩
  intro hl
  simp only at hl
  unfold insert
  simp only []
  rw [hl]
  simp only [Bool.false_eq_true, if_false]
  rw [insert_of_reached hpow1 hasher buf1 hlen1 k j hj hr]
  simp

/-- Witness for C6, amended: the key 25 inserted twice into the chain table. -/
theorem insert_twice_same_below_load_witness :
    valid identity_hash chain_table ∧
    ∃ t1, insert identity_hash chain_table 25 = .ok t1 ∧
      (load_exceeds t1.__usage t1.__capacity = false → insert identity_hash t1 25 = .ok t1) :=
  ⟨by decide, insert_twice_same_below_load identity_hash chain_table 25 (by decide)⟩

end claims_insert_again

/-! ## The loops of `erase` -/

section erase_loops

variable {Key : Type} [DecidableEq Key] [Inhabited Key]

theorem erase_search_of_reached (k : Key) (hashed c : Nat)
    (buf : List (unordered_set_node Key)) (hlen : ∀ i, probe hashed c i < buf.length) :
    ∀ (rem i j : Nat), i ≤ j → j < i + rem →
      (∀ d, i ≤ d → d < j → (slot buf (probe hashed c d)).key ≠ k) →
      (slot buf (probe hashed c j)).key = k →
      erase_search k hashed c buf rem i = .ok (probe hashed c j) := by
  intro rem
  induction rem with
  | zero => intro i j h1 h2; omega
  | succ rem ih =>
    intro i j h1 h2 hne hk
    unfold erase_search
    simp only [probe_fold]
    rw [load_of_lt (hlen i)]
    simp only []
    by_cases hij : i = j
    · subst hij
      rw [if_pos hk]
    · rw [if_neg (hne i (le_refl i) (by omega))]
      exact ih (i + 1) j (by omega) (by omega) (fun d hd1 hd2 => hne d (by omega) hd2) hk

theorem erase_search_len_total (open_slot c : Nat) (buf : List (unordered_set_node Key))
    (hlen : ∀ i, probe open_slot c i < buf.length) :
    ∀ (rem i : Nat), ∃ len, erase_search_len open_slot c buf rem i = .ok len := by
  intro rem
  induction rem with
  | zero => intro i; exact ⟨1, rfl⟩
  | succ rem ih =>
    intro i
    unfold erase_search_len
    simp only [probe_fold]
    rw [load_of_lt (hlen i)]
    simp only []
    split
    · exact ⟨i, rfl⟩
    · exact ih (i + 1)

theorem erase_walk_spec (hasher : Key → Nat) (remove_loc c : Nat)
    (hp : ∀ i, probe remove_loc c i < c) :
    ∀ (rem i open_slot : Nat) (buf : List (unordered_set_node Key)), buf.length = c →
      open_slot < c → (slot buf open_slot).is_occupied = false →
      ∃ open1 buf1, erase_walk hasher remove_loc c rem i open_slot buf = .ok (open1, buf1) ∧
        buf1.length = c ∧ open1 < c ∧ (slot buf1 open1).is_occupied = false ∧
        (∀ x, stored buf1 x → stored buf x) := by
  intro rem
  induction rem with
  | zero =>
    intro i open_slot buf hlen ho hv
    exact ⟨open_slot, buf, rfl, hlen, ho, hv, fun _ h => h⟩
  | succ rem ih =>
    intro i open_slot buf hlen ho hv
    have hs : probe remove_loc c i < buf.length := by rw [hlen]; exact hp i
    unfold erase_walk
    simp only [probe_fold]
    rw [load_of_lt hs]
    simp only []
    split
    · rw [store_of_lt (by rw [hlen]; exact ho)]
      simp only []
      rw [store_of_lt (by rw [List.length_set]; exact hs)]
      simp only []
      have hlen2 : ((buf.set open_slot (slot buf (probe remove_loc c i))).set
          (probe remove_loc c i) empty_node).length = c := by
        rw [List.length_set, List.length_set]; exact hlen
      have hv2 : (slot ((buf.set open_slot (slot buf (probe remove_loc c i))).set
          (probe remove_loc c i) empty_node) (probe remove_loc c i)).is_occupied = false := by
        rw [slot_set_self (by rw [List.length_set]; exact hs)]
        rfl
      obtain ⟨open1, buf1, he, hlen1, ho1, hv1, hsub⟩ :=
        ih (i + 1) (probe remove_loc c i) _ hlen2 (hp i) hv2
      refine ⟨open1, buf1, he, hlen1, ho1, hv1, ?_⟩
      intro x hx
      have h2 := hsub x hx
      obtain ⟨y, hy, hyo, hyk⟩ := (stored_iff _ x).mp h2
      have hne : probe remove_loc c i ≠ y := by
        intro hcon
        subst hcon
        rw [hv2] at hyo
        cases hyo
      rw [slot_set_ne _ hne] at hyo hyk
      by_cases hoy : open_slot = y
      · subst hoy
        rw [slot_set_self (by rw [hlen]; exact ho)] at hyo hyk
        exact (stored_iff buf x).mpr ⟨_, hs, hyo, hyk⟩
      · rw [slot_set_ne _ hoy] at hyo hyk
        exact (stored_iff buf x).mpr ⟨y, lt_of_occupied hyo, hyo, hyk⟩
    · exact ih (i + 1) open_slot buf hlen ho hv

/-- The effect of `erase` on a valid buffer that holds the key. -/
theorem erase_buf_stored (hasher : Key → Nat) (c u : Nat)
    (buf : List (unordered_set_node Key)) (hv : valid_buf hasher c u buf) (k : Key)
    (hs : stored buf k) :
    ∃ open1 buf1, erase_buf hasher k c buf = .ok (1, open1, buf1) ∧ buf1.length = c ∧
      open1 < c ∧ (slot buf1 open1).is_occupied = false ∧ ¬ stored buf1 k ∧
      (∀ x, stored buf1 x → stored buf x) := by
  obtain ⟨hlen, hpow, _, _, hnd, hrun, _⟩ := hv
  obtain ⟨j, hj, hr⟩ := reached_of_stored hpow hasher buf hlen hrun k hs
  have hl : ∀ h i, probe h c i < buf.length := by
    intro h i; rw [hlen]; exact probe_lt hpow _ i
  have hsearch := erase_search_of_reached k (hasher k % size_mod) c buf (hl _) c 0 j
    (Nat.zero_le j) (by omega) (fun d _ hd => (hr.1 d hd).2) hr.2.2
  have hloc : probe (hasher k % size_mod) c j < c := probe_lt hpow _ j
  have hlen0 : (buf.set (probe (hasher k % size_mod) c j)
      (empty_node : unordered_set_node Key)).length = c := by
    rw [List.length_set]; exact hlen
  obtain ⟨len, hlen_eq⟩ := erase_search_len_total (probe (hasher k % size_mod) c j) c
    (buf.set (probe (hasher k % size_mod) c j) empty_node)
    (by intro i; rw [hlen0]; exact probe_lt hpow _ i) (c - 1) 1
  have hv0 : (slot (buf.set (probe (hasher k % size_mod) c j)
      (empty_node : unordered_set_node Key)) (probe (hasher k % size_mod) c j)).is_occupied
      = false := by
    rw [slot_set_self (by rw [hlen]; exact hloc)]
    rfl
  obtain ⟨open1, buf1, hw, hlen1, ho1, hv1, hsub⟩ :=
    erase_walk_spec hasher (probe (hasher k % size_mod) c j) c (fun i => probe_lt hpow _ i)
      (len - 1) 1 (probe (hasher k % size_mod) c j) _ hlen0 hloc hv0
  have hperm := stored_keys_clear_perm buf (probe (hasher k % size_mod) c j) hr.2.1
  rw [hr.2.2] at hperm
  have hnot : ¬ stored (buf.set (probe (hasher k % size_mod) c j) empty_node) k := by
    intro hcon
    have hnd1 : (k :: stored_keys (buf.set (probe (hasher k % size_mod) c j) empty_node)).Nodup :=
      hperm.nodup_iff.mp hnd
    exact (List.nodup_cons.mp hnd1).1 hcon
  refine ⟨open1, buf1, ?_, hlen1, ho1, hv1, fun h => hnot (hsub k h), ?_⟩
  · unfold erase_buf
    rw [hsearch]
    simp only []
    rw [if_pos (by omega), store_of_lt (by rw [hlen]; exact hloc)]
    simp only []
    rw [hlen_eq]
    simp only []
    rw [hw]
  · intro x hx
    have h1 := hsub x hx
    unfold stored at h1 ⊢
    exact hperm.mem_iff.mpr (List.mem_cons_of_mem _ h1)

end erase_loops

/-! ## Round trip of `erase` and `find` -/

section claims_erase

variable {Key : Type} [DecidableEq Key] [Inhabited Key]

/-- C2. Round trip erase/find: on every valid table, for every key `k` held by an occupied
slot, `erase(k)` returns 1, `size()` drops by exactly 1, the slot at the final `open_slot` of
the repair walk (the slot that held `k` when nothing was shifted) is Empty, no occupied slot
holds `k` any more, and a following `find(k)` returns the end sentinel, the cursor equal to the
capacity. -/
theorem erase_then_find_misses (hasher : Key → Nat) (t : unordered_set Key) (k : Key)
    (hv : valid hasher t) (hs : stored (buffer t) k) :
    ∃ open1 t1 t2, erase hasher t k = .ok (1, t1) ∧ size t1 + 1 = size t ∧
      erase_buf hasher k t.__capacity (buffer t) = .ok (1, open1, buffer t1) ∧
      open1 < t1.__capacity ∧ (slot (buffer t1) open1).is_occupied = false ∧
      ¬ stored (buffer t1) k ∧
      find hasher t1 k = .ok («end» t1, t2) ∧ «end» t1 = t1.__capacity := by
  obtain ⟨buf, hd, hvb⟩ := valid_data hv
  obtain ⟨c, u, data⟩ := t
  simp only at hd hvb
  subst hd
  obtain ⟨open1, buf1, he, hlen1, ho1, hv1, hnot, _⟩ := erase_buf_stored hasher c u buf hvb k hs
  obtain ⟨hlen, hpow, _, hu, _, _, hemp⟩ := hvb
  have hupos : 0 < u := by
    rw [hu, occupied_count_eq_length]
    exact List.length_pos_of_mem hs
  have hult : u < size_mod := by
    have h1 := count_lt_of_has_empty buf hemp
    obtain ⟨j, hj, rfl⟩ := hpow
    have h2 : 2 ^ j < size_mod := by
      rw [size_mod_eq]; exact Nat.pow_lt_pow_right (by norm_num) hj
    omega
  have husub : (u + size_mod - 1) % size_mod = u - 1 := by
    have h4 : u + size_mod - 1 = (u - 1) + size_mod := by omega
    rw [h4, Nat.add_mod_right, Nat.mod_eq_of_lt (by omega)]
  obtain ⟨pos, buf2, hf, _, hres⟩ := find_buf_sound hpow hasher buf1 hlen1 k
  have hposc : pos = c := by
    rcases hres with ⟨h1, _⟩ | ⟨_, h2, _⟩
    · exact h1
    · exact absurd h2 hnot
  subst hposc
  refine ⟨open1, { __capacity := pos, __usage := u - 1, __data := some buf1 },
    { __capacity := pos, __usage := u - 1, __data := some buf2 }, ?_, ?_, he, ho1, hv1, hnot,
    ?_, rfl⟩
  · unfold erase
    simp only []
    rw [he]
    simp [husub]
  · show u - 1 + 1 = u
    omega
  · unfold find
    simp only []
    rw [hf]
    rfl

/-- Witness for C2: the head of the chain erased from the chain table. -/
theorem erase_then_find_misses_witness :
    valid identity_hash chain_table ∧ stored (buffer chain_table) 1 ∧
    ∃ open1 t1 t2, erase identity_hash chain_table 1 = .ok (1, t1) ∧
      size t1 + 1 = size chain_table ∧
      erase_buf identity_hash 1 chain_table.__capacity (buffer chain_table)
        = .ok (1, open1, buffer t1) ∧
      open1 < t1.__capacity ∧ (slot (buffer t1) open1).is_occupied = false ∧
      ¬ stored (buffer t1) 1 ∧
      find identity_hash t1 1 = .ok («end» t1, t2) ∧ «end» t1 = t1.__capacity :=
  ⟨by decide, by decide,
    erase_then_find_misses identity_hash chain_table 1 (by decide) (by decide)⟩

/-- C3, at the failing input: on a freshly constructed set of integer keys, which holds no key,
`erase(0)` matches the zero key of an Empty slot, returns 1 and decrements the count of 0 to
`2 ^ 64 - 1`. -/
theorem erase_absent_zero_key_returns_one :
    ¬ stored (buffer (construct 8 : unordered_set Nat)) 0 ∧
    erase identity_hash (construct 8 : unordered_set Nat) 0
      = .ok (1, { __capacity := 8, __usage := 18446744073709551615,
                  __data := some (List.replicate 8 empty_node) }) :=
  ⟨by decide, rfl⟩

end claims_erase

/-! ## `clear` and `reserve` -/

section claims_clear_reserve

variable {Key : Type} [DecidableEq Key] [Inhabited Key]

/-- C8, at the failing input: after `insert(1)` and `clear()` on a freshly constructed set,
`size()` is 0 while a full scan of the buffer counts one slot whose occupancy flag is set. -/
theorem clear_breaks_count :
    ∃ t1 t2, insert identity_hash (construct 8 : unordered_set Nat) 1 = .ok t1 ∧
      clear t1 = .ok t2 ∧ size t2 = 0 ∧ occupied_count (buffer t2) = 1 :=
  ⟨_, _, rfl, rfl, rfl, rfl⟩

/-- C9, at the failing input: after `insert(1)` and `clear()` on a freshly constructed set the
slot at index 1 still has its occupancy flag set and still holds the key 1, `begin()` has
cursor 1 while `end()` has cursor 8, and `find(1)` returns the cursor 1, not the sentinel. -/
theorem clear_leaves_slots_occupied :
    ∃ t1 t2 t3, insert identity_hash (construct 8 : unordered_set Nat) 1 = .ok t1 ∧
      clear t1 = .ok t2 ∧ size t2 = 0 ∧ t2.__capacity = 8 ∧
      (slot (buffer t2) 1).is_occupied = true ∧ (slot (buffer t2) 1).key = 1 ∧
      «begin» t2 = .ok 1 ∧ «end» t2 = 8 ∧
      find identity_hash t2 1 = .ok (1, t3) :=
  ⟨_, _, _, rfl, rfl, rfl, rfl, rfl, rfl, rfl, rfl, rfl⟩

/-- C10, as stated, fails: on a freshly constructed set (capacity 8, no element) `reserve(4)`,
with 4 below the capacity, rehashes into a buffer of 4 slots: the capacity decreases. -/
theorem reserve_below_capacity_shrinks :
    ∃ t1, reserve identity_hash (construct 8 : unordered_set Nat) 4 = .ok t1 ∧
      4 ≤ (construct 8 : unordered_set Nat).__capacity ∧
      t1.__capacity = 4 ∧ t1.__capacity < (construct 8 : unordered_set Nat).__capacity :=
  ⟨_, rfl, by decide, rfl, by decide⟩

/-- C10, amended. `reserve(n)` compares `n` with the count: for every table and every `n`, when
`n` does not exceed `size()` the call completes and leaves the capacity, the count and every
slot unchanged; whenever a completed call has changed the capacity, `n` exceeds `size()` and
the new capacity is `n`. -/
theorem reserve_acts_only_above_size (hasher : Key → Nat) (t : unordered_set Key) (n : Nat) :
    (n ≤ size t → reserve hasher t n = .ok t) ∧
    (∀ t1, reserve hasher t n = .ok t1 → t1.__capacity ≠ t.__capacity →
      size t < n ∧ t1.__capacity = n) := by
  constructor
  · intro h
    unfold reserve
    rw [if_neg (by unfold size at h; omega)]
  · intro t1 h hne
    unfold reserve at h
    by_cases hn : n > t.__usage
    · rw [if_pos hn] at h
      refine ⟨hn, ?_⟩
      unfold __resize at h
      simp only [] at h
      split at h
      · injection h with h1
        subst h1
        exact absurd rfl hne
      · split at h
        · cases h
        · injection h with h1
          subst h1
          rfl
    · rw [if_neg hn] at h
      injection h with h1
      subst h1
      exact absurd rfl hne

/-- Witness for C10, amended: `reserve(4)` on a freshly constructed set, whose size is 0. -/
theorem reserve_acts_only_above_size_witness :
    size (construct 8 : unordered_set Nat) < 4 ∧
      (construct 4 : unordered_set Nat).__capacity = 4 :=
  (reserve_acts_only_above_size identity_hash (construct 8 : unordered_set Nat) 4).2
    (construct 4) rfl (by decide)

end claims_clear_reserve

/-! ## Sequences of `insert` on a freshly constructed set -/

section insert_sequences

variable {Key : Type} [DecidableEq Key] [Inhabited Key]

theorem valid_construct (hasher : Key → Nat) :
    valid_buf hasher 8 0 (List.replicate 8 (empty_node : unordered_set_node Key)) := by
  refine ⟨List.length_replicate _ _, ⟨3, by norm_num, by norm_num⟩,
    by norm_num [size_mod, node_size], ?_, ?_,
    contiguous_replicate hasher 8, ⟨0, by simp, ?_⟩⟩
  · rw [occupied_count_eq_length, stored_keys_replicate]; rfl
  · unfold no_duplicates
    rw [stored_keys_replicate]
    exact List.nodup_nil
  · rw [slot_replicate]; rfl

/-- One `insert` on a valid table of capacity at least 4 leaves a valid table. -/
theorem insert_valid_step (hasher : Key → Nat) (c u : Nat)
    (buf : List (unordered_set_node Key)) (hv : valid_buf hasher c u buf) (hc4 : 4 ≤ c)
    (hbound : c < 9007199254740992) (k : Key) :
    ∃ buf1 c1 u1, insert hasher { __capacity := c, __usage := u, __data := some buf } k
        = .ok { __capacity := c1, __usage := u1, __data := some buf1 } ∧
      valid_buf hasher c1 u1 buf1 ∧
      c1 = (if load_exceeds u c then c * 2 else c) ∧
      (stored buf k → u1 = u) ∧ (¬ stored buf k → u1 = u + 1) ∧
      (∀ x, stored buf1 x ↔ (x = k ∨ stored buf x)) := by
  obtain ⟨buf1, c1, u1, he, hc1, hlen1, hpow1, hrun1, _, hcases⟩ :=
    insert_valid hasher c u buf hv k
  obtain ⟨hlen, hpow, hbytes, hu, hnd, hrun, hemp⟩ := hv
  have hdbl := double_of_bytes hbytes
  have hult : u < c := by
    have := count_lt_of_has_empty buf hemp
    omega
  have hc1le : c1 ≤ c * 2 := by
    rw [hc1]; split <;> omega
  have hu1c1 : u + 1 < c1 := by
    rw [hc1]
    by_cases hl : load_exceeds u c = true
    · rw [if_pos hl]; omega
    · rw [if_neg hl]
      rw [load_exceeds_iff (by omega) hbound] at hl
      omega
  have hb1 : c1 * node_size * 2 < size_mod := by
    unfold node_size size_mod
    omega
  rcases hcases with ⟨hs, hu1, hperm, _⟩ | ⟨hns, hu1, hperm⟩
  · refine ⟨buf1, c1, u1, he, ⟨hlen1, hpow1, hb1, ?_, hperm.nodup_iff.mpr hnd, hrun1, ?_⟩,
      hc1, fun _ => hu1, fun h => absurd hs h, ?_⟩
    · rw [hu1, hu, occupied_count_eq_length, occupied_count_eq_length, hperm.length_eq]
    · apply has_empty_of_count_lt
      rw [occupied_count_eq_length, hperm.length_eq, ← occupied_count_eq_length, ← hu, hlen1]
      omega
    · intro x
      unfold stored at hs ⊢
      rw [hperm.mem_iff]
      constructor
      · intro h; exact Or.inr h
      · rintro (h | h)
        · rw [h]; exact hs
        · exact h
  · have hcount : occupied_count buf1 = u + 1 := by
      rw [occupied_count_eq_length, hperm.length_eq, List.length_cons,
        ← occupied_count_eq_length, ← hu]
    refine ⟨buf1, c1, u1, he, ⟨hlen1, hpow1, hb1, by rw [hu1, hcount], ?_, hrun1, ?_⟩,
      hc1, fun h => absurd h hns, fun _ => hu1, ?_⟩
    · unfold no_duplicates
      rw [hperm.nodup_iff]
      exact List.nodup_cons.mpr ⟨hns, hnd⟩
    · apply has_empty_of_count_lt
      rw [hcount, hlen1]
      omega
    · intro x
      unfold stored
      rw [hperm.mem_iff, List.mem_cons]

theorem insert_all_spec (hasher : Key → Nat) :
    ∀ (keys : List Key) (c u : Nat) (buf : List (unordered_set_node Key)),
      valid_buf hasher c u buf → 8 ≤ c → (c = 8 ∨ 7 * c < 20 * u) → 10 * u ≤ 7 * c + 10 →
      u + keys.length ≤ 2 ^ 50 →
      ∃ c1 u1 buf1, insert_all hasher { __capacity := c, __usage := u, __data := some buf } keys
          = .ok { __capacity := c1, __usage := u1, __data := some buf1 } ∧
        valid_buf hasher c1 u1 buf1 ∧ 10 * u1 ≤ 7 * c1 + 10 ∧
        (∀ x, stored buf1 x ↔ (x ∈ keys ∨ stored buf x)) ∧
        (keys.Nodup → (∀ x, x ∈ keys → ¬ stored buf x) → u1 = u + keys.length) ∧
        (c = 8 → u + keys.length ≤ 6 → c1 = 8) := by
  intro keys
  induction keys with
  | nil =>
    intro c u buf hv _ _ hload _
    exact ⟨c, u, buf, rfl, hv, hload, by simp, by simp, fun h _ => h⟩
  | cons k ks ih =>
    intro c u buf hv hc8 hcap hload hlen
    have h60 : (2 : Nat) ^ 50 = 1125899906842624 := by norm_num
    rw [List.length_cons, h60] at hlen
    have hbound : c < 9007199254740992 := by
      rcases hcap with h | h
      · omega
      · omega
    obtain ⟨buf1, c1, u1, he, hv1, hc1, hus, huns, hmem1⟩ :=
      insert_valid_step hasher c u buf hv (by omega) hbound k
    have hu1 : u1 = u ∨ u1 = u + 1 := by
      by_cases hs : stored buf k
      · exact Or.inl (hus hs)
      · exact Or.inr (huns hs)
    have hload_iff : load_exceeds u c = true ↔ 7 * c < 10 * u :=
      load_exceeds_iff (by omega) hbound
    have hc1' : (c1 = c * 2 ∧ 7 * c < 10 * u) ∨ (c1 = c ∧ 10 * u ≤ 7 * c) := by
      by_cases hl : load_exceeds u c = true
      · rw [if_pos hl] at hc1
        exact Or.inl ⟨hc1, hload_iff.mp hl⟩
      · rw [if_neg hl] at hc1
        exact Or.inr ⟨hc1, by rw [hload_iff] at hl; omega⟩
    obtain ⟨c2, u2, buf2, he2, hv2, hload2, hmem2, hnodup2, hsix2⟩ :=
      ih c1 u1 buf1 hv1 (by omega) (by omega) (by omega) (by rw [h60]; omega)
    clear ih hbound hlen h60 hload hcap
    refine ⟨c2, u2, buf2, ?_, hv2, hload2, ?_, ?_, ?_⟩
    · unfold insert_all
      rw [he]
      exact he2
    · intro x
      rw [hmem2, hmem1, List.mem_cons]
      constructor
      · rintro (h | h | h)
        · exact Or.inl (Or.inr h)
        · exact Or.inl (Or.inl h)
        · exact Or.inr h
      · rintro ((h | h) | h)
        · exact Or.inr (Or.inl h)
        · exact Or.inl h
        · exact Or.inr (Or.inr h)
    · intro hnd hfresh
      have hnd1 := List.nodup_cons.mp hnd
      have hk : ¬ stored buf k := hfresh k (List.mem_cons_self k ks)
      have h1 : u1 = u + 1 := huns hk
      have h2 := hnodup2 hnd1.2 (by
        intro x hx hsx
        rcases (hmem1 x).mp hsx with h | h
        · rw [h] at hx; exact hnd1.1 hx
        · exact hfresh x (List.mem_cons_of_mem k hx) h)
      rw [h2, h1, List.length_cons]
      omega
    · intro hc hsmall
      rw [List.length_cons] at hsmall
      have hc1eq : c1 = 8 := by omega
      exact hsix2 hc1eq (by omega)

end insert_sequences

/-! ## The load factor along a sequence of `insert` -/

section claims_load_factor

variable {Key : Type} [DecidableEq Key] [Inhabited Key]

/-- C7, as stated, fails: six distinct keys inserted into a freshly constructed set leave the
capacity at 8 with a count of 6, so that `10 * count ≤ 7 * capacity` is false and the capacity
is not 16. -/
theorem six_inserts_exceed_load :
    ∃ t, insert_all identity_hash (construct 8 : unordered_set Nat) [1, 2, 3, 4, 5, 6] = .ok t ∧
      size t = 6 ∧ t.__capacity = 8 ∧ ¬ (10 * size t ≤ 7 * t.__capacity) ∧
      t.__capacity ≠ 16 :=
  ⟨_, rfl, rfl, rfl, by decide, by decide⟩

/-- C7, amended. The load test of `insert` reads the count as it is before the insertion. For
every hash and every sequence of at most `2 ^ 50` inserts into a freshly constructed set
(capacity 8) every call completes, and after the last of them (hence after each of them, a
prefix being such a sequence) `10 * count ≤ 7 * capacity + 10`, that is
`count ≤ 0.7 * capacity + 1`; every inserted key is found by `find`; with distinct keys the
count is the number of keys; and after at most six inserts, six distinct keys in particular,
the capacity is still 8.  Along such a sequence the capacity stays below `2 ^ 53`, where the
test `double(count) / double(capacity) > 0.7` of the code holds exactly when
`10 * count > 7 * capacity`. -/
theorem insert_sequence_load_bound (hasher : Key → Nat) (keys : List Key)
    (hlen : keys.length ≤ 2 ^ 50) :
    ∃ t, insert_all hasher (construct 8) keys = .ok t ∧
      10 * size t ≤ 7 * t.__capacity + 10 ∧
      (∀ k, k ∈ keys → ∃ pos t1, find hasher t k = .ok (pos, t1) ∧ pos ≠ «end» t ∧
        (slot (buffer t1) pos).is_occupied = true ∧ (slot (buffer t1) pos).key = k) ∧
      (keys.Nodup → size t = keys.length) ∧
      (keys.length ≤ 6 → t.__capacity = 8) := by
  obtain ⟨c1, u1, buf1, he, hv1, hload, hmem, hnodup, hsix⟩ :=
    insert_all_spec hasher keys 8 0 (List.replicate 8 empty_node) (valid_construct hasher)
      (le_refl 8) (Or.inl rfl) (by omega) (by omega)
  refine ⟨_, he, hload, ?_, ?_, ?_⟩
  · intro k hk
    obtain ⟨hlen1, hpow1, _, _, _, hrun1, _⟩ := hv1
    have hs : stored buf1 k := (hmem k).mpr (Or.inl hk)
    obtain ⟨j, hj, hr⟩ := reached_of_stored hpow1 hasher buf1 hlen1 hrun1 k hs
    obtain ⟨pos, buf2, hf, hpos, _, ho, hkk⟩ := find_buf_hit hpow1 hasher buf1 hlen1 k j hj hr
    refine ⟨pos, { __capacity := c1, __usage := u1, __data := some buf2 }, ?_, ?_, ho, hkk⟩
    · unfold find
      simp only []
      rw [hf]
    · show pos ≠ c1
      omega
  · intro hnd
    have h := hnodup hnd (by
      intro x _ hsx
      unfold stored at hsx
      rw [stored_keys_replicate] at hsx
      cases hsx)
    show u1 = keys.length
    omega
  · intro h6
    exact hsix rfl (by omega)

/-- Witness for C7, amended: the six keys 1 to 6 under the identity hash. -/
theorem insert_sequence_load_bound_witness :
    [1, 2, 3, 4, 5, 6].length ≤ 2 ^ 50 ∧
    ∃ t, insert_all identity_hash (construct 8) [1, 2, 3, 4, 5, 6] = .ok t ∧
      10 * size t ≤ 7 * t.__capacity + 10 ∧
      (∀ k, k ∈ [1, 2, 3, 4, 5, 6] → ∃ pos t1, find identity_hash t k = .ok (pos, t1) ∧
        pos ≠ «end» t ∧
        (slot (buffer t1) pos).is_occupied = true ∧ (slot (buffer t1) pos).key = k) ∧
      ([1, 2, 3, 4, 5, 6].Nodup → size t = [1, 2, 3, 4, 5, 6].length) ∧
      ([1, 2, 3, 4, 5, 6].length ≤ 6 → t.__capacity = 8) :=
  ⟨by norm_num, insert_sequence_load_bound identity_hash [1, 2, 3, 4, 5, 6] (by norm_num)⟩

end claims_load_factor

/-! ## The repair walk of `erase` on digests above the capacity -/

section claims_erase_repair

/-- C13, at the failing input: the table holding 17 and 18 at their ideal indices 1 and 2 is
valid; `erase(17)` returns 1 and its repair walk, comparing probe lengths computed from the raw
digest 18, moves 18 from its ideal index 2 to index 1.  Afterwards the contiguous-run property
is broken and `find(18)` returns the end sentinel although 18 is still stored. -/
theorem erase_moves_key_before_ideal_index :
    valid identity_hash adjacent_table ∧ stored (buffer adjacent_table) 17 ∧
    ∃ t1 t2, erase identity_hash adjacent_table 17 = .ok (1, t1) ∧
      (slot (buffer t1) 1).is_occupied = true ∧ (slot (buffer t1) 1).key = 18 ∧
      ideal_index identity_hash 18 t1.__capacity = 2 ∧
      ¬ contiguous_run identity_hash t1.__capacity (buffer t1) ∧
      stored (buffer t1) 18 ∧
      find identity_hash t1 18 = .ok («end» t1, t2) :=
  ⟨by decide, by decide, _, _, rfl, rfl, rfl, rfl, by decide, by decide, rfl⟩

/-- C14, at the failing input: on a freshly constructed set, `insert(17)`, `insert(18)`,
`erase(17)`, `insert(18)` complete and leave the key 18 in the two occupied slots 1 and 2. -/
theorem erase_then_insert_duplicates_key :
    ∃ t, run identity_hash (construct 8 : unordered_set Nat)
        [.insert 17, .insert 18, .erase 17, .insert 18] = .ok t ∧
      (slot (buffer t) 1).is_occupied = true ∧ (slot (buffer t) 1).key = 18 ∧
      (slot (buffer t) 2).is_occupied = true ∧ (slot (buffer t) 2).key = 18 ∧
      ¬ no_duplicates (buffer t) :=
  ⟨_, rfl, rfl, rfl, rfl, rfl, by decide⟩

/-- C15, at the failing input: the keys 23, 31, 39 share the ideal index 7 in capacity 8 and are
inserted in this order without a resize (slots 7, 0, 1).  After `erase(23)` the key 31 is still
stored, at index 0, but `find(31)` returns the end sentinel; its distance from the ideal index
is 1, while it is 0 when 31 and 39 alone are inserted into an empty table of capacity 8. -/
theorem erase_breaks_wrapping_chain :
    ∃ t t1 t2 ref, insert_all identity_hash (construct 8 : unordered_set Nat) [23, 31, 39]
        = .ok t ∧ t.__capacity = 8 ∧
      ideal_index identity_hash 23 8 = 7 ∧ ideal_index identity_hash 31 8 = 7 ∧
      ideal_index identity_hash 39 8 = 7 ∧
      erase identity_hash t 23 = .ok (1, t1) ∧
      stored (buffer t1) 31 ∧ find identity_hash t1 31 = .ok («end» t1, t2) ∧
      (slot (buffer t1) 0).is_occupied = true ∧ (slot (buffer t1) 0).key = 31 ∧
      cyclic_distance 0 7 8 = 1 ∧
      insert_all identity_hash (construct 8 : unordered_set Nat) [31, 39] = .ok ref ∧
      (slot (buffer ref) 7).is_occupied = true ∧ (slot (buffer ref) 7).key = 31 ∧
      cyclic_distance 7 7 8 = 0 :=
  ⟨_, _, _, _, rfl, rfl, rfl, rfl, rfl, rfl, by decide, rfl, rfl, rfl, rfl, rfl, rfl, rfl, rfl⟩

/-- C18, at the failing input: on a freshly constructed set, three inserts, three calls
`erase(0)` of the never inserted key 0 (each matches the zero key of an Empty slot and lowers
the count) and five more inserts leave all 8 slots occupied with a count of 5; the following
`insert(9)` does not resize and its probe loop scans the whole ring: the assertion
`i != bufferSize - 1` fails. -/
theorem insert_exhausts_ring_after_erase :
    (∃ t, run identity_hash (construct 8 : unordered_set Nat)
        [.insert 1, .insert 2, .insert 3, .erase 0, .erase 0, .erase 0,
         .insert 4, .insert 5, .insert 6, .insert 7, .insert 8] = .ok t ∧
      size t = 5 ∧ t.__capacity = 8 ∧ occupied_count (buffer t) = 8 ∧
      insert identity_hash t 9 = .error .assertion) ∧
    run identity_hash (construct 8 : unordered_set Nat)
        [.insert 1, .insert 2, .insert 3, .erase 0, .erase 0, .erase 0,
         .insert 4, .insert 5, .insert 6, .insert 7, .insert 8, .insert 9]
      = .error .assertion :=
  ⟨⟨_, rfl, rfl, rfl, rfl, rfl⟩, rfl⟩

end claims_erase_repair

/-! ## Move and copy -/

section claims_move_copy

/-- C19, at the failing input: move construction and move assignment from the chain table
(three elements) give the destination the buffer, the count and the capacity of the source, and
leave the source with a null buffer but with its count: `size()` is 3 and `empty()` is false,
and a `find` on the source dereferences the null buffer. -/
theorem move_leaves_count_in_source :
    (move_construct chain_table).1 = chain_table ∧
    (move_construct chain_table).2.__data = none ∧
    size (move_construct chain_table).2 = 3 ∧
    empty (move_construct chain_table).2 = false ∧
    (move_assign (construct 8) chain_table).1 = chain_table ∧
    (move_assign (construct 8) chain_table).2.__data = none ∧
    size (move_assign (construct 8) chain_table).2 = 3 ∧
    empty (move_assign (construct 8) chain_table).2 = false ∧
    find identity_hash (move_construct chain_table).2 1 = .error .null_deref :=
  ⟨rfl, rfl, rfl, rfl, rfl, rfl, rfl, rfl, rfl⟩

/-- C20, at the failing input: the destination `d` has grown to capacity 16 by seven inserts,
the source `s` is the valid table of capacity 8 holding the key 9.  In `d = s` the call
`reserve(8)` installs a buffer of 8 nodes while `__capacity` stays 16 (`__resize` returns early
on a null `__data`), and `insert(9)` then accesses index 9 of that buffer.  With the key 1 in
place of 9 the assignment completes with capacity 16, not 8.  The copy constructor, which sets
`__capacity` itself, yields capacity 8. -/
theorem copy_assign_keeps_old_capacity :
    ∃ d d1 d2 s1, run identity_hash (construct 8 : unordered_set Nat)
        [.insert 1, .insert 2, .insert 3, .insert 4, .insert 5, .insert 6, .insert 7]
        = .ok d ∧ d.__capacity = 16 ∧
      valid identity_hash single_table ∧ single_table.__capacity = 8 ∧
      copy_assign identity_hash d single_table = .error .out_of_bounds ∧
      insert identity_hash (construct 8 : unordered_set Nat) 1 = .ok s1 ∧
      valid identity_hash s1 ∧ s1.__capacity = 8 ∧
      copy_assign identity_hash d s1 = .ok d1 ∧ d1.__capacity = 16 ∧
      (buffer d1).length = 8 ∧
      copy_construct identity_hash s1 = .ok d2 ∧ d2.__capacity = 8 :=
  ⟨_, _, _, _, rfl, rfl, by decide, rfl, rfl, rfl, by decide, rfl, rfl, rfl, rfl, rfl, rfl⟩

end claims_move_copy

/-! ## The contiguous-run property along a sequence of `insert` -/

section claims_contiguous

variable {Key : Type} [DecidableEq Key] [Inhabited Key]

theorem cyclic_distance_lt {c : Nat} (hc : 0 < c) (i h : Nat) : cyclic_distance i h c < c :=
  Nat.mod_lt _ hc

theorem add_cyclic_distance {c i h : Nat} (hi : i < c) (hh : h < c) :
    (h + cyclic_distance i h c) % c = i := by
  unfold cyclic_distance
  by_cases hle : h ≤ i
  · have hd : (i + c - h) % c = i - h := by
      have h1 : i + c - h = (i - h) + c := by omega
      rw [h1, Nat.add_mod_right]
      exact Nat.mod_eq_of_lt (by omega)
    rw [hd]
    have h2 : h + (i - h) = i := by omega
    rw [h2]
    exact Nat.mod_eq_of_lt hi
  · have hd : (i + c - h) % c = i + c - h := Nat.mod_eq_of_lt (by omega)
    rw [hd]
    have h2 : h + (i + c - h) = i + c := by omega
    rw [h2, Nat.add_mod_right]
    exact Nat.mod_eq_of_lt hi

theorem ideal_index_lt {c : Nat} (hc : power_of_two c) (hasher : Key → Nat) (k : Key) :
    ideal_index hasher k c < c := by
  unfold ideal_index
  rw [fast_mod2_mod hc]
  exact Nat.mod_lt _ (power_of_two_pos hc)

/-- C12. Contiguous-run invariant under inserts: for every hash and every sequence of at most
`2 ^ 50` inserts into a freshly constructed set, doublings and rehashes included, every call
completes, the capacity is a power of two, and every occupied slot at index `i`, holding a key
with ideal index `h`, has all the slots `h, h + 1, ..., i` (indices modulo the capacity)
occupied.  Along such a sequence the capacity stays below `2 ^ 53`: the byte size of every
buffer `__resize` allocates is a value of `size_t` and the operands of the load test convert to
`double` exactly. -/
theorem inserts_keep_runs_contiguous (hasher : Key → Nat) (keys : List Key)
    (hlen : keys.length ≤ 2 ^ 50) :
    ∃ t, insert_all hasher (construct 8) keys = .ok t ∧ power_of_two t.__capacity ∧
      ∀ i, i < t.__capacity → (slot (buffer t) i).is_occupied = true →
        ∀ e, e ≤ cyclic_distance i
            (ideal_index hasher (slot (buffer t) i).key t.__capacity) t.__capacity →
          (slot (buffer t)
            ((ideal_index hasher (slot (buffer t) i).key t.__capacity + e) % t.__capacity)
            ).is_occupied = true := by
  obtain ⟨c1, u1, buf1, he, hv1, _⟩ :=
    insert_all_spec hasher keys 8 0 (List.replicate 8 empty_node) (valid_construct hasher)
      (le_refl 8) (Or.inl rfl) (by omega) (by omega)
  obtain ⟨hlen1, hpow1, _, _, _, hrun1, _⟩ := hv1
  refine ⟨_, he, hpow1, ?_⟩
  intro i hi hocc e he
  have hi1 : i < c1 := hi
  have hocc1 : (slot buf1 i).is_occupied = true := hocc
  show (slot buf1 ((ideal_index hasher (slot buf1 i).key c1 + e) % c1)).is_occupied = true
  have he1 : e ≤ cyclic_distance i (ideal_index hasher (slot buf1 i).key c1) c1 := he
  have hh := ideal_index_lt hpow1 hasher (slot buf1 i).key
  have hD := add_cyclic_distance hi1 hh
  rcases Nat.lt_or_ge e (cyclic_distance i (ideal_index hasher (slot buf1 i).key c1) c1)
    with hlt | hge
  · exact hrun1 i hi1 hocc1 _ (cyclic_distance_lt (power_of_two_pos hpow1) _ _) hD e hlt
  · have heq : e = cyclic_distance i (ideal_index hasher (slot buf1 i).key c1) c1 := by omega
    rw [heq, hD]
    exact hocc1

/-- Witness for C12: the keys 1, 9, 17, 2, 10, 3, 7, 15 under the identity hash, a sequence
with probe chains and one doubling. -/
theorem inserts_keep_runs_contiguous_witness :
    [1, 9, 17, 2, 10, 3, 7, 15].length ≤ 2 ^ 50 ∧
    ∃ t, insert_all identity_hash (construct 8) [1, 9, 17, 2, 10, 3, 7, 15] = .ok t ∧
      power_of_two t.__capacity ∧
      ∀ i, i < t.__capacity → (slot (buffer t) i).is_occupied = true →
        ∀ e, e ≤ cyclic_distance i
            (ideal_index identity_hash (slot (buffer t) i).key t.__capacity) t.__capacity →
          (slot (buffer t)
            ((ideal_index identity_hash (slot (buffer t) i).key t.__capacity + e) %
              t.__capacity)).is_occupied = true :=
  ⟨by norm_num, inserts_keep_runs_contiguous identity_hash [1, 9, 17, 2, 10, 3, 7, 15]
    (by norm_num)⟩

end claims_contiguous

/-! ## The capacity along a sequence of operations -/

section claims_capacity

variable {Key : Type} [DecidableEq Key] [Inhabited Key]

theorem resize_capacity (hasher : Key → Nat) (t t1 : unordered_set Key) (n : Nat)
    (h : __resize hasher t n = .ok t1) : t1.__capacity = t.__capacity ∨ t1.__capacity = n := by
  unfold __resize at h
  simp only [] at h
  split at h
  · injection h with h1
    subst h1
    exact Or.inl rfl
  · split at h
    · cases h
    · injection h with h1
      subst h1
      exact Or.inr rfl

theorem insert_capacity (hasher : Key → Nat) (t t1 : unordered_set Key) (k : Key)
    (h : insert hasher t k = .ok t1) :
    t1.__capacity = t.__capacity ∨ t1.__capacity = t.__capacity * 2 % size_mod := by
  unfold insert at h
  split at h
  · cases h
  · next t0 h0 =>
    have hc0 : t0.__capacity = t.__capacity ∨ t0.__capacity = t.__capacity * 2 % size_mod := by
      split at h0
      · exact resize_capacity hasher t t0 _ h0
      · injection h0 with h1
        subst h1
        exact Or.inl rfl
    have hc1 : t1.__capacity = t0.__capacity := by
      split at h
      · split at h
        · injection h with h1
          subst h1
          rfl
        · cases h
      · split at h
        · cases h
        · split at h
          · injection h with h1
            subst h1
            rfl
          · injection h with h1
            subst h1
            rfl
    rw [hc1]
    exact hc0

theorem find_capacity (hasher : Key → Nat) (t : unordered_set Key) (k : Key)
    (r : Nat × unordered_set Key) (h : find hasher t k = .ok r) :
    r.2.__capacity = t.__capacity := by
  unfold find at h
  split at h
  · cases h
  · split at h
    · cases h
    · injection h with h1
      subst h1
      rfl

theorem erase_capacity (hasher : Key → Nat) (t : unordered_set Key) (k : Key)
    (r : Nat × unordered_set Key) (h : erase hasher t k = .ok r) :
    r.2.__capacity = t.__capacity := by
  obtain ⟨a, b⟩ := r
  show b.__capacity = t.__capacity
  unfold erase at h
  cases hd : t.__data with
  | none =>
    rw [hd] at h
    simp only [] at h
    by_cases hc : t.__capacity = 0
    · rw [if_pos hc] at h
      have h3 := (Prod.mk.inj (Except.ok.inj h)).2
      rw [← h3]
    · rw [if_neg hc] at h
      cases h
  | some data =>
    rw [hd] at h
    simp only [] at h
    cases he : erase_buf hasher k t.__capacity data with
    | error e =>
      rw [he] at h
      cases h
    | ok r3 =>
      rw [he] at h
      simp only [] at h
      by_cases h1 : r3.1 = 1
      · rw [if_pos h1] at h
        have h3 := (Prod.mk.inj (Except.ok.inj h)).2
        rw [← h3]
      · rw [if_neg h1] at h
        have h3 := (Prod.mk.inj (Except.ok.inj h)).2
        rw [← h3]

theorem clear_capacity (t t1 : unordered_set Key) (h : clear t = .ok t1) :
    t1.__capacity = t.__capacity := by
  unfold clear at h
  split at h
  · split at h
    · injection h with h1
      subst h1
      rfl
    · cases h
  · split at h
    · cases h
    · injection h with h1
      subst h1
      rfl

theorem reserve_capacity (hasher : Key → Nat) (t t1 : unordered_set Key) (n : Nat)
    (h : reserve hasher t n = .ok t1) : t1.__capacity = t.__capacity ∨ t1.__capacity = n := by
  unfold reserve at h
  split at h
  · exact resize_capacity hasher t t1 n h
  · injection h with h1
    subst h1
    exact Or.inl rfl

theorem double_power_of_two {c : Nat} (hc : power_of_two c ∨ c = 0) :
    power_of_two (c * 2 % size_mod) ∨ c * 2 % size_mod = 0 := by
  rcases hc with ⟨j, hj, rfl⟩ | rfl
  · by_cases h63 : j < 63
    · left
      have h1 : 2 ^ j * 2 = 2 ^ (j + 1) := by ring
      have h2 : 2 ^ (j + 1) < size_mod := by
        rw [size_mod_eq]; exact Nat.pow_lt_pow_right (by norm_num) (by omega)
      rw [h1, Nat.mod_eq_of_lt h2]
      exact ⟨j + 1, by omega, rfl⟩
    · right
      have hj63 : j = 63 := by omega
      subst hj63
      norm_num [size_mod]
  · right
    rfl

theorem apply_operation_capacity (hasher : Key → Nat) (t t0 : unordered_set Key)
    (o : operation Key) (h : apply_operation hasher t o = .ok t0) :
    t0.__capacity = t.__capacity ∨ t0.__capacity = t.__capacity * 2 % size_mod ∨
      ∃ n, o = operation.reserve n ∧ t0.__capacity = n := by
  cases o with
  | insert k =>
    have h1 : insert hasher t k = .ok t0 := h
    rcases insert_capacity hasher t t0 k h1 with h2 | h2
    · exact Or.inl h2
    · exact Or.inr (Or.inl h2)
  | find k =>
    have h1 : (match find hasher t k with
      | .error e => Except.error e
      | .ok r => Except.ok r.2) = .ok t0 := h
    cases hf : find hasher t k with
    | error e =>
      rw [hf] at h1
      cases h1
    | ok r =>
      rw [hf] at h1
      have h2 : r.2 = t0 := Except.ok.inj h1
      rw [← h2]
      exact Or.inl (find_capacity hasher t k r hf)
  | erase k =>
    have h1 : (match erase hasher t k with
      | .error e => Except.error e
      | .ok r => Except.ok r.2) = .ok t0 := h
    cases hf : erase hasher t k with
    | error e =>
      rw [hf] at h1
      cases h1
    | ok r =>
      rw [hf] at h1
      have h2 : r.2 = t0 := Except.ok.inj h1
      rw [← h2]
      exact Or.inl (erase_capacity hasher t k r hf)
  | clear =>
    have h1 : clear t = .ok t0 := h
    exact Or.inl (clear_capacity t t0 h1)
  | reserve n =>
    have h1 : reserve hasher t n = .ok t0 := h
    rcases reserve_capacity hasher t t0 n h1 with h2 | h2
    · exact Or.inl h2
    · exact Or.inr (Or.inr ⟨n, rfl, h2⟩)

theorem run_capacity (hasher : Key → Nat) :
    ∀ (os : List (operation Key)) (t t1 : unordered_set Key),
      (∀ n, operation.reserve n ∈ os → power_of_two n) →
      (power_of_two t.__capacity ∨ t.__capacity = 0) →
      run hasher t os = .ok t1 →
      power_of_two t1.__capacity ∨ t1.__capacity = 0 := by
  intro os
  induction os with
  | nil =>
    intro t t1 _ hc h
    have h1 : t = t1 := Except.ok.inj h
    rw [← h1]
    exact hc
  | cons o os ih =>
    intro t t1 hres hc h
    unfold run at h
    cases h0 : apply_operation hasher t o with
    | error e =>
      rw [h0] at h
      cases h
    | ok t0 =>
      rw [h0] at h
      apply ih t0 t1 (fun n hn => hres n (List.mem_cons_of_mem _ hn)) ?_ h
      rcases apply_operation_capacity hasher t t0 o h0 with h1 | h1 | ⟨n, hn, h1⟩
      · rw [h1]; exact hc
      · rw [h1]; exact double_power_of_two hc
      · rw [h1]
        exact Or.inl (hres n (by rw [hn]; exact List.mem_cons_self _ _))

/-- C11, as stated, fails: on a freshly constructed set `reserve(5)` completes and leaves the
capacity at 5, which is not a power of two. -/
theorem reserve_sets_any_capacity :
    ∃ t, run identity_hash (construct 8 : unordered_set Nat) [.reserve 5] = .ok t ∧
      t.__capacity = 5 ∧ ¬ power_of_two t.__capacity :=
  ⟨_, rfl, rfl, by decide⟩

/-- C11, amended. `reserve(n)` installs `n` as the capacity: after every finite sequence of
`insert`, `find`, `erase`, `clear` and `reserve(n)` with each `n` a power of two, applied to a set
constructed with the default capacity 8, the capacity of the set the sequence leaves is a power
of two, or 0 once the doubling of a capacity of `2 ^ 63` has wrapped around `size_t`. -/
theorem capacity_stays_power_of_two (hasher : Key → Nat) (os : List (operation Key))
    (t : unordered_set Key) (hres : ∀ n, operation.reserve n ∈ os → power_of_two n)
    (h : run hasher (construct 8) os = .ok t) :
    power_of_two t.__capacity ∨ t.__capacity = 0 :=
  run_capacity hasher os (construct 8) t hres (Or.inl ⟨3, by norm_num, by norm_num [construct]⟩) h

/-- Witness for C11, amended: a sequence with every operation, `reserve(32)` among them. -/
theorem capacity_stays_power_of_two_witness :
    (∀ n, operation.reserve n ∈
        ([.insert 1, .insert 9, .reserve 32, .find 9, .erase 1, .clear, .insert 2] :
          List (operation Nat)) → power_of_two n) ∧
    ∃ t, run identity_hash (construct 8)
        [.insert 1, .insert 9, .reserve 32, .find 9, .erase 1, .clear, .insert 2] = .ok t ∧
      t.__capacity = 32 ∧ (power_of_two t.__capacity ∨ t.__capacity = 0) :=
  ⟨by intro n hn; simp at hn; subst hn; exact ⟨5, by norm_num, by norm_num⟩,
    _, rfl, rfl,
    capacity_stays_power_of_two identity_hash
      [.insert 1, .insert 9, .reserve 32, .find 9, .erase 1, .clear, .insert 2] _
      (by intro n hn; simp at hn; subst hn; exact ⟨5, by norm_num, by norm_num⟩) rfl⟩

end claims_capacity

/-! ## Forward iteration -/

section claims_iteration

variable {Key : Type} [DecidableEq Key] [Inhabited Key]

theorem begin_loop_spec (buf : List (unordered_set_node Key)) :
    ∀ (rem first : Nat), first + rem = buf.length →
      ∃ b, begin_loop buf rem first = .ok b ∧ first ≤ b ∧ b ≤ buf.length ∧
        (∀ i, first ≤ i → i < b → (slot buf i).is_occupied = false) ∧
        (b < buf.length → (slot buf b).is_occupied = true) := by
  intro rem
  induction rem with
  | zero =>
    intro first h
    exact ⟨first, rfl, le_refl _, by omega, fun i h1 h2 => by omega, fun h1 => by omega⟩
  | succ rem ih =>
    intro first h
    unfold begin_loop
    rw [load_of_lt (by omega)]
    simp only []
    by_cases ho : (slot buf first).is_occupied = false
    · rw [if_pos ho]
      obtain ⟨b, hb, h1, h2, h3, h4⟩ := ih (first + 1) (by omega)
      refine ⟨b, hb, by omega, h2, ?_, h4⟩
      intro i hi1 hi2
      by_cases hif : i = first
      · rw [hif]; exact ho
      · exact h3 i (by omega) hi2
    · rw [if_neg ho]
      exact ⟨first, rfl, le_refl _, by omega, fun i h1 h2 => by omega,
        fun _ => by simpa using ho⟩

theorem increment_loop_spec (buf : List (unordered_set_node Key))
    (hcap : buf.length < size_mod) :
    ∀ (fuel cursor : Nat), cursor < buf.length → buf.length ≤ cursor + fuel →
      ∃ c1, increment_loop buf buf.length fuel cursor = .ok c1 ∧ cursor < c1 ∧
        c1 ≤ buf.length ∧
        (∀ i, cursor < i → i < c1 → (slot buf i).is_occupied = false) ∧
        (c1 < buf.length → (slot buf c1).is_occupied = true) := by
  intro fuel
  induction fuel with
  | zero => intro cursor h1 h2; omega
  | succ fuel ih =>
    intro cursor h1 h2
    have hmod : (cursor + 1) % size_mod = cursor + 1 := Nat.mod_eq_of_lt (by omega)
    unfold increment_loop
    simp only []
    rw [hmod]
    by_cases hlt : cursor + 1 < buf.length
    · rw [if_pos hlt, load_of_lt hlt]
      simp only []
      by_cases ho : (slot buf (cursor + 1)).is_occupied = true
      · rw [if_pos ho]
        exact ⟨cursor + 1, rfl, by omega, by omega, fun i hi1 hi2 => by omega, fun _ => ho⟩
      · rw [if_neg ho]
        obtain ⟨c1, hc, h3, h4, h5, h6⟩ := ih (cursor + 1) hlt (by omega)
        refine ⟨c1, hc, by omega, h4, ?_, h6⟩
        intro i hi1 hi2
        by_cases hic : i = cursor + 1
        · rw [hic]; simpa using ho
        · exact h5 i (by omega) hi2
    · rw [if_neg hlt]
      exact ⟨cursor + 1, rfl, by omega, by omega, fun i hi1 hi2 => by omega,
        fun h => by omega⟩

/-- The occupied indices from `first` on. -/
theorem filter_range_skip (buf : List (unordered_set_node Key)) (first b n : Nat)
    (hb : first ≤ b) (hn : b ≤ first + n)
    (hskip : ∀ i, first ≤ i → i < b → (slot buf i).is_occupied = false) :
    (List.range' first n).filter (fun i => (slot buf i).is_occupied) =
      (List.range' b (first + n - b)).filter (fun i => (slot buf i).is_occupied) := by
  obtain ⟨m, rfl⟩ : ∃ m, b = first + m := ⟨b - first, by omega⟩
  obtain ⟨k, rfl⟩ : ∃ k, n = m + k := ⟨n - m, by omega⟩
  have hk : first + (m + k) - (first + m) = k := by omega
  have hm : first + m - first = m := by omega
  rw [hk]
  have hsplit : List.range' first (m + k) =
      List.range' first (first + m - first) ++ List.range' (first + m) k := by
    have h1 := List.range'_append first m k 1
    rw [Nat.one_mul] at h1
    rw [hm, h1, Nat.add_comm]
  rw [hsplit, List.filter_append]
  have hnil : (List.range' first (first + m - first)).filter
      (fun i => (slot buf i).is_occupied) = [] := by
    rw [List.filter_eq_nil_iff]
    intro i hi
    rw [List.mem_range'_1] at hi
    rw [hskip i hi.1 (by omega)]
    simp
  rw [hnil, List.nil_append]

theorem iterate_loop_spec (t : unordered_set Key) (buf : List (unordered_set_node Key))
    (hd : t.__data = some buf) (hlen : buf.length = t.__capacity)
    (hcap : t.__capacity < size_mod) :
    ∀ (fuel cursor : Nat), cursor ≤ buf.length → buf.length + 1 ≤ cursor + fuel →
      (cursor < buf.length → (slot buf cursor).is_occupied = true) →
      iterate_loop t fuel cursor =
        .ok ((List.range' cursor (buf.length - cursor)).filter
          (fun i => (slot buf i).is_occupied)) := by
  intro fuel
  induction fuel with
  | zero => intro cursor h1 h2; omega
  | succ fuel ih =>
    intro cursor h1 h2 ho
    unfold iterate_loop
    by_cases hend : cursor = «end» t
    · rw [if_pos hend]
      have hc : cursor = buf.length := by rw [hlen]; exact hend
      rw [hc, Nat.sub_self]
      rfl
    · rw [if_neg hend]
      have hlt : cursor < buf.length := by
        have : cursor ≠ buf.length := by rw [hlen]; exact hend
        omega
      obtain ⟨c1, hc, h3, h4, h5, h6⟩ :=
        increment_loop_spec buf (by rw [hlen]; exact hcap) (buf.length + 1) cursor hlt
          (by omega)
      have hinc : increment t cursor = .ok c1 := by
        unfold increment
        rw [hd]
        simp only []
        rw [← hlen]
        exact hc
      rw [hinc]
      simp only []
      rw [ih c1 h4 (by omega) h6]
      simp only []
      have hstep : List.range' cursor (buf.length - cursor) =
          cursor :: List.range' (cursor + 1) (buf.length - cursor - 1) := by
        have h7 : buf.length - cursor = (buf.length - cursor - 1) + 1 := by omega
        conv_lhs => rw [h7]
        rw [List.range'_succ]
      rw [hstep, List.filter_cons, if_pos (ho hlt)]
      have hskip := filter_range_skip buf (cursor + 1) c1 (buf.length - cursor - 1)
        (by omega) (by omega) (fun i hi1 hi2 => h5 i (by omega) hi2)
      rw [hskip]
      have h8 : cursor + 1 + (buf.length - cursor - 1) - c1 = buf.length - c1 := by omega
      rw [h8]

/-- C17. Forward iteration: on every table whose buffer holds `__capacity` nodes, `begin()`
has its cursor at the smallest index of an occupied slot, or at the capacity when no slot is
occupied; an increment moves a cursor below the capacity to the next larger occupied index, or
to the capacity when none remains; and iterating from `begin()` until the cursor equals that of
`end()`, the capacity, visits exactly the indices of the occupied slots, each once, in
increasing order. -/
theorem forward_iteration_visits_occupied (t : unordered_set Key)
    (buf : List (unordered_set_node Key)) (hd : t.__data = some buf)
    (hlen : buf.length = t.__capacity) (hcap : t.__capacity < size_mod) :
    (∃ b, «begin» t = .ok b ∧ b ≤ t.__capacity ∧
      (∀ i, i < b → (slot buf i).is_occupied = false) ∧
      (b < t.__capacity → (slot buf b).is_occupied = true)) ∧
    (∀ cursor, cursor < t.__capacity →
      ∃ c1, increment t cursor = .ok c1 ∧ cursor < c1 ∧ c1 ≤ t.__capacity ∧
        (∀ i, cursor < i → i < c1 → (slot buf i).is_occupied = false) ∧
        (c1 < t.__capacity → (slot buf c1).is_occupied = true)) ∧
    iterate t = .ok (occupied_indices buf) ∧ «end» t = t.__capacity := by
  obtain ⟨b, hb, _, h2, h3, h4⟩ := begin_loop_spec buf buf.length 0 (by omega)
  have hbegin : «begin» t = .ok b := by
    unfold «begin»
    rw [hd]
    simp only []
    rw [← hlen]
    exact hb
  refine ⟨⟨b, hbegin, by omega, fun i hi => h3 i (Nat.zero_le i) hi,
    fun h => h4 (by omega)⟩, ?_, ?_, rfl⟩
  · intro cursor hc
    obtain ⟨c1, hc1, h5, h6, h7, h8⟩ :=
      increment_loop_spec buf (by rw [hlen]; exact hcap) (buf.length + 1) cursor
        (by omega) (by omega)
    refine ⟨c1, ?_, h5, by omega, h7, fun h => h8 (by omega)⟩
    unfold increment
    rw [hd]
    simp only []
    rw [← hlen]
    exact hc1
  · unfold iterate
    rw [hbegin]
    simp only []
    rw [← hlen, iterate_loop_spec t buf hd hlen hcap (buf.length + 1) b h2 (by omega) h4]
    unfold occupied_indices
    rw [List.range_eq_range']
    have hskip := filter_range_skip buf 0 b buf.length (Nat.zero_le b) (by omega)
      (fun i hi1 hi2 => h3 i hi1 hi2)
    rw [hskip, Nat.zero_add]

/-- Witness for C17: the chain table, whose occupied slots are 1, 2 and 3. -/
theorem forward_iteration_visits_occupied_witness :
    chain_table.__data = some (buffer chain_table) ∧
    (buffer chain_table).length = chain_table.__capacity ∧
    chain_table.__capacity < size_mod ∧
    iterate chain_table = .ok [1, 2, 3] ∧
    ((∃ b, «begin» chain_table = .ok b ∧ b ≤ chain_table.__capacity ∧
      (∀ i, i < b → (slot (buffer chain_table) i).is_occupied = false) ∧
      (b < chain_table.__capacity → (slot (buffer chain_table) b).is_occupied = true)) ∧
    (∀ cursor, cursor < chain_table.__capacity →
      ∃ c1, increment chain_table cursor = .ok c1 ∧ cursor < c1 ∧
        c1 ≤ chain_table.__capacity ∧
        (∀ i, cursor < i → i < c1 → (slot (buffer chain_table) i).is_occupied = false) ∧
        (c1 < chain_table.__capacity → (slot (buffer chain_table) c1).is_occupied = true)) ∧
    iterate chain_table = .ok (occupied_indices (buffer chain_table)) ∧
    «end» chain_table = chain_table.__capacity) :=
  ⟨rfl, rfl, by decide, rfl,
    forward_iteration_visits_occupied chain_table (buffer chain_table) rfl rfl (by decide)⟩

end claims_iteration

/-! ## Where the nodes of a buffer come from -/

section provenance

variable {Key : Type} [DecidableEq Key] [Inhabited Key]

theorem load_mem {buf : List (unordered_set_node Key)} {i : Nat} {n : unordered_set_node Key}
    (h : load buf i = .ok n) : n ∈ buf := by
  unfold load at h
  cases hg : buf[i]? with
  | none =>
    rw [hg] at h
    cases h
  | some m =>
    rw [hg] at h
    have h1 : m = n := Except.ok.inj h
    rw [← h1]
    exact List.getElem?_mem hg

theorem store_mem {buf buf1 : List (unordered_set_node Key)} {i : Nat}
    {x : unordered_set_node Key} (h : store buf i x = .ok buf1) :
    ∀ n, n ∈ buf1 → n ∈ buf ∨ n = x := by
  unfold store at h
  by_cases hi : i < buf.length
  · rw [if_pos hi] at h
    have h1 : buf.set i x = buf1 := Except.ok.inj h
    intro n hn
    rw [← h1] at hn
    exact List.mem_or_eq_of_mem_set hn
  · rw [if_neg hi] at h
    cases h

theorem insert_loop_mem (k : Key) (hashed c : Nat) (buf : List (unordered_set_node Key)) :
    ∀ (rem i : Nat) (r : Bool × List (unordered_set_node Key)),
      __insert_loop k hashed c buf rem i = .ok r →
      ∀ n, n ∈ r.2 → n ∈ buf ∨ n = { key := k, probe_count := 0, is_occupied := true } := by
  intro rem
  induction rem with
  | zero =>
    intro i r h n hn
    have h1 : (false, buf) = r := Except.ok.inj h
    rw [← h1] at hn
    exact Or.inl hn
  | succ rem ih =>
    intro i r h n hn
    unfold __insert_loop at h
    simp only [] at h
    cases hl : load buf (fast_mod2 ((hashed + i) % size_mod) c) with
    | error e =>
      rw [hl] at h
      cases h
    | ok m =>
      rw [hl] at h
      simp only [] at h
      by_cases ho : m.is_occupied = false
      · rw [if_pos ho] at h
        cases hs : store buf (fast_mod2 ((hashed + i) % size_mod) c)
            { key := k, probe_count := 0, is_occupied := true } with
        | error e =>
          rw [hs] at h
          cases h
        | ok buf1 =>
          rw [hs] at h
          have h1 : (true, buf1) = r := Except.ok.inj h
          rw [← h1] at hn
          exact store_mem hs n hn
      · rw [if_neg ho] at h
        by_cases hk : m.key = k
        · rw [if_pos hk] at h
          have h1 : (false, buf) = r := Except.ok.inj h
          rw [← h1] at hn
          exact Or.inl hn
        · rw [if_neg hk] at h
          by_cases hi : i = c - 1
          · rw [if_pos hi] at h
            cases h
          · rw [if_neg hi] at h
            exact ih (i + 1) r h n hn

theorem resize_loop_fresh (hasher : Key → Nat) (old : List (unordered_set_node Key))
    (newSize : Nat) :
    ∀ (rem i : Nat) (buf buf1 : List (unordered_set_node Key)),
      __resize_loop hasher old newSize rem i buf = .ok buf1 →
      (∀ n, n ∈ buf → n.probe_count = 0) → ∀ n, n ∈ buf1 → n.probe_count = 0 := by
  intro rem
  induction rem with
  | zero =>
    intro i buf buf1 h hz n hn
    have h1 : buf = buf1 := Except.ok.inj h
    rw [← h1] at hn
    exact hz n hn
  | succ rem ih =>
    intro i buf buf1 h hz n hn
    unfold __resize_loop at h
    cases hl : load old i with
    | error e =>
      rw [hl] at h
      cases h
    | ok m =>
      rw [hl] at h
      simp only [] at h
      by_cases ho : m.is_occupied = true
      · rw [if_pos ho] at h
        cases hins : __insert hasher m.key buf newSize with
        | error e =>
          rw [hins] at h
          cases h
        | ok r =>
          rw [hins] at h
          simp only [] at h
          apply ih (i + 1) r.2 buf1 h ?_ n hn
          intro x hx
          rcases insert_loop_mem m.key _ newSize buf newSize 0 r hins x hx with h2 | h2
          · exact hz x h2
          · rw [h2]
      · rw [if_neg ho] at h
        exact ih (i + 1) buf buf1 h hz n hn

theorem resize_fresh (hasher : Key → Nat) (t t1 : unordered_set Key) (newSize : Nat)
    (h : __resize hasher t newSize = .ok t1) :
    ∀ n, n ∈ buffer t1 → n.probe_count = 0 := by
  have hrep : ∀ n, n ∈ List.replicate (newSize * node_size % size_mod / node_size)
      (empty_node : unordered_set_node Key) → n.probe_count = 0 := by
    intro n hn
    rw [List.eq_of_mem_replicate hn]
    rfl
  unfold __resize at h
  simp only [] at h
  cases hd : t.__data with
  | none =>
    rw [hd] at h
    simp only [] at h
    have h1 := Except.ok.inj h
    rw [← h1]
    exact hrep
  | some old =>
    rw [hd] at h
    simp only [] at h
    cases hr : __resize_loop hasher old newSize t.__capacity 0
        (List.replicate (newSize * node_size % size_mod / node_size) empty_node) with
    | error e =>
      rw [hr] at h
      cases h
    | ok buf1 =>
      rw [hr] at h
      simp only [] at h
      have h1 := Except.ok.inj h
      rw [← h1]
      exact resize_loop_fresh hasher old newSize t.__capacity 0 _ buf1 hr hrep

end provenance

/-! ## Where the nodes come from after `find` and `erase` -/

section provenance_find_erase

variable {Key : Type} [DecidableEq Key] [Inhabited Key]

theorem find_loop_mem (k : Key) (hashed c : Nat) (data : List (unordered_set_node Key)) :
    ∀ (rem i : Nat) (r : Nat × List (unordered_set_node Key)),
      find_loop k hashed c data rem i = .ok r →
      ∀ n, n ∈ r.2 → n ∈ data ∨
        ∃ m, m ∈ data ∧ m.is_occupied = true ∧ m.key = k ∧ bumped m n := by
  intro rem
  induction rem with
  | zero =>
    intro i r h n hn
    have h1 : (c, data) = r := Except.ok.inj h
    rw [← h1] at hn
    exact Or.inl hn
  | succ rem ih =>
    intro i r h n hn
    unfold find_loop at h
    simp only [] at h
    cases hl : load data (fast_mod2 ((hashed + i) % size_mod) c) with
    | error e =>
      rw [hl] at h
      cases h
    | ok a =>
      rw [hl] at h
      simp only [] at h
      by_cases ho : a.is_occupied = true
      · rw [if_pos ho] at h
        cases hl1 : load data (fast_mod2 ((hashed + i + 1) % size_mod) c) with
        | error e =>
          rw [hl1] at h
          cases h
        | ok m =>
          rw [hl1] at h
          simp only [] at h
          by_cases hk : m.is_occupied = true ∧ m.key = k
          · rw [if_pos hk] at h
            have hm : m ∈ data := load_mem hl1
            have hset : ∀ x, x ∈ data.set (fast_mod2 ((hashed + i + 1) % size_mod) c)
                { m with probe_count := (m.probe_count + 1) % size_mod } →
                x ∈ data ∨ ∃ m, m ∈ data ∧ m.is_occupied = true ∧ m.key = k ∧ bumped m x := by
              intro x hx
              rcases List.mem_or_eq_of_mem_set hx with h2 | h2
              · exact Or.inl h2
              · exact Or.inr ⟨m, hm, hk.1, hk.2, h2⟩
            cases hl2 : load (data.set (fast_mod2 ((hashed + i + 1) % size_mod) c)
                { m with probe_count := (m.probe_count + 1) % size_mod })
                (fast_mod2 ((hashed + i) % size_mod) c) with
            | error e =>
              rw [hl2] at h
              cases h
            | ok n1 =>
              rw [hl2] at h
              simp only [] at h
              have hn1 := load_mem hl2
              by_cases hgt : (m.probe_count + 1) % size_mod > n1.probe_count
              · rw [if_pos hgt] at h
                have h1 := Except.ok.inj h
                rw [← h1] at hn
                rcases List.mem_or_eq_of_mem_set hn with h2 | h2
                · rcases List.mem_or_eq_of_mem_set h2 with h3 | h3
                  · exact hset n h3
                  · rw [h3]; exact hset n1 hn1
                · exact Or.inr ⟨m, hm, hk.1, hk.2, h2⟩
              · rw [if_neg hgt] at h
                have h1 := Except.ok.inj h
                rw [← h1] at hn
                exact hset n hn
          · rw [if_neg hk] at h
            exact ih (i + 1) r h n hn
      · rw [if_neg ho] at h
        have h1 : (c, data) = r := Except.ok.inj h
        rw [← h1] at hn
        exact Or.inl hn

theorem find_buf_mem (hasher : Key → Nat) (k : Key) (c : Nat)
    (data : List (unordered_set_node Key)) (r : Nat × List (unordered_set_node Key))
    (h : find_buf hasher k c data = .ok r) :
    ∀ n, n ∈ r.2 → n ∈ data ∨
      ∃ m, m ∈ data ∧ m.is_occupied = true ∧ m.key = k ∧ bumped m n := by
  intro n hn
  unfold find_buf at h
  simp only [] at h
  cases hl : load data (fast_mod2 (hasher k % size_mod) c) with
  | error e =>
    rw [hl] at h
    cases h
  | ok m =>
    rw [hl] at h
    simp only [] at h
    by_cases hk : m.is_occupied = true ∧ m.key = k
    · rw [if_pos hk] at h
      have h1 := Except.ok.inj h
      rw [← h1] at hn
      rcases List.mem_or_eq_of_mem_set hn with h2 | h2
      · exact Or.inl h2
      · exact Or.inr ⟨m, load_mem hl, hk.1, hk.2, h2⟩
    · rw [if_neg hk] at h
      exact find_loop_mem k _ c data c 0 r h n hn

theorem erase_walk_mem (hasher : Key → Nat) (remove_loc c : Nat) :
    ∀ (rem i open_slot : Nat) (data : List (unordered_set_node Key))
      (r : Nat × List (unordered_set_node Key)),
      erase_walk hasher remove_loc c rem i open_slot data = .ok r →
      ∀ n, n ∈ r.2 → n ∈ data ∨ n = empty_node := by
  intro rem
  induction rem with
  | zero =>
    intro i open_slot data r h n hn
    have h1 : (open_slot, data) = r := Except.ok.inj h
    rw [← h1] at hn
    exact Or.inl hn
  | succ rem ih =>
    intro i open_slot data r h n hn
    unfold erase_walk at h
    simp only [] at h
    cases hl : load data (fast_mod2 ((remove_loc + i) % size_mod) c) with
    | error e =>
      rw [hl] at h
      cases h
    | ok m =>
      rw [hl] at h
      simp only [] at h
      by_cases hlt : probe_length open_slot (hasher m.key % size_mod) c <
          probe_length (fast_mod2 ((remove_loc + i) % size_mod) c) (hasher m.key % size_mod) c
      · rw [if_pos hlt] at h
        cases hs1 : store data open_slot m with
        | error e =>
          rw [hs1] at h
          cases h
        | ok data1 =>
          rw [hs1] at h
          simp only [] at h
          cases hs2 : store data1 (fast_mod2 ((remove_loc + i) % size_mod) c) empty_node with
          | error e =>
            rw [hs2] at h
            cases h
          | ok data2 =>
            rw [hs2] at h
            simp only [] at h
            rcases ih (i + 1) _ data2 r h n hn with h2 | h2
            · rcases store_mem hs2 n h2 with h3 | h3
              · rcases store_mem hs1 n h3 with h4 | h4
                · exact Or.inl h4
                · rw [h4]; exact Or.inl (load_mem hl)
              · exact Or.inr h3
            · exact Or.inr h2
      · rw [if_neg hlt] at h
        exact ih (i + 1) open_slot data r h n hn

theorem erase_buf_mem (hasher : Key → Nat) (k : Key) (c : Nat)
    (data : List (unordered_set_node Key)) (r : Nat × Nat × List (unordered_set_node Key))
    (h : erase_buf hasher k c data = .ok r) :
    ∀ n, n ∈ r.2.2 → n ∈ data ∨ n = empty_node := by
  intro n hn
  unfold erase_buf at h
  cases hs : erase_search k (hasher k % size_mod) c data c 0 with
  | error e =>
    rw [hs] at h
    cases h
  | ok remove_loc =>
    rw [hs] at h
    simp only [] at h
    by_cases hne : remove_loc ≠ c
    · rw [if_pos hne] at h
      cases hst : store data remove_loc empty_node with
      | error e =>
        rw [hst] at h
        cases h
      | ok data1 =>
        rw [hst] at h
        simp only [] at h
        cases hsl : erase_search_len remove_loc c data1 (c - 1) 1 with
        | error e =>
          rw [hsl] at h
          cases h
        | ok search_len =>
          rw [hsl] at h
          simp only [] at h
          cases hw : erase_walk hasher remove_loc c (search_len - 1) 1 remove_loc data1 with
          | error e =>
            rw [hw] at h
            cases h
          | ok r1 =>
            rw [hw] at h
            simp only [] at h
            have h1 := Except.ok.inj h
            rw [← h1] at hn
            rcases erase_walk_mem hasher remove_loc c _ 1 remove_loc data1 r1 hw n hn
              with h2 | h2
            · exact store_mem hst n h2
            · exact Or.inr h2
    · rw [if_neg hne] at h
      have h1 := Except.ok.inj h
      rw [← h1] at hn
      exact Or.inl hn

end provenance_find_erase

/-! ## The probe count along a sequence of operations -/

section claims_probe_count

variable {Key : Type} [DecidableEq Key] [Inhabited Key]

theorem insert_mem (hasher : Key → Nat) (t t1 : unordered_set Key) (k : Key)
    (h : insert hasher t k = .ok t1) :
    ∀ n, n ∈ buffer t1 → n ∈ buffer t ∨ n.probe_count = 0 := by
  unfold insert at h
  cases h0 : (if load_exceeds t.__usage t.__capacity = true
      then __resize hasher t (t.__capacity * 2 % size_mod) else Except.ok t) with
  | error e =>
    rw [h0] at h
    cases h
  | ok t0 =>
    rw [h0] at h
    simp only [] at h
    have hpre : ∀ n, n ∈ buffer t0 → n ∈ buffer t ∨ n.probe_count = 0 := by
      by_cases hl : load_exceeds t.__usage t.__capacity = true
      · rw [if_pos hl] at h0
        intro n hn
        exact Or.inr (resize_fresh hasher t t0 _ h0 n hn)
      · rw [if_neg hl] at h0
        have h1 := Except.ok.inj h0
        rw [← h1]
        intro n hn
        exact Or.inl hn
    cases hd : t0.__data with
    | none =>
      rw [hd] at h
      simp only [] at h
      by_cases hc : t0.__capacity = 0
      · rw [if_pos hc] at h
        have h1 := Except.ok.inj h
        rw [← h1]
        exact hpre
      · rw [if_neg hc] at h
        cases h
    | some buf0 =>
      rw [hd] at h
      simp only [] at h
      cases hins : __insert hasher k buf0 t0.__capacity with
      | error e =>
        rw [hins] at h
        cases h
      | ok r =>
        rw [hins] at h
        simp only [] at h
        have hbuf : buffer t1 = r.2 := by
          by_cases hr : r.1 = true
          · rw [if_pos hr] at h
            have h1 := Except.ok.inj h
            rw [← h1]
            rfl
          · rw [if_neg hr] at h
            have h1 := Except.ok.inj h
            rw [← h1]
            rfl
        intro n hn
        rw [hbuf] at hn
        rcases insert_loop_mem k _ t0.__capacity buf0 t0.__capacity 0 r hins n hn with h2 | h2
        · apply hpre
          unfold buffer
          rw [hd]
          exact h2
        · right
          rw [h2]

theorem find_mem (hasher : Key → Nat) (t : unordered_set Key) (k : Key)
    (r : Nat × unordered_set Key) (h : find hasher t k = .ok r) :
    ∀ n, n ∈ buffer r.2 → n ∈ buffer t ∨
      ∃ m, m ∈ buffer t ∧ m.is_occupied = true ∧ m.key = k ∧ bumped m n := by
  unfold find at h
  cases hd : t.__data with
  | none =>
    rw [hd] at h
    cases h
  | some data =>
    rw [hd] at h
    simp only [] at h
    cases hf : find_buf hasher k t.__capacity data with
    | error e =>
      rw [hf] at h
      cases h
    | ok r1 =>
      rw [hf] at h
      simp only [] at h
      have h1 := Except.ok.inj h
      rw [← h1]
      have hb : buffer t = data := by unfold buffer; rw [hd]; rfl
      rw [hb]
      exact find_buf_mem hasher k t.__capacity data r1 hf

theorem erase_mem (hasher : Key → Nat) (t : unordered_set Key) (k : Key)
    (r : Nat × unordered_set Key) (h : erase hasher t k = .ok r) :
    ∀ n, n ∈ buffer r.2 → n ∈ buffer t ∨ n = empty_node := by
  obtain ⟨a, b⟩ := r
  show ∀ n, n ∈ buffer b → n ∈ buffer t ∨ n = empty_node
  unfold erase at h
  cases hd : t.__data with
  | none =>
    rw [hd] at h
    simp only [] at h
    by_cases hc : t.__capacity = 0
    · rw [if_pos hc] at h
      have h3 := (Prod.mk.inj (Except.ok.inj h)).2
      rw [← h3]
      intro n hn
      exact Or.inl hn
    · rw [if_neg hc] at h
      cases h
  | some data =>
    rw [hd] at h
    simp only [] at h
    have hb : buffer t = data := by unfold buffer; rw [hd]; rfl
    rw [hb]
    cases he : erase_buf hasher k t.__capacity data with
    | error e =>
      rw [he] at h
      cases h
    | ok r3 =>
      rw [he] at h
      simp only [] at h
      have hmem := erase_buf_mem hasher k t.__capacity data r3 he
      by_cases h1 : r3.1 = 1
      · rw [if_pos h1] at h
        have h3 := (Prod.mk.inj (Except.ok.inj h)).2
        rw [← h3]
        exact hmem
      · rw [if_neg h1] at h
        have h3 := (Prod.mk.inj (Except.ok.inj h)).2
        rw [← h3]
        exact hmem

theorem clear_buffer (t t1 : unordered_set Key) (h : clear t = .ok t1) :
    buffer t1 = buffer t := by
  unfold clear at h
  cases hd : t.__data with
  | none =>
    rw [hd] at h
    simp only [] at h
    by_cases hc : t.__capacity = 0
    · rw [if_pos hc] at h
      have h1 := Except.ok.inj h
      rw [← h1]
      unfold buffer
      rw [hd]
    · rw [if_neg hc] at h
      cases h
  | some data =>
    rw [hd] at h
    simp only [] at h
    cases hl : clear_loop data t.__capacity 0 with
    | error e =>
      rw [hl] at h
      cases h
    | ok u =>
      rw [hl] at h
      simp only [] at h
      have h1 := Except.ok.inj h
      rw [← h1]
      unfold buffer
      rw [hd]

theorem reserve_mem (hasher : Key → Nat) (t t1 : unordered_set Key) (n0 : Nat)
    (h : reserve hasher t n0 = .ok t1) :
    ∀ n, n ∈ buffer t1 → n ∈ buffer t ∨ n.probe_count = 0 := by
  unfold reserve at h
  by_cases hn : n0 > t.__usage
  · rw [if_pos hn] at h
    intro n hmem
    exact Or.inr (resize_fresh hasher t t1 n0 h n hmem)
  · rw [if_neg hn] at h
    have h1 := Except.ok.inj h
    rw [← h1]
    intro n hmem
    exact Or.inl hmem

theorem find_calls_cons (k : Key) (o : operation Key) (os : List (operation Key)) :
    find_calls k (o :: os) = find_calls k os + (if o = operation.find k then 1 else 0) := by
  unfold find_calls
  rw [List.count_cons]
  simp only [beq_iff_eq]

theorem apply_operation_probe_count (hasher : Key → Nat) (cnt : Key → Nat)
    (t t1 : unordered_set Key) (o : operation Key)
    (hb : ∀ n, n ∈ buffer t → n.is_occupied = true → n.probe_count ≤ cnt n.key)
    (h : apply_operation hasher t o = .ok t1) :
    ∀ n, n ∈ buffer t1 → n.is_occupied = true →
      n.probe_count ≤ cnt n.key + (if o = operation.find n.key then 1 else 0) := by
  intro n hn ho
  have hold : n ∈ buffer t → n.probe_count ≤
      cnt n.key + (if o = operation.find n.key then 1 else 0) := by
    intro hm
    have := hb n hm ho
    omega
  cases o with
  | insert k =>
    have h1 : insert hasher t k = .ok t1 := h
    rcases insert_mem hasher t t1 k h1 n hn with h2 | h2
    · exact hold h2
    · omega
  | find k =>
    have h1 : (match find hasher t k with
      | .error e => Except.error e
      | .ok r => Except.ok r.2) = .ok t1 := h
    cases hf : find hasher t k with
    | error e =>
      rw [hf] at h1
      cases h1
    | ok r =>
      rw [hf] at h1
      have h2 : r.2 = t1 := Except.ok.inj h1
      rw [← h2] at hn
      rcases find_mem hasher t k r hf n hn with h3 | ⟨m, hm, hmo, hmk, hbump⟩
      · exact hold h3
      · have hkey : n.key = k := by rw [hbump]; exact hmk
        have hpc : n.probe_count = (m.probe_count + 1) % size_mod := by rw [hbump]
        have hle : (m.probe_count + 1) % size_mod ≤ m.probe_count + 1 := Nat.mod_le _ _
        have hmb := hb m hm hmo
        rw [hmk] at hmb
        rw [hkey, if_pos rfl, hpc]
        omega
  | erase k =>
    have h1 : (match erase hasher t k with
      | .error e => Except.error e
      | .ok r => Except.ok r.2) = .ok t1 := h
    cases hf : erase hasher t k with
    | error e =>
      rw [hf] at h1
      cases h1
    | ok r =>
      rw [hf] at h1
      have h2 : r.2 = t1 := Except.ok.inj h1
      rw [← h2] at hn
      rcases erase_mem hasher t k r hf n hn with h3 | h3
      · exact hold h3
      · rw [h3] at ho
        cases ho
  | clear =>
    have h1 : clear t = .ok t1 := h
    rw [clear_buffer t t1 h1] at hn
    exact hold hn
  | reserve n0 =>
    have h1 : reserve hasher t n0 = .ok t1 := h
    rcases reserve_mem hasher t t1 n0 h1 n hn with h2 | h2
    · exact hold h2
    · omega

theorem run_probe_count (hasher : Key → Nat) :
    ∀ (os : List (operation Key)) (cnt : Key → Nat) (t t1 : unordered_set Key),
      (∀ n, n ∈ buffer t → n.is_occupied = true → n.probe_count ≤ cnt n.key) →
      run hasher t os = .ok t1 →
      ∀ n, n ∈ buffer t1 → n.is_occupied = true →
        n.probe_count ≤ cnt n.key + find_calls n.key os := by
  intro os
  induction os with
  | nil =>
    intro cnt t t1 hb h n hn ho
    have h1 : t = t1 := Except.ok.inj h
    rw [← h1] at hn
    have := hb n hn ho
    omega
  | cons o os ih =>
    intro cnt t t1 hb h n hn ho
    unfold run at h
    cases h0 : apply_operation hasher t o with
    | error e =>
      rw [h0] at h
      cases h
    | ok t0 =>
      rw [h0] at h
      simp only [] at h
      have hstep := apply_operation_probe_count hasher cnt t t0 o hb h0
      have := ih (fun x => cnt x + (if o = operation.find x then 1 else 0)) t0 t1 hstep h
        n hn ho
      rw [find_calls_cons]
      simp only [] at this
      omega

/-- C16, as stated, fails: after `insert(1)` and `insert(9)` on a freshly constructed set the
key 9, whose ideal index is 1, occupies the slot at index 2 with `probe_count` 0, while
`(2 - 1) mod 8` is 1. -/
theorem insert_writes_probe_count_zero :
    ∃ t, run identity_hash (construct 8 : unordered_set Nat) [.insert 1, .insert 9] = .ok t ∧
      (slot (buffer t) 2).is_occupied = true ∧ (slot (buffer t) 2).key = 9 ∧
      ideal_index identity_hash 9 t.__capacity = 1 ∧
      (slot (buffer t) 2).probe_count = 0 ∧
      cyclic_distance 2 (ideal_index identity_hash 9 t.__capacity) t.__capacity = 1 :=
  ⟨_, rfl, rfl, rfl, rfl, rfl, rfl⟩

/-- C16, amended. `probe_count` counts accesses, not slots: after every finite sequence of
`insert`, `find` and `erase` (and of `clear` and `reserve`) that completes on a freshly
constructed set, every occupied slot has a `probe_count` of at most the number of calls
`find(k)` made in the sequence for the key `k` it holds; a key that was never looked up has
`probe_count` 0 whatever its distance from its ideal index. -/
theorem probe_count_counts_finds (hasher : Key → Nat) (os : List (operation Key))
    (t : unordered_set Key) (h : run hasher (construct 8) os = .ok t) :
    ∀ n, n ∈ buffer t → n.is_occupied = true → n.probe_count ≤ find_calls n.key os := by
  intro n hn ho
  have hinit : ∀ n, n ∈ buffer (construct 8 : unordered_set Key) → n.is_occupied = true →
      n.probe_count ≤ (fun _ => 0) n.key := by
    intro x hx hxo
    have hx1 : x ∈ List.replicate 8 (empty_node : unordered_set_node Key) := hx
    rw [List.eq_of_mem_replicate hx1] at hxo
    cases hxo
  have := run_probe_count hasher os (fun _ => 0) (construct 8) t hinit h n hn ho
  simp only [] at this
  omega

/-- Witness for C16, amended: two colliding keys inserted, the second looked up twice. -/
theorem probe_count_counts_finds_witness :
    ∃ t, run identity_hash (construct 8 : unordered_set Nat)
        [.insert 1, .insert 9, .find 9, .find 9, .erase 5] = .ok t ∧
      (slot (buffer t) 1).key = 9 ∧ (slot (buffer t) 1).probe_count = 2 ∧
      (slot (buffer t) 2).key = 1 ∧ (slot (buffer t) 2).probe_count = 0 ∧
      ∀ n, n ∈ buffer t → n.is_occupied = true →
        n.probe_count ≤ find_calls n.key
          [.insert 1, .insert 9, .find 9, .find 9, .erase 5] :=
  ⟨_, rfl, rfl, rfl, rfl, rfl,
    probe_count_counts_finds identity_hash
      [.insert 1, .insert 9, .find 9, .find 9, .erase 5] _ rfl⟩

end claims_probe_count


/-! ## The documented contracts of `reserve`, `unique_ptr`, `tree_multimap` and `tree` -/

section claims_contracts

/-- C21, at the failing input: the table holding 1, 9, 17 in capacity 8 is valid and 5 is greater
than its size 3, but `reserve(5)` does not complete: with the mask `5 - 1 = 4` the keys probe the
indices 0 and 4 only, the key 17 finds both occupied and the assertion of `__insert` that a slot
is always found fails.  The requested size 4, a power of two, is honoured. -/
theorem reserve_not_power_of_two_fails :
    valid identity_hash chain_table ∧ size chain_table = 3 ∧
    reserve identity_hash chain_table 5 = .error .assertion ∧
    fast_mod2 1 5 = 0 ∧ fast_mod2 2 5 = 0 ∧ fast_mod2 3 5 = 0 ∧ fast_mod2 4 5 = 4 ∧
    ∃ t, reserve identity_hash chain_table 4 = .ok t ∧ t.__capacity = 4 ∧ size t = 3 :=
  ⟨by decide, rfl, rfl, rfl, rfl, rfl, rfl, _, rfl, rfl, rfl⟩

/-- C22, fails: `reset(ptr)` never reads its argument; for every `unique_ptr` and every pointer
the call leaves the null pointer, so `get()` is 0 and the conversion to `bool` is false, as for the
pointer 5 given to a `unique_ptr` owning 7. -/
theorem reset_ptr_leaves_null :
    (∀ (u : unique_ptr) (p : Nat), (u.reset_ptr p).get = 0 ∧ (u.reset_ptr p).to_bool = false) ∧
    (unique_ptr.reset_ptr ⟨7⟩ 5).get ≠ 5 ∧ (unique_ptr.reset_ptr ⟨7⟩ 5).to_bool = false ∧
    (unique_ptr.reset_ptr ⟨7⟩ 5) = unique_ptr.reset ⟨7⟩ :=
  ⟨fun _ _ => ⟨rfl, rfl⟩, by decide, rfl, rfl⟩

/-- C23, at the failing input: after `insert((1, 10))` and `insert((1, 20))` the map holds two
values and `size()` is 2; `erase(1)` removes both values and lowers `size()` by one: no value is
held, `size()` is 1 and `empty()` is false. -/
theorem multimap_erase_lowers_size_by_one :
    (((tree_multimap.construct : tree_multimap Nat Nat).insert (1, 10)).insert (1, 20)).size = 2 ∧
    (((tree_multimap.construct : tree_multimap Nat Nat).insert (1, 10)).insert (1, 20)).held = 2 ∧
    ((((tree_multimap.construct : tree_multimap Nat Nat).insert (1, 10)).insert
      (1, 20)).erase 1).held = 0 ∧
    ((((tree_multimap.construct : tree_multimap Nat Nat).insert (1, 10)).insert
      (1, 20)).erase 1).size = 1 ∧
    ((((tree_multimap.construct : tree_multimap Nat Nat).insert (1, 10)).insert
      (1, 20)).erase 1).empty = false :=
  ⟨rfl, rfl, rfl, rfl, rfl⟩

/-- C24, at the failing input: in the tree made of a root alone, and in the tree with a child
and a grandchild below the root, `remove` of the root reads `node->parent`, which is null, and
dereferences it; `remove` of the child completes and leaves the root alone, the value of the
grandchild being no longer found. -/
theorem remove_root_dereferences_null :
    (tree.construct 7).__root = 1 ∧
    tree.remove (tree.construct 7) 1 = some (.error .null_deref) ∧
    ∃ t1 t2 t3, tree.add (tree.construct 7) 8 1 = .ok (t1, 2) ∧ tree.add t1 9 2 = .ok (t2, 3) ∧
      t2.__root = 1 ∧ tree.search t2 9 = some (.ok 3) ∧
      tree.remove t2 1 = some (.error .null_deref) ∧
      tree.remove t2 2 = some (.ok t3) ∧ tree.search t3 9 = some (.ok 0) ∧
      tree.search t3 8 = some (.ok 0) ∧ tree.search t3 7 = some (.ok 1) :=
  ⟨rfl, rfl, _, _, _, rfl, rfl, rfl, rfl, rfl, rfl, rfl, rfl, rfl⟩

end claims_contracts


/-! ## The index mapping -/

section claims_index

/-- C29: for every capacity `c` that is a power of two (below `2 ^ 64`) and all digests `d` and
offsets `o`, the index `fast_mod2(d + o, c)`, which is `(d + o) & (c - 1)`, equals `(d + o) mod c`
and is less than `c`; the same holds for the index the loops compute, where the sum `d + o` is
first reduced to `size_t`. -/
theorem fast_index_is_modulo (c d o : Nat) (hc : power_of_two c) :
    fast_mod2 (d + o) c = (d + o) &&& (c - 1) ∧
    fast_mod2 (d + o) c = (d + o) % c ∧ fast_mod2 (d + o) c < c ∧
    fast_mod2 ((d + o) % size_mod) c = (d + o) % c := by
  have h2 : fast_mod2 (d + o) c = (d + o) % c := fast_mod2_mod hc _
  refine ⟨?_, h2, ?_, ?_⟩
  · rw [h2]
    obtain ⟨j, hj, rfl⟩ := hc
    exact (Nat.and_pow_two_sub_one_eq_mod _ _).symm
  · rw [h2]; exact Nat.mod_lt _ (power_of_two_pos hc)
  · exact probe_mod hc d o

/-- Witness for C29: capacity 8, digest 13 and offset 6 give the index 3. -/
theorem fast_index_is_modulo_witness :
    power_of_two 8 ∧ fast_mod2 (13 + 6) 8 = 3 ∧
    (fast_mod2 (13 + 6) 8 = (13 + 6) &&& (8 - 1) ∧
      fast_mod2 (13 + 6) 8 = (13 + 6) % 8 ∧ fast_mod2 (13 + 6) 8 < 8 ∧
      fast_mod2 ((13 + 6) % size_mod) 8 = (13 + 6) % 8) :=
  ⟨by decide, rfl, fast_index_is_modulo 8 13 6 (by decide)⟩

end claims_index


/-! ## First-fit placement -/

section claims_first_fit

variable {Key : Type} [DecidableEq Key] [Inhabited Key]

theorem insert_first_fit (hasher : Key → Nat) (c u : Nat)
    (buf : List (unordered_set_node Key)) (hv : valid_buf hasher c u buf)
    (hload : load_exceeds u c = false) (k : Key) (hk : ¬ stored buf k) :
    ∃ j, j < c ∧
      (∀ d, d < j → (slot buf (probe (hasher k % size_mod) c d)).is_occupied = true) ∧
      (slot buf (probe (hasher k % size_mod) c j)).is_occupied = false ∧
      insert hasher { __capacity := c, __usage := u, __data := some buf } k
        = .ok { __capacity := c, __usage := u + 1,
                __data := some (buf.set (probe (hasher k % size_mod) c j)
                  { key := k, probe_count := 0, is_occupied := true }) } := by
  obtain ⟨hlen, hpow, hbytes, hu, hnd, hrun, hemp⟩ := hv
  have hdbl := double_of_bytes hbytes
  obtain ⟨j, hj, hbefore, hres⟩ := insert_result hpow hasher buf hlen k (Or.inl hemp)
  have hp : probe (hasher k % size_mod) c j < buf.length := by
    rw [hlen]; exact probe_lt hpow _ j
  have hu1 : u + 1 < size_mod := by
    have := count_lt_of_has_empty buf hemp
    omega
  rcases hres with ⟨ho, hkey, _⟩ | ⟨hvac, he⟩
  · exact absurd ((stored_iff buf k).mpr ⟨_, hp, ho, hkey⟩) hk
  · refine ⟨j, hj, fun d hd => (hbefore d hd).1, hvac, ?_⟩
    unfold insert
    simp only [hload, Bool.false_eq_true, if_false]
    rw [he]
    simp [Nat.mod_eq_of_lt hu1]

theorem probe_zero_ideal (hasher : Key → Nat) (k : Key) (c : Nat) :
    probe (hasher k % size_mod) c 0 = ideal_index hasher k c := by
  unfold probe ideal_index
  rw [Nat.add_zero, Nat.mod_mod]

theorem insert_at_ideal (hasher : Key → Nat) (c u : Nat)
    (buf : List (unordered_set_node Key)) (hv : valid_buf hasher c u buf)
    (hload : load_exceeds u c = false) (k : Key) (hk : ¬ stored buf k)
    (hvac : (slot buf (ideal_index hasher k c)).is_occupied = false) :
    insert hasher { __capacity := c, __usage := u, __data := some buf } k
      = .ok { __capacity := c, __usage := u + 1,
              __data := some (buf.set (ideal_index hasher k c)
                { key := k, probe_count := 0, is_occupied := true }) } := by
  obtain ⟨j, hj, hbefore, _, he⟩ := insert_first_fit hasher c u buf hv hload k hk
  have hj0 : j = 0 := by
    rcases Nat.eq_zero_or_pos j with h | h
    · exact h
    · have h1 := hbefore 0 h
      rw [probe_zero_ideal, hvac] at h1
      cases h1
  rw [hj0, probe_zero_ideal] at he
  exact he

theorem find_at_ideal (hasher : Key → Nat) (c u : Nat)
    (buf : List (unordered_set_node Key)) (k : Key)
    (hi : ideal_index hasher k c < buf.length)
    (ho : (slot buf (ideal_index hasher k c)).is_occupied = true)
    (hkey : (slot buf (ideal_index hasher k c)).key = k) :
    ∃ t1, find hasher { __capacity := c, __usage := u, __data := some buf } k
      = .ok (ideal_index hasher k c, t1) := by
  unfold find find_buf
  simp only []
  unfold ideal_index at hi ho hkey ⊢
  rw [load_of_lt hi]
  simp only [ho, hkey, and_self, if_true]
  exact ⟨_, rfl⟩

theorem insert_at_ideal_valid (hasher : Key → Nat) (c u : Nat)
    (buf : List (unordered_set_node Key)) (hv : valid_buf hasher c u buf) (hc4 : 4 ≤ c)
    (hbound : c < 9007199254740992)
    (hload : load_exceeds u c = false) (k : Key) (hk : ¬ stored buf k)
    (hvac : (slot buf (ideal_index hasher k c)).is_occupied = false) :
    valid_buf hasher c (u + 1) (buf.set (ideal_index hasher k c)
        { key := k, probe_count := 0, is_occupied := true }) ∧
      (∀ x, stored (buf.set (ideal_index hasher k c)
        { key := k, probe_count := 0, is_occupied := true }) x ↔ (x = k ∨ stored buf x)) := by
  obtain ⟨buf1, c1, u1, he, hv1, _, _, _, hst⟩ := insert_valid_step hasher c u buf hv hc4 hbound k
  rw [insert_at_ideal hasher c u buf hv hload k hk hvac] at he
  have h0 := Except.ok.inj he
  injection h0 with h1 h2 h3
  injection h3 with h4
  subst h1 h2 h4
  exact ⟨hv1, hst⟩

theorem insert_all_cons_ok (hasher : Key → Nat) (t t1 : unordered_set Key) (k : Key)
    (ks : List Key) (h : insert hasher t k = .ok t1) :
    insert_all hasher t (k :: ks) = insert_all hasher t1 ks := by
  show (match insert hasher t k with
    | Except.error e => Except.error e
    | Except.ok t1 => insert_all hasher t1 ks) = _
  rw [h]

theorem scenario_a_placement (hasher : Key → Nat) (k3 k4 k5 : Key)
    (h3 : ideal_index hasher k3 8 = 3) (h4 : ideal_index hasher k4 8 = 4)
    (h5 : ideal_index hasher k5 8 = 5) :
    insert_all hasher (construct 8) [k3, k4, k5] = .ok
      { __capacity := 8, __usage := 3,
        __data := some ((((List.replicate 8 empty_node).set 3 ⟨k3, 0, true⟩).set 4
          ⟨k4, 0, true⟩).set 5 ⟨k5, 0, true⟩) } := by
  have hb : 8 < 9007199254740992 := by norm_num
  have v0 : valid_buf hasher 8 0 (List.replicate 8 (empty_node : unordered_set_node Key)) :=
    valid_construct hasher
  have n0 : ∀ x : Key, ¬ stored (List.replicate 8 (empty_node : unordered_set_node Key)) x := by
    intro x hx
    unfold stored at hx
    rw [stored_keys_replicate] at hx
    cases hx
  have hk34 : k4 ≠ k3 := by
    intro h; rw [h, h3] at h4; cases h4
  have hk35 : k5 ≠ k3 := by
    intro h; rw [h, h3] at h5; cases h5
  have hk45 : k5 ≠ k4 := by
    intro h; rw [h, h4] at h5; cases h5
  have c0 : (slot (List.replicate 8 (empty_node : unordered_set_node Key))
      (ideal_index hasher k3 8)).is_occupied = false := by
    rw [slot_replicate]; rfl
  have e1 := insert_at_ideal hasher 8 0 _ v0 rfl k3 (n0 k3) c0
  obtain ⟨v1, s1⟩ := insert_at_ideal_valid hasher 8 0 _ v0 (by norm_num) hb rfl k3 (n0 k3) c0
  rw [h3] at e1 v1 s1
  have n1 : ¬ stored ((List.replicate 8 (empty_node : unordered_set_node Key)).set 3
      ⟨k3, 0, true⟩) k4 := by
    intro h
    rcases (s1 k4).mp h with h | h
    · exact hk34 h
    · exact n0 k4 h
  have c1 : (slot ((List.replicate 8 (empty_node : unordered_set_node Key)).set 3
      ⟨k3, 0, true⟩) (ideal_index hasher k4 8)).is_occupied = false := by
    rw [h4, slot_set_ne _ (by norm_num), slot_replicate]; rfl
  have e2 := insert_at_ideal hasher 8 (0 + 1) _ v1 rfl k4 n1 c1
  obtain ⟨v2, s2⟩ := insert_at_ideal_valid hasher 8 (0 + 1) _ v1 (by norm_num) hb rfl k4 n1 c1
  rw [h4] at e2 v2 s2
  have n2 : ¬ stored (((List.replicate 8 (empty_node : unordered_set_node Key)).set 3
      ⟨k3, 0, true⟩).set 4 ⟨k4, 0, true⟩) k5 := by
    intro h
    rcases (s2 k5).mp h with h | h
    · exact hk45 h
    · rcases (s1 k5).mp h with h | h
      · exact hk35 h
      · exact n0 k5 h
  have c2 : (slot (((List.replicate 8 (empty_node : unordered_set_node Key)).set 3
      ⟨k3, 0, true⟩).set 4 ⟨k4, 0, true⟩) (ideal_index hasher k5 8)).is_occupied = false := by
    rw [h5, slot_set_ne _ (by norm_num), slot_set_ne _ (by norm_num), slot_replicate]; rfl
  have e3 := insert_at_ideal hasher 8 (0 + 1 + 1) _ v2 rfl k5 n2 c2
  rw [h5] at e3
  have e0 : (construct 8 : unordered_set Key)
      = { __capacity := 8, __usage := 0, __data := some (List.replicate 8 empty_node) } := rfl
  rw [e0, insert_all_cons_ok hasher _ _ _ _ e1, insert_all_cons_ok hasher _ _ _ _ e2,
    insert_all_cons_ok hasher _ _ _ _ e3]
  rfl

/-- C25: on a valid table whose load does not exceed 0.7 (no resize), `insert(k)` of a key that
is not stored completes; with `j` the first offset at which the probe sequence `ideal`,
`ideal + 1`, ... (modulo the capacity) meets an Empty slot, the call writes the node
`(k, probe_count 0, occupied)` into that slot, leaves every other slot and the capacity as they
were and increments the count by one; when the slot at the ideal index is Empty the key is
stored there.  Scenario A: for every hash, three keys with the ideal indices 3, 4, 5 inserted
into a freshly constructed table of capacity 8 end at the slots 3, 4, 5 and `find` returns the
positions 3, 4, 5 for them. -/
theorem insert_places_first_fit (hasher : Key → Nat) (t : unordered_set Key) (k : Key)
    (hv : valid hasher t) (hload : load_exceeds t.__usage t.__capacity = false)
    (hk : ¬ stored (buffer t) k) :
    (∃ j t1, j < t.__capacity ∧
      (∀ d, d < j → (slot (buffer t)
        ((ideal_index hasher k t.__capacity + d) % t.__capacity)).is_occupied = true) ∧
      (slot (buffer t)
        ((ideal_index hasher k t.__capacity + j) % t.__capacity)).is_occupied = false ∧
      insert hasher t k = .ok t1 ∧ t1.__capacity = t.__capacity ∧ size t1 = size t + 1 ∧
      buffer t1 = (buffer t).set ((ideal_index hasher k t.__capacity + j) % t.__capacity)
        { key := k, probe_count := 0, is_occupied := true } ∧
      slot (buffer t1) ((ideal_index hasher k t.__capacity + j) % t.__capacity)
        = { key := k, probe_count := 0, is_occupied := true } ∧
      (∀ x, x ≠ (ideal_index hasher k t.__capacity + j) % t.__capacity →
        slot (buffer t1) x = slot (buffer t) x) ∧
      ((slot (buffer t) (ideal_index hasher k t.__capacity)).is_occupied = false → j = 0)) ∧
    (∀ k3 k4 k5 : Key, ideal_index hasher k3 8 = 3 → ideal_index hasher k4 8 = 4 →
      ideal_index hasher k5 8 = 5 →
      ∃ t3, insert_all hasher (construct 8) [k3, k4, k5] = .ok t3 ∧
        t3.__capacity = 8 ∧ size t3 = 3 ∧
        slot (buffer t3) 3 = { key := k3, probe_count := 0, is_occupied := true } ∧
        slot (buffer t3) 4 = { key := k4, probe_count := 0, is_occupied := true } ∧
        slot (buffer t3) 5 = { key := k5, probe_count := 0, is_occupied := true } ∧
        (∃ r, find hasher t3 k3 = .ok (3, r)) ∧ (∃ r, find hasher t3 k4 = .ok (4, r)) ∧
        (∃ r, find hasher t3 k5 = .ok (5, r))) := by
  constructor
  · obtain ⟨c, u, d⟩ := t
    cases d with
    | none => exact absurd hv (by simp [valid])
    | some buf =>
      have hvb : valid_buf hasher c u buf := hv
      have hpow := hvb.2.1
      have hlen := hvb.1
      obtain ⟨j, hj, hbefore, hvac, he⟩ := insert_first_fit hasher c u buf hvb hload k hk
      have hp : ∀ i, probe (hasher k % size_mod) c i = (ideal_index hasher k c + i) % c :=
        fun i => probe_ideal hpow _ i
      simp only [hp] at hbefore hvac he
      have hlt : (ideal_index hasher k c + j) % c < buf.length := by
        rw [hlen]; exact Nat.mod_lt _ (power_of_two_pos hpow)
      refine ⟨j, _, hj, hbefore, hvac, he, rfl, rfl, rfl, slot_set_self hlt _,
        fun x hx => slot_set_ne _ (Ne.symm hx) _, ?_⟩
      intro h0
      rcases Nat.eq_zero_or_pos j with h | h
      · exact h
      · have h1 := hbefore 0 h
        rw [Nat.add_zero, Nat.mod_eq_of_lt (ideal_index_lt hpow hasher k)] at h1
        rw [show buffer (⟨c, u, some buf⟩ : unordered_set Key) = buf from rfl] at h0
        rw [h0] at h1
        cases h1
  · intro k3 k4 k5 h3 h4 h5
    have e := scenario_a_placement hasher k3 k4 k5 h3 h4 h5
    refine ⟨_, e, rfl, rfl, rfl, rfl, rfl, ?_, ?_, ?_⟩
    · have := find_at_ideal hasher 8 3 ((((List.replicate 8 empty_node).set 3
        ⟨k3, 0, true⟩).set 4 ⟨k4, 0, true⟩).set 5 ⟨k5, 0, true⟩) k3
        (by rw [h3]; simp) (by rw [h3]; rfl) (by rw [h3]; rfl)
      rw [h3] at this
      exact this
    · have := find_at_ideal hasher 8 3 ((((List.replicate 8 empty_node).set 3
        ⟨k3, 0, true⟩).set 4 ⟨k4, 0, true⟩).set 5 ⟨k5, 0, true⟩) k4
        (by rw [h4]; simp) (by rw [h4]; rfl) (by rw [h4]; rfl)
      rw [h4] at this
      exact this
    · have := find_at_ideal hasher 8 3 ((((List.replicate 8 empty_node).set 3
        ⟨k3, 0, true⟩).set 4 ⟨k4, 0, true⟩).set 5 ⟨k5, 0, true⟩) k5
        (by rw [h5]; simp) (by rw [h5]; rfl) (by rw [h5]; rfl)
      rw [h5] at this
      exact this

/-- Witness for C25: in the table holding 1, 9, 17 at the slots 1, 2, 3 the key 25, of ideal
index 1, is written into slot 4; the keys 3, 12, 21 have the ideal indices 3, 4, 5. -/
theorem insert_places_first_fit_witness :
    valid identity_hash chain_table ∧ load_exceeds chain_table.__usage chain_table.__capacity
      = false ∧ ¬ stored (buffer chain_table) 25 ∧
    (∃ t1, insert identity_hash chain_table 25 = .ok t1 ∧
      slot (buffer t1) 4 = { key := 25, probe_count := 0, is_occupied := true } ∧ size t1 = 4) ∧
    (∃ t3, insert_all identity_hash (construct 8) [3, 12, 21] = .ok t3 ∧
      slot (buffer t3) 4 = { key := 12, probe_count := 0, is_occupied := true } ∧
      (∃ r, find identity_hash t3 21 = .ok (5, r))) := by
  have h := insert_places_first_fit identity_hash chain_table 25 (by decide) rfl (by decide)
  refine ⟨by decide, rfl, by decide, ⟨_, rfl, rfl, rfl⟩, ?_⟩
  obtain ⟨t3, e, _, _, _, h4, _, _, _, f5⟩ := h.2 3 12 21 rfl rfl rfl
  exact ⟨t3, e, h4, f5⟩

end claims_first_fit


/-! ## The exact result of `find` -/

section find_exact

variable {Key : Type} [DecidableEq Key] [Inhabited Key]

theorem find_loop_exact (k : Key) (hashed c : Nat) (buf : List (unordered_set_node Key))
    (hlen : ∀ i, probe hashed c i < buf.length) :
    ∀ (rem i j : Nat), i ≤ j → j < i + rem →
      (∀ d, i ≤ d → d ≤ j → (slot buf (probe hashed c d)).is_occupied = true) →
      (∀ d, i < d → d ≤ j → (slot buf (probe hashed c d)).key ≠ k) →
      (slot buf (probe hashed c (j + 1))).is_occupied = true →
      (slot buf (probe hashed c (j + 1))).key = k →
      probe hashed c j ≠ probe hashed c (j + 1) →
      find_loop k hashed c buf rem i =
        if ((slot buf (probe hashed c (j + 1))).probe_count + 1) % size_mod
            > (slot buf (probe hashed c j)).probe_count
        then .ok (probe hashed c j,
          (buf.set (probe hashed c (j + 1)) (slot buf (probe hashed c j))).set (probe hashed c j)
            { slot buf (probe hashed c (j + 1)) with
              probe_count := ((slot buf (probe hashed c (j + 1))).probe_count + 1) % size_mod })
        else .ok (probe hashed c (j + 1),
          buf.set (probe hashed c (j + 1))
            { slot buf (probe hashed c (j + 1)) with
              probe_count := ((slot buf (probe hashed c (j + 1))).probe_count + 1) % size_mod })
      := by
  intro rem
  induction rem with
  | zero => intro i j h1 h2; omega
  | succ rem ih =>
    intro i j h1 h2 hocc hne hjo hjk hab
    unfold find_loop
    simp only [probe_fold, probe_fold_succ]
    rw [load_of_lt (hlen i)]
    simp only []
    rw [if_pos (hocc i (le_refl i) h1), load_of_lt (hlen (i + 1))]
    simp only []
    by_cases hij : i = j
    · subst hij
      rw [if_pos ⟨hjo, hjk⟩]
      have hidx : ∀ n, probe hashed c i < (buf.set (probe hashed c (i + 1)) n).length := by
        intro n; rw [List.length_set]; exact hlen i
      rw [load_of_lt (hidx _)]
      simp only []
      rw [slot_set_ne _ (Ne.symm hab), List.set_set]
    · have hk : ¬ ((slot buf (probe hashed c (i + 1))).is_occupied = true ∧
          (slot buf (probe hashed c (i + 1))).key = k) := by
        intro hcon
        exact hne (i + 1) (by omega) (by omega) hcon.2
      rw [if_neg hk]
      exact ih (i + 1) j (by omega) (by omega) (fun d hd1 hd2 => hocc d (by omega) hd2)
        (fun d hd1 hd2 => hne d (by omega) hd2) hjo hjk hab

theorem find_buf_at_zero (hasher : Key → Nat) (c : Nat)
    (buf : List (unordered_set_node Key)) (k : Key)
    (hi : ideal_index hasher k c < buf.length)
    (ho : (slot buf (ideal_index hasher k c)).is_occupied = true)
    (hkey : (slot buf (ideal_index hasher k c)).key = k) :
    find_buf hasher k c buf = .ok (ideal_index hasher k c,
      buf.set (ideal_index hasher k c)
        { slot buf (ideal_index hasher k c) with
          probe_count := ((slot buf (ideal_index hasher k c)).probe_count + 1) % size_mod }) := by
  unfold find_buf
  simp only []
  unfold ideal_index at hi ho hkey ⊢
  rw [load_of_lt hi]
  simp only [ho, hkey, and_self, if_true]

theorem find_buf_at_succ {c : Nat} (hc : power_of_two c) (hasher : Key → Nat)
    (buf : List (unordered_set_node Key)) (hlen : buf.length = c) (k : Key) (j : Nat)
    (hj : j + 1 < c) (hr : reached (hasher k % size_mod) c buf k (j + 1)) :
    find_buf hasher k c buf =
      if ((slot buf (probe (hasher k % size_mod) c (j + 1))).probe_count + 1) % size_mod
          > (slot buf (probe (hasher k % size_mod) c j)).probe_count
      then .ok (probe (hasher k % size_mod) c j,
        (buf.set (probe (hasher k % size_mod) c (j + 1))
          (slot buf (probe (hasher k % size_mod) c j))).set (probe (hasher k % size_mod) c j)
          { slot buf (probe (hasher k % size_mod) c (j + 1)) with
            probe_count :=
              ((slot buf (probe (hasher k % size_mod) c (j + 1))).probe_count + 1) % size_mod })
      else .ok (probe (hasher k % size_mod) c (j + 1),
        buf.set (probe (hasher k % size_mod) c (j + 1))
          { slot buf (probe (hasher k % size_mod) c (j + 1)) with
            probe_count :=
              ((slot buf (probe (hasher k % size_mod) c (j + 1))).probe_count + 1) % size_mod })
    := by
  have hl : ∀ i, probe (hasher k % size_mod) c i < buf.length := by
    intro i; rw [hlen]; exact probe_lt hc _ i
  obtain ⟨hbefore, hjo, hjk⟩ := hr
  have hab : probe (hasher k % size_mod) c j ≠ probe (hasher k % size_mod) c (j + 1) := by
    intro h
    have := probe_inj hc (hasher k % size_mod) (by omega) hj h
    omega
  unfold find_buf
  simp only []
  have h0 : fast_mod2 (hasher k % size_mod) c = probe (hasher k % size_mod) c 0 := by
    unfold probe
    rw [Nat.add_zero, Nat.mod_mod]
  rw [h0, load_of_lt (hl 0)]
  simp only []
  have hk : ¬ ((slot buf (probe (hasher k % size_mod) c 0)).is_occupied = true ∧
      (slot buf (probe (hasher k % size_mod) c 0)).key = k) := by
    intro hcon
    exact (hbefore 0 (by omega)).2 hcon.2
  rw [if_neg hk]
  exact find_loop_exact k (hasher k % size_mod) c buf hl c 0 j (Nat.zero_le j) (by omega)
    (fun d _ hd => (hbefore d (by omega)).1) (fun d _ hd => (hbefore d (by omega)).2) hjo hjk hab

theorem find_buf_miss {c : Nat} (hc : power_of_two c) (hasher : Key → Nat)
    (buf : List (unordered_set_node Key)) (hlen : buf.length = c) (k : Key)
    (hk : ¬ stored buf k) : find_buf hasher k c buf = .ok (c, buf) := by
  obtain ⟨pos, buf1, he, _, h | h⟩ := find_buf_sound hc hasher buf hlen k
  · rw [he, h.1, h.2]
  · exact absurd h.2.1 hk

end find_exact


/-! ## Buffers that agree on keys and occupancy flags -/

section agreement

variable {Key : Type} [DecidableEq Key] [Inhabited Key]

theorem slot_cons_zero (a : unordered_set_node Key) (l : List (unordered_set_node Key)) :
    slot (a :: l) 0 = a := rfl

theorem slot_cons_succ (a : unordered_set_node Key) (l : List (unordered_set_node Key))
    (x : Nat) : slot (a :: l) (x + 1) = slot l x := rfl

theorem stored_keys_congr :
    ∀ (b1 b2 : List (unordered_set_node Key)), b1.length = b2.length →
      (∀ x, (slot b1 x).key = (slot b2 x).key ∧
        (slot b1 x).is_occupied = (slot b2 x).is_occupied) →
      stored_keys b1 = stored_keys b2 := by
  intro b1
  induction b1 with
  | nil =>
    intro b2 hlen _
    cases b2 with
    | nil => rfl
    | cons a l => simp at hlen
  | cons a l ih =>
    intro b2 hlen h
    cases b2 with
    | nil => simp at hlen
    | cons a2 l2 =>
      have h0 := h 0
      rw [slot_cons_zero, slot_cons_zero] at h0
      have ht := ih l2 (by simpa using hlen) (fun x => by
        have := h (x + 1)
        rw [slot_cons_succ, slot_cons_succ] at this
        exact this)
      rw [stored_keys_cons, stored_keys_cons, ht, h0.1, h0.2]

theorem occupied_indices_congr (b1 b2 : List (unordered_set_node Key))
    (hlen : b1.length = b2.length)
    (h : ∀ x, (slot b1 x).is_occupied = (slot b2 x).is_occupied) :
    occupied_indices b1 = occupied_indices b2 := by
  unfold occupied_indices
  rw [hlen]
  apply List.filter_congr
  intro x _
  exact h x

theorem key_unique (buf : List (unordered_set_node Key)) (hnd : no_duplicates buf)
    {i j : Nat} (hij : i ≠ j) (hi : (slot buf i).is_occupied = true)
    (hj : (slot buf j).is_occupied = true) : (slot buf i).key ≠ (slot buf j).key := by
  intro heq
  have hp := stored_keys_clear_perm buf i hi
  unfold no_duplicates at hnd
  have h1 := (hp.nodup_iff.mp hnd)
  rw [List.nodup_cons] at h1
  apply h1.1
  have hjl : j < (buf.set i (empty_node : unordered_set_node Key)).length := by
    rw [List.length_set]; exact lt_of_occupied hj
  have := (stored_iff (buf.set i empty_node) (slot buf i).key).mpr
    ⟨j, hjl, by rw [slot_set_ne _ hij]; exact hj, by rw [slot_set_ne _ hij]; exact heq.symm⟩
  exact this

theorem mod_add_inj {c : Nat} (hc : power_of_two c) (h : Nat) {d e : Nat}
    (hd : d < c) (he : e < c) (heq : (h + d) % c = (h + e) % c) : d = e := by
  rw [← probe_mod hc, ← probe_mod hc] at heq
  exact probe_inj hc h hd he heq

theorem reached_at {c : Nat} (hc : power_of_two c) (hasher : Key → Nat)
    (buf : List (unordered_set_node Key)) (hrun : contiguous_run hasher c buf)
    (hnd : no_duplicates buf) (k : Key) (j : Nat) (hj : j < c)
    (ho : (slot buf (probe (hasher k % size_mod) c j)).is_occupied = true)
    (hkey : (slot buf (probe (hasher k % size_mod) c j)).key = k) :
    reached (hasher k % size_mod) c buf k j := by
  refine ⟨?_, ho, hkey⟩
  intro d hd
  have h1 := hrun _ (probe_lt hc _ j) ho j hj
  rw [hkey] at h1
  have h2 := h1 (by rw [probe_ideal hc]; rfl) d hd
  have h3 : probe (hasher k % size_mod) c d
      = (ideal_index hasher k c + d) % c := probe_ideal hc _ d
  rw [h3]
  refine ⟨h2, ?_⟩
  intro hcon
  have hne : (ideal_index hasher k c + d) % c ≠ probe (hasher k % size_mod) c j := by
    rw [← h3]
    intro h
    have := probe_inj hc _ (by omega) hj h
    omega
  apply key_unique buf hnd hne h2 ho
  rw [hcon, hkey]

theorem contiguous_congr (hasher : Key → Nat) (c : Nat)
    (b1 b2 : List (unordered_set_node Key))
    (h : ∀ x, (slot b1 x).key = (slot b2 x).key ∧
      (slot b1 x).is_occupied = (slot b2 x).is_occupied)
    (hrun : contiguous_run hasher c b2) : contiguous_run hasher c b1 := by
  intro i hi hocc d hd hD e he
  rw [(h i).2] at hocc
  rw [(h i).1] at hD ⊢
  rw [(h _).2]
  exact hrun i hi hocc d hd hD e he

end agreement


/-! ## `find` preserves the invariants -/

section find_preserves

variable {Key : Type} [DecidableEq Key] [Inhabited Key]

theorem agree_set_same (buf : List (unordered_set_node Key)) (p : Nat)
    (n : unordered_set_node Key) (hk : n.key = (slot buf p).key)
    (ho : n.is_occupied = (slot buf p).is_occupied) (hp : p < buf.length) :
    ∀ x, (slot (buf.set p n) x).key = (slot buf x).key ∧
      (slot (buf.set p n) x).is_occupied = (slot buf x).is_occupied := by
  intro x
  by_cases h : p = x
  · subst h
    rw [slot_set_self hp]
    exact ⟨hk, ho⟩
  · rw [slot_set_ne _ h]
    exact ⟨rfl, rfl⟩

theorem swap_occupancy (buf : List (unordered_set_node Key)) (a b : Nat) (hab : a ≠ b)
    (m1 : unordered_set_node Key) (hm : m1.is_occupied = true)
    (ha : (slot buf a).is_occupied = true) (hb : (slot buf b).is_occupied = true) :
    ∀ x, (slot ((buf.set b (slot buf a)).set a m1) x).is_occupied
      = (slot buf x).is_occupied := by
  intro x
  have hal : a < (buf.set b (slot buf a)).length := by
    rw [List.length_set]; exact lt_of_occupied ha
  by_cases h : a = x
  · subst h
    rw [slot_set_self hal, hm, ha]
  · rw [slot_set_ne _ h]
    by_cases h2 : b = x
    · subst h2
      rw [slot_set_self (lt_of_occupied hb), ha, hb]
    · rw [slot_set_ne _ h2]

theorem swap_keys_perm (buf : List (unordered_set_node Key)) (a b : Nat) (hab : a ≠ b)
    (m1 : unordered_set_node Key) (hm : m1.is_occupied = true)
    (hmk : m1.key = (slot buf b).key)
    (ha : (slot buf a).is_occupied = true) (hb : (slot buf b).is_occupied = true) :
    (stored_keys ((buf.set b (slot buf a)).set a m1)).Perm (stored_keys buf) := by
  have hal : a < buf.length := lt_of_occupied ha
  have hbl : b < buf.length := lt_of_occupied hb
  have hal1 : a < (buf.set b (slot buf a)).length := by rw [List.length_set]; exact hal
  -- the old buffer
  have p1 := stored_keys_clear_perm buf a ha
  have hb1 : (slot (buf.set a (empty_node : unordered_set_node Key)) b).is_occupied = true := by
    rw [slot_set_ne _ hab]; exact hb
  have p2 := stored_keys_clear_perm (buf.set a empty_node) b hb1
  rw [slot_set_ne _ hab] at p2
  -- the new buffer
  have ha2 : (slot ((buf.set b (slot buf a)).set a m1) a).is_occupied = true := by
    rw [slot_set_self hal1]; exact hm
  have q1 := stored_keys_clear_perm ((buf.set b (slot buf a)).set a m1) a ha2
  rw [slot_set_self hal1, List.set_set] at q1
  have hb2 : (slot ((buf.set b (slot buf a)).set a (empty_node : unordered_set_node Key))
      b).is_occupied = true := by
    rw [slot_set_ne _ hab, slot_set_self hbl]; exact ha
  have q2 := stored_keys_clear_perm ((buf.set b (slot buf a)).set a empty_node) b hb2
  rw [slot_set_ne _ hab, slot_set_self hbl] at q2
  have he : ((buf.set b (slot buf a)).set a (empty_node : unordered_set_node Key)).set b
      empty_node = (buf.set a empty_node).set b empty_node := by
    rw [List.set_comm _ _ _ (Ne.symm hab), List.set_set]
  rw [he] at q2
  rw [hmk] at q1
  have r1 := p1.trans (List.Perm.cons _ p2)
  have r2 := q1.trans (List.Perm.cons _ q2)
  exact r2.trans ((List.Perm.swap _ _ _).trans r1.symm)

theorem swap_contiguous {c : Nat} (hc : power_of_two c) (hasher : Key → Nat)
    (buf : List (unordered_set_node Key)) (hlen : buf.length = c)
    (hrun : contiguous_run hasher c buf) (hemp : has_empty_slot buf) (k : Key) (j : Nat)
    (hj : j + 1 < c) (hr : reached (hasher k % size_mod) c buf k (j + 1))
    (m1 : unordered_set_node Key) (hm : m1.is_occupied = true) (hmk : m1.key = k) :
    contiguous_run hasher c
      ((buf.set (probe (hasher k % size_mod) c (j + 1))
        (slot buf (probe (hasher k % size_mod) c j))).set (probe (hasher k % size_mod) c j)
        m1) := by
  have hpos := power_of_two_pos hc
  have hpa : probe (hasher k % size_mod) c j = (ideal_index hasher k c + j) % c :=
    probe_ideal hc _ j
  have hpb : probe (hasher k % size_mod) c (j + 1) = (ideal_index hasher k c + (j + 1)) % c :=
    probe_ideal hc _ (j + 1)
  have hpe : ∀ e, probe (hasher k % size_mod) c e = (ideal_index hasher k c + e) % c :=
    fun e => probe_ideal hc _ e
  generalize ha : probe (hasher k % size_mod) c j = a at hpa ⊢
  generalize hb : probe (hasher k % size_mod) c (j + 1) = b at hpb ⊢
  have hab : a ≠ b := by
    intro h
    rw [hpa, hpb] at h
    have := mod_add_inj hc _ (by omega) hj h
    omega
  have hoa : (slot buf a).is_occupied = true := by
    rw [← ha]; exact (hr.1 j (by omega)).1
  have hob : (slot buf b).is_occupied = true := by
    rw [← hb]; exact hr.2.1
  have hal : a < buf.length := lt_of_occupied hoa
  have hbl : b < buf.length := lt_of_occupied hob
  have hal1 : a < (buf.set b (slot buf a)).length := by rw [List.length_set]; exact hal
  have hocc_all := swap_occupancy buf a b hab m1 hm hoa hob
  intro i hi hocc d hd hD e he
  rw [hocc_all] at hocc ⊢
  by_cases hia : i = a
  · subst hia
    rw [slot_set_self hal1, hmk] at hD ⊢
    rw [hpa] at hD
    have hdj : d = j := mod_add_inj hc _ hd (by omega) hD
    rw [← hpe]
    exact (hr.1 e (by omega)).1
  · by_cases hib : i = b
    · subst hib
      rw [slot_set_ne _ (Ne.symm hia), slot_set_self hbl] at hD ⊢
      -- the key displaced from a: its run in the old buffer ends at a
      have hq := ideal_index_lt hc hasher (slot buf a).key
      have hal2 : a < c := by rw [← hlen]; exact hal
      have hdq := add_cyclic_distance hal2 hq
      have hdlt := cyclic_distance_lt hpos a (ideal_index hasher (slot buf a).key c)
      have hold := hrun a hal2 hoa _ hdlt hdq
      have hnext : (ideal_index hasher (slot buf a).key c
          + (cyclic_distance a (ideal_index hasher (slot buf a).key c) c + 1)) % c = i := by
        rw [← Nat.add_assoc, ← Nat.mod_add_mod, hdq, hpb, hpa, Nat.mod_add_mod, Nat.add_assoc]
      generalize cyclic_distance a (ideal_index hasher (slot buf a).key c) c = dq at *
      generalize ideal_index hasher (slot buf a).key c = hqv at *
      by_cases hfull : dq + 1 < c
      · have hdd : d = dq + 1 := mod_add_inj hc _ hd hfull (by rw [hD, hnext])
        by_cases hedq : e < dq
        · exact hold e hedq
        · have : e = dq := by omega
          rw [this, hdq]; exact hoa
      · exfalso
        obtain ⟨y, hy, hvac⟩ := hemp
        rw [hlen] at hy
        obtain ⟨e1, he1, hp1⟩ := probe_surj hc hqv hy
        rw [probe_mod hc] at hp1
        by_cases hedq : e1 < dq
        · have := hold e1 hedq
          rw [hp1, hvac] at this
          cases this
        · have : e1 = dq := by omega
          rw [this, hdq] at hp1
          rw [← hp1, hoa] at hvac
          cases hvac
    · rw [slot_set_ne _ (Ne.symm hia), slot_set_ne _ (Ne.symm hib)] at hD ⊢
      exact hrun i hi hocc d hd hD e he

theorem valid_of_agree (hasher : Key → Nat) (c u : Nat)
    (buf buf1 : List (unordered_set_node Key)) (hv : valid_buf hasher c u buf)
    (hlen1 : buf1.length = c)
    (hocc : ∀ x, (slot buf1 x).is_occupied = (slot buf x).is_occupied)
    (hperm : (stored_keys buf1).Perm (stored_keys buf))
    (hrun1 : contiguous_run hasher c buf1) : valid_buf hasher c u buf1 := by
  obtain ⟨hlen, hpow, hbytes, hu, hnd, hrun, hemp⟩ := hv
  have hdbl := double_of_bytes hbytes
  refine ⟨hlen1, hpow, hbytes, ?_, ?_, hrun1, ?_⟩
  · rw [hu, occupied_count_eq_length, occupied_count_eq_length, hperm.length_eq]
  · unfold no_duplicates at hnd ⊢
    exact hperm.nodup_iff.mpr hnd
  · obtain ⟨i, hi, hvac⟩ := hemp
    exact ⟨i, by rw [hlen1, ← hlen]; exact hi, by rw [hocc]; exact hvac⟩

theorem find_buf_preserves (hasher : Key → Nat) (c u : Nat)
    (buf : List (unordered_set_node Key)) (hv : valid_buf hasher c u buf) (k : Key) :
    ∃ pos buf1, find_buf hasher k c buf = .ok (pos, buf1) ∧ buf1.length = c ∧
      (∀ x, (slot buf1 x).is_occupied = (slot buf x).is_occupied) ∧
      (stored_keys buf1).Perm (stored_keys buf) ∧ contiguous_run hasher c buf1 := by
  obtain ⟨hlen, hpow, hbytes, hu, hnd, hrun, hemp⟩ := hv
  have hdbl := double_of_bytes hbytes
  by_cases hs : stored buf k
  · obtain ⟨j, hj, hr⟩ := reached_of_stored hpow hasher buf hlen hrun k hs
    have hl : ∀ i, probe (hasher k % size_mod) c i < buf.length := by
      intro i; rw [hlen]; exact probe_lt hpow _ i
    cases j with
    | zero =>
      have h0 := probe_zero_ideal hasher k c
      have ho := hr.2.1
      have hk := hr.2.2
      rw [h0] at ho hk
      have hi : ideal_index hasher k c < buf.length := lt_of_occupied ho
      have hag := agree_set_same buf (ideal_index hasher k c)
        { slot buf (ideal_index hasher k c) with
          probe_count := ((slot buf (ideal_index hasher k c)).probe_count + 1) % size_mod }
        rfl rfl hi
      refine ⟨_, _, find_buf_at_zero hasher c buf k hi ho hk, ?_, fun x => (hag x).2, ?_, ?_⟩
      · rw [List.length_set]; exact hlen
      · rw [stored_keys_congr _ buf (by rw [List.length_set]) hag]
      · exact contiguous_congr hasher c _ buf hag hrun
    | succ j =>
      have he := find_buf_at_succ hpow hasher buf hlen k j hj hr
      have hob := hr.2.1
      have hkb := hr.2.2
      have hoa := (hr.1 j (by omega)).1
      have hab : probe (hasher k % size_mod) c j ≠ probe (hasher k % size_mod) c (j + 1) := by
        intro h
        have := probe_inj hpow (hasher k % size_mod) (by omega) hj h
        omega
      by_cases hgt : ((slot buf (probe (hasher k % size_mod) c (j + 1))).probe_count + 1)
          % size_mod > (slot buf (probe (hasher k % size_mod) c j)).probe_count
      · rw [if_pos hgt] at he
        refine ⟨_, _, he, ?_, ?_, ?_, ?_⟩
        · rw [List.length_set, List.length_set]; exact hlen
        · exact swap_occupancy buf _ _ hab _ hob hoa hob
        · exact swap_keys_perm buf _ _ hab _ hob rfl hoa hob
        · exact swap_contiguous hpow hasher buf hlen hrun hemp k j hj hr _ hob hkb
      · rw [if_neg hgt] at he
        have hag := agree_set_same buf (probe (hasher k % size_mod) c (j + 1))
          { slot buf (probe (hasher k % size_mod) c (j + 1)) with
            probe_count :=
              ((slot buf (probe (hasher k % size_mod) c (j + 1))).probe_count + 1) % size_mod }
          rfl rfl (hl _)
        refine ⟨_, _, he, ?_, fun x => (hag x).2, ?_, ?_⟩
        · rw [List.length_set]; exact hlen
        · rw [stored_keys_congr _ buf (by rw [List.length_set]) hag]
        · exact contiguous_congr hasher c _ buf hag hrun
  · exact ⟨c, buf, find_buf_miss hpow hasher buf hlen k hs, hlen, fun _ => rfl,
      List.Perm.refl _, hrun⟩

/-- C26: on a valid table, let the key `k` be stored in the slot at probe position `i + 1` of
its own probe sequence (index `b`), `a` being the index at position `i`.  Then the slot at `a`
is occupied and the non-const `find(k)` completes, leaving the capacity and the count as they
were; the probe count of `k` becomes `probe_count + 1` reduced to `size_t` (`probe_count + 1`
itself unless the counter is at its maximum).  When the new value is greater than the probe count
of the slot at `a`, the two slots exchange their contents (key, probe count and flag), no other
slot changes and the returned position is `a`; otherwise only the probe count at `b` changes and
the returned position is `b`. -/
theorem find_promotes_lazily (hasher : Key → Nat) (t : unordered_set Key) (k : Key) (i : Nat)
    (hv : valid hasher t) (hi : i + 1 < t.__capacity)
    (ho : (slot (buffer t)
      ((ideal_index hasher k t.__capacity + (i + 1)) % t.__capacity)).is_occupied = true)
    (hk : (slot (buffer t)
      ((ideal_index hasher k t.__capacity + (i + 1)) % t.__capacity)).key = k) :
    (slot (buffer t) ((ideal_index hasher k t.__capacity + i) % t.__capacity)).is_occupied
      = true ∧
    ∃ pos t1 m1, find hasher t k = .ok (pos, t1) ∧
      t1.__capacity = t.__capacity ∧ size t1 = size t ∧
      m1 = { slot (buffer t) ((ideal_index hasher k t.__capacity + (i + 1)) % t.__capacity) with
        probe_count := ((slot (buffer t) ((ideal_index hasher k t.__capacity + (i + 1))
          % t.__capacity)).probe_count + 1) % size_mod } ∧
      ((slot (buffer t) ((ideal_index hasher k t.__capacity + (i + 1))
          % t.__capacity)).probe_count + 1 < size_mod →
        m1.probe_count = (slot (buffer t) ((ideal_index hasher k t.__capacity + (i + 1))
          % t.__capacity)).probe_count + 1) ∧
      (m1.probe_count > (slot (buffer t)
          ((ideal_index hasher k t.__capacity + i) % t.__capacity)).probe_count →
        pos = (ideal_index hasher k t.__capacity + i) % t.__capacity ∧
        slot (buffer t1) ((ideal_index hasher k t.__capacity + i) % t.__capacity) = m1 ∧
        slot (buffer t1) ((ideal_index hasher k t.__capacity + (i + 1)) % t.__capacity)
          = slot (buffer t) ((ideal_index hasher k t.__capacity + i) % t.__capacity) ∧
        ∀ x, x ≠ (ideal_index hasher k t.__capacity + i) % t.__capacity →
          x ≠ (ideal_index hasher k t.__capacity + (i + 1)) % t.__capacity →
          slot (buffer t1) x = slot (buffer t) x) ∧
      (¬ m1.probe_count > (slot (buffer t)
          ((ideal_index hasher k t.__capacity + i) % t.__capacity)).probe_count →
        pos = (ideal_index hasher k t.__capacity + (i + 1)) % t.__capacity ∧
        slot (buffer t1) ((ideal_index hasher k t.__capacity + (i + 1)) % t.__capacity) = m1 ∧
        ∀ x, x ≠ (ideal_index hasher k t.__capacity + (i + 1)) % t.__capacity →
          slot (buffer t1) x = slot (buffer t) x) := by
  obtain ⟨c, u, d⟩ := t
  cases d with
  | none => exact absurd hv (by simp [valid])
  | some buf =>
    have hvb : valid_buf hasher c u buf := hv
    obtain ⟨hlen, hpow, hbytes, hu, hnd, hrun, hemp⟩ := hvb
    have hdbl := double_of_bytes hbytes
    have hb0 : buffer (⟨c, u, some buf⟩ : unordered_set Key) = buf := rfl
    simp only [hb0] at ho hk ⊢
    have hi : i + 1 < c := hi
    have hfind : ∀ pos b, find_buf hasher k c buf = .ok (pos, b) →
        find hasher ⟨c, u, some buf⟩ k = .ok (pos, ⟨c, u, some b⟩) := by
      intro pos b h
      unfold find
      simp only []
      rw [h]
    have hpe : ∀ e, probe (hasher k % size_mod) c e = (ideal_index hasher k c + e) % c :=
      fun e => probe_ideal hpow _ e
    have hr : reached (hasher k % size_mod) c buf k (i + 1) :=
      reached_at hpow hasher buf hrun hnd k (i + 1) hi (by rw [hpe]; exact ho)
        (by rw [hpe]; exact hk)
    have he := find_buf_at_succ hpow hasher buf hlen k i hi hr
    have hoa := (hr.1 i (by omega)).1
    simp only [hpe] at he hoa
    have hab : (ideal_index hasher k c + i) % c ≠ (ideal_index hasher k c + (i + 1)) % c := by
      intro h
      have := mod_add_inj hpow _ (by omega) hi h
      omega
    have hbl : (ideal_index hasher k c + (i + 1)) % c < buf.length := lt_of_occupied ho
    have hal : (ideal_index hasher k c + i) % c < buf.length := lt_of_occupied hoa
    refine ⟨hoa, ?_⟩
    by_cases hgt : ((slot buf ((ideal_index hasher k c + (i + 1)) % c)).probe_count + 1)
        % size_mod > (slot buf ((ideal_index hasher k c + i) % c)).probe_count
    · rw [if_pos hgt] at he
      refine ⟨_, _, _, hfind _ _ he, rfl, rfl, rfl,
        fun h => Nat.mod_eq_of_lt h, fun _ => ⟨rfl, ?_, ?_, ?_⟩, fun h => absurd hgt h⟩
      · exact slot_set_self (by rw [List.length_set]; exact hal) _
      · show slot ((buf.set _ _).set _ _) _ = _
        rw [slot_set_ne _ hab, slot_set_self hbl]
      · intro x hxa hxb
        show slot ((buf.set _ _).set _ _) _ = _
        rw [slot_set_ne _ (Ne.symm hxa), slot_set_ne _ (Ne.symm hxb)]
    · rw [if_neg hgt] at he
      refine ⟨_, _, _, hfind _ _ he, rfl, rfl, rfl,
        fun h => Nat.mod_eq_of_lt h, fun h => absurd h hgt, fun _ => ⟨rfl, ?_, ?_⟩⟩
      · exact slot_set_self hbl _
      · intro x hxb
        show slot (buf.set _ _) _ = _
        rw [slot_set_ne _ (Ne.symm hxb)]

/-- Witness for C26: in the table holding 1, 9, 17 at the slots 1, 2, 3, all with probe count 0,
the key 9 sits at probe position 1; `find(9)` raises its probe count to 1, exchanges the slots 1
and 2 and returns the position 1. -/
theorem find_promotes_lazily_witness :
    valid identity_hash chain_table ∧ (slot (buffer chain_table) 2).key = 9 ∧
    ∃ t1, find identity_hash chain_table 9 = .ok (1, t1) ∧
      slot (buffer t1) 1 = { key := 9, probe_count := 1, is_occupied := true } ∧
      slot (buffer t1) 2 = { key := 1, probe_count := 0, is_occupied := true } := by
  obtain ⟨_, pos, t1, m1, he, _, _, hm, _, hswap, _⟩ :=
    find_promotes_lazily identity_hash chain_table 9 0 (by decide) (by decide) rfl rfl
  subst hm
  obtain ⟨hpos, h1, h2, _⟩ := hswap (by decide)
  subst hpos
  exact ⟨by decide, rfl, t1, he, h1, h2⟩

/-- C27: on a valid table, for every key `k`, stored or not, the non-const `find(k)` completes
and leaves the capacity and the count as they were; the stored keys of the table it leaves are
the stored keys of the table before, the occupied indices are the same, and the table still has
the contiguous-run property and no duplicate keys: it is a valid table. -/
theorem find_preserves_invariants (hasher : Key → Nat) (t : unordered_set Key) (k : Key)
    (hv : valid hasher t) :
    ∃ pos t1, find hasher t k = .ok (pos, t1) ∧
      t1.__capacity = t.__capacity ∧ size t1 = size t ∧
      (stored_keys (buffer t1)).Perm (stored_keys (buffer t)) ∧
      (∀ x, stored (buffer t1) x ↔ stored (buffer t) x) ∧
      occupied_indices (buffer t1) = occupied_indices (buffer t) ∧
      contiguous_run hasher t1.__capacity (buffer t1) ∧ no_duplicates (buffer t1) ∧
      valid hasher t1 := by
  obtain ⟨c, u, d⟩ := t
  cases d with
  | none => exact absurd hv (by simp [valid])
  | some buf =>
    have hvb : valid_buf hasher c u buf := hv
    obtain ⟨pos, buf1, he, hlen1, hocc, hperm, hrun1⟩ := find_buf_preserves hasher c u buf hvb k
    have hv1 := valid_of_agree hasher c u buf buf1 hvb hlen1 hocc hperm hrun1
    refine ⟨pos, ⟨c, u, some buf1⟩, by unfold find; simp only []; rw [he], rfl, rfl, hperm,
      fun x => hperm.mem_iff, ?_, hrun1, hv1.2.2.2.2.1, hv1⟩
    exact occupied_indices_congr buf1 buf (by rw [hlen1, hvb.1]) hocc

/-- Witness for C27: `find(9)` on the table holding 1, 9, 17 at the slots 1, 2, 3 exchanges the
slots 1 and 2; the occupied indices are still 1, 2, 3. -/
theorem find_preserves_invariants_witness :
    valid identity_hash chain_table ∧
    ∃ pos t1, find identity_hash chain_table 9 = .ok (pos, t1) ∧
      occupied_indices (buffer t1) = [1, 2, 3] ∧ valid identity_hash t1 := by
  obtain ⟨pos, t1, he, _, _, _, _, hi, _, _, hv1⟩ :=
    find_preserves_invariants identity_hash chain_table 9 (by decide)
  exact ⟨by decide, pos, t1, he, hi.trans (by decide), hv1⟩

end find_preserves


/-! ## `__resize` as a sequence of first-fit insertions -/

section claims_resize

variable {Key : Type} [DecidableEq Key] [Inhabited Key]

theorem resize_loop_first_fit (hasher : Key → Nat) (old : List (unordered_set_node Key))
    (n : Nat) :
    ∀ (rem i : Nat) (buf : List (unordered_set_node Key)), i + rem = old.length →
      __resize_loop hasher old n rem i buf
        = first_fit_all hasher n (stored_keys (old.drop i)) buf := by
  intro rem
  induction rem with
  | zero =>
    intro i buf hi
    have : old.drop i = [] := List.drop_eq_nil_of_le (by omega)
    rw [this]
    rfl
  | succ rem ih =>
    intro i buf hi
    have hlt : i < old.length := by omega
    unfold __resize_loop
    rw [load_of_lt hlt, List.drop_eq_getElem_cons hlt, stored_keys_cons, slot_eq_getElem hlt]
    simp only []
    by_cases ho : old[i].is_occupied = true
    · rw [if_pos ho, if_pos ho]
      unfold first_fit_all
      cases hx : __insert hasher old[i].key buf n with
      | error e => rfl
      | ok r => exact ih (i + 1) r.2 (by omega)
    · rw [if_neg ho, if_neg ho]
      exact ih (i + 1) buf (by omega)

/-- C28, as stated, fails: the table holding 1, 9, 17 in capacity 8 is valid and `2 ^ 61` is a
power of two greater than its count, but the byte size `2 ^ 61 * sizeof(node)` of the fresh
buffer wraps around `size_t` to 0: the buffer holds no node and the first reinsertion indexes
outside it. -/
theorem reserve_wraps_byte_size :
    valid identity_hash chain_table ∧ power_of_two 2305843009213693952 ∧
    2305843009213693952 = 2 ^ 61 ∧ size chain_table < 2305843009213693952 ∧
    2305843009213693952 * node_size % size_mod = 0 ∧
    reserve identity_hash chain_table 2305843009213693952 = .error .out_of_bounds ∧
    __resize identity_hash chain_table 2305843009213693952 = .error .out_of_bounds :=
  ⟨by decide, ⟨61, by norm_num, by norm_num⟩, by norm_num, by decide, by decide, rfl, rfl⟩

/-- C28, amended. On a valid table with count `size()`, for every power of two `n` greater than
the count whose byte size `n * sizeof(node)` is a value of `size_t` (below `2 ^ 64`),
`__resize(n)`, and so `reserve(n)`, completes and yields a table of capacity `n` with the same
count and the same stored keys, without duplicates and with the contiguous-run property for the
capacity `n`; its buffer is the one obtained from `n` Empty slots by plain first-fit insertion
(`__insert`) of the stored keys in increasing order of their old slot index. -/
theorem resize_rehashes_first_fit (hasher : Key → Nat) (t : unordered_set Key) (n : Nat)
    (hv : valid hasher t) (hn : power_of_two n) (hgt : size t < n)
    (hfit : n * node_size < size_mod) :
    ∃ t1, __resize hasher t n = .ok t1 ∧ reserve hasher t n = .ok t1 ∧
      t1.__capacity = n ∧ size t1 = size t ∧ (buffer t1).length = n ∧
      (stored_keys (buffer t1)).Perm (stored_keys (buffer t)) ∧
      (∀ x, stored (buffer t1) x ↔ stored (buffer t) x) ∧
      size t1 = occupied_count (buffer t1) ∧
      no_duplicates (buffer t1) ∧ contiguous_run hasher n (buffer t1) ∧
      first_fit_all hasher n (stored_keys (buffer t)) (List.replicate n empty_node)
        = .ok (buffer t1) := by
  obtain ⟨c, u, d⟩ := t
  cases d with
  | none => exact absurd hv (by simp [valid])
  | some buf =>
    have hvb : valid_buf hasher c u buf := hv
    obtain ⟨hlen, hpow, hbytes, hu, hnd, hrun, hemp⟩ := hvb
    have hgt1 : u < n := hgt
    obtain ⟨buf1, he, hlen1, hrun1, hperm⟩ := resize_spec hn hasher buf hnd (by rw [← hu]; exact hgt1)
    have hres : __resize hasher ⟨c, u, some buf⟩ n = .ok ⟨n, u, some buf1⟩ := by
      unfold __resize
      simp only []
      rw [resize_nodes hfit, ← hlen, he]
    refine ⟨⟨n, u, some buf1⟩, hres, ?_, rfl, rfl, hlen1, hperm, fun x => hperm.mem_iff, ?_, ?_,
      hrun1, ?_⟩
    · unfold reserve
      rw [if_pos hgt1]
      exact hres
    · show u = occupied_count buf1
      rw [hu, occupied_count_eq_length, occupied_count_eq_length, hperm.length_eq]
    · unfold no_duplicates at hnd ⊢
      exact hperm.nodup_iff.mpr hnd
    · have h1 := resize_loop_first_fit hasher buf n buf.length 0 (List.replicate n empty_node)
        (by omega)
      rw [he, List.drop_zero] at h1
      exact h1.symm

/-- Witness for C28, amended: the table holding 1, 9, 17 in one chain of capacity 8 is resized
to 16; the keys 1 and 17 then share the ideal index 1, and 17, inserted after 1 and 9, lies in
slot 2. -/
theorem resize_rehashes_first_fit_witness :
    valid identity_hash chain_table ∧ power_of_two 16 ∧ size chain_table < 16 ∧
    16 * node_size < size_mod ∧
    ∃ t1, reserve identity_hash chain_table 16 = .ok t1 ∧ t1.__capacity = 16 ∧
      (slot (buffer t1) 1).key = 1 ∧ (slot (buffer t1) 9).key = 9 ∧
      (slot (buffer t1) 2).key = 17 ∧
      first_fit_all identity_hash 16 [1, 9, 17] (List.replicate 16 empty_node)
        = .ok (buffer t1) := by
  obtain ⟨t1, _, he, hc, _, _, _, _, _, _, _, hf⟩ :=
    resize_rehashes_first_fit identity_hash chain_table 16 (by decide) (by decide) (by decide)
      (by decide)
  have e0 : reserve identity_hash chain_table 16 = .ok ⟨16, 3,
      some [⟨0, 0, false⟩, ⟨1, 0, true⟩, ⟨17, 0, true⟩, ⟨0, 0, false⟩, ⟨0, 0, false⟩,
        ⟨0, 0, false⟩, ⟨0, 0, false⟩, ⟨0, 0, false⟩, ⟨0, 0, false⟩, ⟨9, 0, true⟩,
        ⟨0, 0, false⟩, ⟨0, 0, false⟩, ⟨0, 0, false⟩, ⟨0, 0, false⟩, ⟨0, 0, false⟩,
        ⟨0, 0, false⟩]⟩ := rfl
  have e1 := Except.ok.inj (he.symm.trans e0)
  subst e1
  exact ⟨by decide, by decide, by decide, by decide, _, he, rfl, rfl, rfl, rfl, hf⟩

end claims_resize


/-! ## The repair walk of `erase` for digests below twice the capacity -/

section erase_small

variable {Key : Type} [DecidableEq Key] [Inhabited Key]

theorem cyclic_distance_eq {c a h : Nat} (ha : a < c) (hh : h < c) :
    cyclic_distance a h c = if h ≤ a then a - h else a + c - h := by
  unfold cyclic_distance
  split
  · have h1 : a + c - h = (a - h) + c := by omega
    rw [h1, Nat.add_mod_right, Nat.mod_eq_of_lt (by omega)]
  · exact Nat.mod_eq_of_lt (by omega)

theorem mod_add_eq {c r x : Nat} (hr : r < c) (hx : x < c) :
    (r + x) % c = if r + x < c then r + x else r + x - c := by
  split
  · exact Nat.mod_eq_of_lt (by assumption)
  · rw [Nat.mod_eq_sub_mod (by omega), Nat.mod_eq_of_lt (by omega)]

theorem cyclic_distance_add {c h d : Nat} (hh : h < c) (hd : d < c) :
    cyclic_distance ((h + d) % c) h c = d := by
  have hlt : (h + d) % c < c := Nat.mod_lt _ (by omega)
  rw [cyclic_distance_eq hlt hh, mod_add_eq hh hd]
  split <;> split <;> omega

theorem cyclic_distance_inj {c a b h : Nat} (ha : a < c) (hb : b < c) (hh : h < c)
    (heq : cyclic_distance a h c = cyclic_distance b h c) : a = b := by
  rw [cyclic_distance_eq ha hh, cyclic_distance_eq hb hh] at heq
  split at heq <;> split at heq <;> omega

theorem probe_length_lt_iff {c : Nat} (hdbl : c * 2 < size_mod) (hv o s : Nat)
    (hhv : hv < 2 * c) (ho : o < c) (hs : s < c) :
    probe_length o hv c < probe_length s hv c ↔
      cyclic_distance o (hv % c) c < cyclic_distance s (hv % c) c := by
  have hm : hv % c = if hv < c then hv else hv - c := by
    split
    · exact Nat.mod_eq_of_lt (by assumption)
    · rw [Nat.mod_eq_sub_mod (by omega), Nat.mod_eq_of_lt (by omega)]
  have hi : hv % c < c := Nat.mod_lt _ (by omega)
  rw [cyclic_distance_eq ho hi, cyclic_distance_eq hs hi, hm]
  unfold probe_length
  unfold size_mod at hdbl ⊢
  split_ifs <;> omega

theorem region_later {c r h x x1 L : Nat} (hr : r < c) (hh : h < c) (hx : x < x1)
    (hx1 : x1 ≤ L) (hL : L < c)
    (hy : cyclic_distance ((r + x) % c) h c < cyclic_distance ((r + L) % c) h c) :
    cyclic_distance ((r + x) % c) h c < cyclic_distance ((r + x1) % c) h c := by
  have h1 : (r + x) % c < c := Nat.mod_lt _ (by omega)
  have h2 : (r + L) % c < c := Nat.mod_lt _ (by omega)
  have h3 : (r + x1) % c < c := Nat.mod_lt _ (by omega)
  rw [cyclic_distance_eq h1 hh, cyclic_distance_eq h2 hh] at hy
  rw [cyclic_distance_eq h1 hh, cyclic_distance_eq h3 hh]
  rw [mod_add_eq hr (by omega : x < c), mod_add_eq hr hL] at hy
  rw [mod_add_eq hr (by omega : x < c), mod_add_eq hr (by omega : x1 < c)]
  split_ifs at hy ⊢ <;> omega

theorem region_outside {c r h o x L : Nat} (hr : r < c) (hh : h < c) (ho : o < L)
    (hL : L < x) (hx : x < c)
    (hy : cyclic_distance ((r + x) % c) h c < cyclic_distance ((r + L) % c) h c) :
    cyclic_distance ((r + x) % c) h c < cyclic_distance ((r + o) % c) h c := by
  have h1 : (r + x) % c < c := Nat.mod_lt _ (by omega)
  have h2 : (r + L) % c < c := Nat.mod_lt _ (by omega)
  have h3 : (r + o) % c < c := Nat.mod_lt _ (by omega)
  rw [cyclic_distance_eq h1 hh, cyclic_distance_eq h2 hh] at hy
  rw [cyclic_distance_eq h1 hh, cyclic_distance_eq h3 hh]
  rw [mod_add_eq hr hx, mod_add_eq hr (by omega : L < c)] at hy
  rw [mod_add_eq hr hx, mod_add_eq hr (by omega : o < c)]
  split_ifs at hy ⊢ <;> omega

end erase_small


section erase_order

variable {Key : Type} [DecidableEq Key] [Inhabited Key]

theorem gap_free_of_contiguous {c : Nat} (hc : power_of_two c) (hasher : Key → Nat)
    (buf : List (unordered_set_node Key)) (hrun : contiguous_run hasher c buf) :
    gap_free hasher c buf := by
  intro y z hy hz hoy hvz
  have hh := ideal_index_lt hc hasher (slot buf y).key
  have hpos := power_of_two_pos hc
  by_contra hnot
  have hle : cyclic_distance z (ideal_index hasher (slot buf y).key c) c
      ≤ cyclic_distance y (ideal_index hasher (slot buf y).key c) c := by omega
  rcases Nat.lt_or_eq_of_le hle with hlt | heq
  · have h1 := hrun y hy hoy _ (cyclic_distance_lt hpos y _) (add_cyclic_distance hy hh) _ hlt
    rw [add_cyclic_distance hz hh, hvz] at h1
    cases h1
  · have := cyclic_distance_inj hz hy hh heq
    subst this
    rw [hoy] at hvz
    cases hvz

theorem contiguous_of_gap_free {c : Nat} (hc : power_of_two c) (hasher : Key → Nat)
    (buf : List (unordered_set_node Key)) (hg : gap_free hasher c buf) :
    contiguous_run hasher c buf := by
  intro i hi hocc d hd hD e he
  have hh := ideal_index_lt hc hasher (slot buf i).key
  have hpos := power_of_two_pos hc
  by_contra hv
  have hvz : (slot buf ((ideal_index hasher (slot buf i).key c + e) % c)).is_occupied = false := by
    cases hx : (slot buf ((ideal_index hasher (slot buf i).key c + e) % c)).is_occupied with
    | false => rfl
    | true => exact absurd hx hv
  have h1 := hg i _ hi (Nat.mod_lt _ hpos) hocc hvz
  rw [cyclic_distance_add hh (by omega : e < c)] at h1
  have h2 := cyclic_distance_add hh hd
  rw [hD] at h2
  omega

theorem erase_search_len_exact (open_slot c : Nat) (buf : List (unordered_set_node Key))
    (hlen : ∀ i, probe open_slot c i < buf.length) :
    ∀ (rem i L : Nat), i ≤ L → L < i + rem →
      (∀ d, i ≤ d → d < L → (slot buf (probe open_slot c d)).is_occupied = true) →
      (slot buf (probe open_slot c L)).is_occupied = false →
      erase_search_len open_slot c buf rem i = .ok L := by
  intro rem
  induction rem with
  | zero => intro i L h1 h2; omega
  | succ rem ih =>
    intro i L h1 h2 hocc hvac
    unfold erase_search_len
    simp only [probe_fold]
    rw [load_of_lt (hlen i)]
    simp only []
    by_cases hiL : i = L
    · subst hiL
      rw [if_pos hvac]
    · have ho := hocc i (le_refl i) (by omega)
      rw [if_neg (by rw [ho]; simp)]
      exact ih (i + 1) L (by omega) (by omega) (fun d hd1 hd2 => hocc d (by omega) hd2) hvac

end erase_order


section erase_repair

variable {Key : Type} [DecidableEq Key] [Inhabited Key]

theorem erase_walk_repairs {c : Nat} (hc : power_of_two c) (hdbl : c * 2 < size_mod)
    (hasher : Key → Nat) (buf : List (unordered_set_node Key)) (r L : Nat)
    (hr : r < c) (hL : L < c)
    (hin : ∀ x, x < L → (slot buf ((r + x) % c)).is_occupied = true)
    (hend : (slot buf ((r + L) % c)).is_occupied = false) :
    ∀ (rem i o : Nat) (data : List (unordered_set_node Key)), i + rem = L → o < i →
      data.length = c →
      (∀ z, z < c → ((slot data z).is_occupied = false ↔
        (z = (r + o) % c ∨ (slot buf z).is_occupied = false))) →
      (∀ y z, y < c → z < c → (slot data y).is_occupied = true →
        (slot buf z).is_occupied = false →
        cyclic_distance y (ideal_index hasher (slot data y).key c) c
          < cyclic_distance z (ideal_index hasher (slot data y).key c) c) →
      (∀ x, o < x → x < i →
        cyclic_distance ((r + x) % c) (ideal_index hasher (slot data ((r + x) % c)).key c) c
          < cyclic_distance ((r + o) % c)
              (ideal_index hasher (slot data ((r + x) % c)).key c) c) →
      (∀ y, y < c → (slot data y).is_occupied = true →
        hasher (slot data y).key % size_mod < 2 * c) →
      ∃ open1 data1, erase_walk hasher r c rem i ((r + o) % c) data = .ok (open1, data1) ∧
        data1.length = c ∧ open1 < c ∧ (slot data1 open1).is_occupied = false ∧
        gap_free hasher c data1 ∧ (stored_keys data1).Perm (stored_keys data) := by
  have hpos := power_of_two_pos hc
  intro rem
  induction rem with
  | zero =>
    intro i o data hi ho hlen I1 I2 I3 I4
    have hiL : i = L := by omega
    subst hiL
    have hpo : (r + o) % c < c := Nat.mod_lt _ hpos
    refine ⟨_, data, rfl, hlen, hpo, (I1 _ hpo).mpr (Or.inl rfl), ?_, List.Perm.refl _⟩
    intro y z hy hz hoy hvz
    rcases (I1 z hz).mp hvz with hzo | hzb
    · subst hzo
      have hh := ideal_index_lt hc hasher (slot data y).key
      have hxy := add_cyclic_distance hy hr
      have hxc := cyclic_distance_lt hpos y r
      generalize cyclic_distance y r c = xy at hxy hxc
      subst hxy
      have hlast := I2 _ _ hy (Nat.mod_lt _ hpos) hoy hend
      rcases Nat.lt_trichotomy xy o with h1 | h1 | h1
      · exact region_later hr hh h1 (by omega) hL hlast
      · subst h1
        rw [(I1 _ hpo).mpr (Or.inl rfl)] at hoy
        cases hoy
      · rcases Nat.lt_trichotomy xy i with h2 | h2 | h2
        · exact I3 xy h1 h2
        · subst h2
          rw [(I1 _ hy).mpr (Or.inr hend)] at hoy
          cases hoy
        · exact region_outside hr hh ho h2 hxc hlast
    · exact I2 y z hy hz hoy hzb
  | succ rem ih =>
    intro i o data hi ho hlen I1 I2 I3 I4
    have hiL : i < L := by omega
    have hs : (r + i) % c < c := Nat.mod_lt _ hpos
    have hpo : (r + o) % c < c := Nat.mod_lt _ hpos
    have hsl : (r + i) % c < data.length := by rw [hlen]; exact hs
    have hol : (r + o) % c < data.length := by rw [hlen]; exact hpo
    have hso : (r + i) % c ≠ (r + o) % c := by
      intro h
      have := mod_add_inj hc r (by omega) (by omega) h
      omega
    have hvo : (slot data ((r + o) % c)).is_occupied = false := (I1 _ hpo).mpr (Or.inl rfl)
    have hos : (slot data ((r + i) % c)).is_occupied = true := by
      cases hx : (slot data ((r + i) % c)).is_occupied with
      | true => rfl
      | false =>
        rcases (I1 _ hs).mp hx with h | h
        · exact absurd h hso
        · rw [hin i hiL] at h
          cases h
    have hq := I4 _ hs hos
    have hideal : ideal_index hasher (slot data ((r + i) % c)).key c
        = hasher (slot data ((r + i) % c)).key % size_mod % c := by
      unfold ideal_index
      exact fast_mod2_mod hc _
    have hpl := probe_length_lt_iff hdbl (hasher (slot data ((r + i) % c)).key % size_mod)
      ((r + o) % c) ((r + i) % c) hq hpo hs
    rw [← hideal] at hpl
    have hp : probe r c i = (r + i) % c := probe_mod hc r i
    unfold erase_walk
    simp only [probe_fold, hp]
    rw [load_of_lt hsl]
    simp only []
    by_cases hcond : probe_length ((r + o) % c)
        (hasher (slot data ((r + i) % c)).key % size_mod) c
        < probe_length ((r + i) % c) (hasher (slot data ((r + i) % c)).key % size_mod) c
    · rw [if_pos hcond, store_of_lt hol]
      simp only []
      rw [store_of_lt (by rw [List.length_set]; exact hsl)]
      simp only []
      have hcd := hpl.mp hcond
      have hslot : ∀ z, slot ((data.set ((r + o) % c) (slot data ((r + i) % c))).set
          ((r + i) % c) empty_node) z
          = if z = (r + i) % c then empty_node
            else if z = (r + o) % c then slot data ((r + i) % c) else slot data z := by
        intro z
        by_cases h1 : z = (r + i) % c
        · rw [if_pos h1, h1, slot_set_self (by rw [List.length_set]; exact hsl)]
        · rw [if_neg h1, slot_set_ne _ (Ne.symm h1)]
          by_cases h2 : z = (r + o) % c
          · rw [if_pos h2, h2, slot_set_self hol]
          · rw [if_neg h2, slot_set_ne _ (Ne.symm h2)]
      obtain ⟨open1, data1, he, hlen1, ho1, hv1, hg1, hperm1⟩ :=
        ih (i + 1) i ((data.set ((r + o) % c) (slot data ((r + i) % c))).set
          ((r + i) % c) empty_node) (by omega) (by omega)
          (by rw [List.length_set, List.length_set]; exact hlen)
          (by
            intro z hz
            rw [hslot]
            by_cases h1 : z = (r + i) % c
            · rw [if_pos h1]
              exact ⟨fun _ => Or.inl h1, fun _ => rfl⟩
            · rw [if_neg h1]
              by_cases h2 : z = (r + o) % c
              · rw [if_pos h2, hos, h2, hin o (by omega)]
                constructor
                · intro h; cases h
                · rintro (h | h)
                  · exact absurd h.symm hso
                  · cases h
              · rw [if_neg h2, I1 z hz]
                constructor
                · rintro (h | h)
                  · exact absurd h h2
                  · exact Or.inr h
                · rintro (h | h)
                  · exact absurd h h1
                  · exact Or.inr h)
          (by
            intro y z hy hz hoy hvz
            rw [hslot] at hoy ⊢
            by_cases h1 : y = (r + i) % c
            · rw [if_pos h1] at hoy
              cases hoy
            · rw [if_neg h1] at hoy ⊢
              by_cases h2 : y = (r + o) % c
              · rw [if_pos h2] at hoy ⊢
                rw [h2]
                exact lt_trans hcd (I2 _ z hs hz hos hvz)
              · rw [if_neg h2] at hoy ⊢
                exact I2 y z hy hz hoy hvz)
          (by intro x hx1 hx2; omega)
          (by
            intro y hy hoy
            rw [hslot] at hoy ⊢
            by_cases h1 : y = (r + i) % c
            · rw [if_pos h1] at hoy
              cases hoy
            · rw [if_neg h1] at hoy ⊢
              by_cases h2 : y = (r + o) % c
              · rw [if_pos h2] at hoy ⊢
                exact hq
              · rw [if_neg h2] at hoy ⊢
                exact I4 y hy hoy)
      refine ⟨open1, data1, he, hlen1, ho1, hv1, hg1, hperm1.trans ?_⟩
      have p1 := stored_keys_set_perm (slot data ((r + i) % c)) hos data ((r + o) % c) hol hvo
      have hos2 : (slot (data.set ((r + o) % c) (slot data ((r + i) % c)))
          ((r + i) % c)).is_occupied = true := by
        rw [slot_set_ne _ (Ne.symm hso)]; exact hos
      have p2 := stored_keys_clear_perm (data.set ((r + o) % c) (slot data ((r + i) % c)))
        ((r + i) % c) hos2
      rw [slot_set_ne _ (Ne.symm hso)] at p2
      exact (List.Perm.cons_inv (p2.symm.trans p1))
    · rw [if_neg hcond]
      have hncd : ¬ cyclic_distance ((r + o) % c)
          (ideal_index hasher (slot data ((r + i) % c)).key c) c
          < cyclic_distance ((r + i) % c)
              (ideal_index hasher (slot data ((r + i) % c)).key c) c :=
        fun h => hcond (hpl.mpr h)
      have hne : cyclic_distance ((r + i) % c)
          (ideal_index hasher (slot data ((r + i) % c)).key c) c
          ≠ cyclic_distance ((r + o) % c)
              (ideal_index hasher (slot data ((r + i) % c)).key c) c := by
        intro h
        exact hso (cyclic_distance_inj hs hpo (ideal_index_lt hc hasher _) h)
      exact ih (i + 1) o data (by omega) (by omega) hlen I1 I2
        (by
          intro x hx1 hx2
          by_cases hxi : x = i
          · subst hxi
            omega
          · exact I3 x hx1 (by omega))
        I4

end erase_repair


section claims_erase_small

variable {Key : Type} [DecidableEq Key] [Inhabited Key]

theorem erase_buf_small (hasher : Key → Nat) (c u : Nat)
    (buf : List (unordered_set_node Key)) (hv : valid_buf hasher c u buf)
    (hsmall : ∀ x, stored buf x → hasher x % size_mod < 2 * c) (k : Key)
    (hs : stored buf k) :
    ∃ open1 buf1, erase_buf hasher k c buf = .ok (1, open1, buf1) ∧ buf1.length = c ∧
      open1 < c ∧ (slot buf1 open1).is_occupied = false ∧
      contiguous_run hasher c buf1 ∧ (stored_keys buf).Perm (k :: stored_keys buf1) := by
  obtain ⟨hlen, hpow, hbytes, hu, hnd, hrun, hemp⟩ := hv
  have hdbl := double_of_bytes hbytes
  have hpos := power_of_two_pos hpow
  obtain ⟨j, hj, hr⟩ := reached_of_stored hpow hasher buf hlen hrun k hs
  have hl : ∀ h i, probe h c i < buf.length := by
    intro h i; rw [hlen]; exact probe_lt hpow _ i
  have hsearch := erase_search_of_reached k (hasher k % size_mod) c buf (hl _) c 0 j
    (Nat.zero_le j) (by omega) (fun d _ hd => (hr.1 d hd).2) hr.2.2
  have hrc : probe (hasher k % size_mod) c j < c := probe_lt hpow _ j
  have hro := hr.2.1
  have hrk := hr.2.2
  generalize probe (hasher k % size_mod) c j = r at hsearch hrc hro hrk
  have hr0 : (r + 0) % c = r := by rw [Nat.add_zero, Nat.mod_eq_of_lt hrc]
  -- the first Empty slot after r
  have hex : ∃ x, 1 ≤ x ∧ (slot buf ((r + x) % c)).is_occupied = false := by
    obtain ⟨y, hy, hvy⟩ := hemp
    rw [hlen] at hy
    refine ⟨cyclic_distance y r c, ?_, ?_⟩
    · rcases Nat.eq_zero_or_pos (cyclic_distance y r c) with h | h
      · have h1 := add_cyclic_distance hy hrc
        rw [h, hr0] at h1
        rw [← h1, hro] at hvy
        cases hvy
      · exact h
    · rw [add_cyclic_distance hy hrc]; exact hvy
  classical
  have hL1 := (Nat.find_spec hex).1
  have hend := (Nat.find_spec hex).2
  have hmin : ∀ x, x < Nat.find hex → 1 ≤ x → (slot buf ((r + x) % c)).is_occupied = true := by
    intro x hx h1
    have := Nat.find_min hex hx
    cases hxo : (slot buf ((r + x) % c)).is_occupied with
    | true => rfl
    | false => exact absurd ⟨h1, hxo⟩ this
  have hLc : Nat.find hex < c := by
    by_contra hge
    obtain ⟨y, hy, hvy⟩ := hemp
    rw [hlen] at hy
    have hd := cyclic_distance_lt hpos y r
    have hd1 : 1 ≤ cyclic_distance y r c := by
      rcases Nat.eq_zero_or_pos (cyclic_distance y r c) with h | h
      · have h1 := add_cyclic_distance hy hrc
        rw [h, hr0] at h1
        rw [← h1, hro] at hvy
        cases hvy
      · exact h
    have := hmin (cyclic_distance y r c) (by omega) hd1
    rw [add_cyclic_distance hy hrc, hvy] at this
    cases this
  generalize Nat.find hex = L at hL1 hend hmin hLc
  have hin : ∀ x, x < L → (slot buf ((r + x) % c)).is_occupied = true := by
    intro x hx
    rcases Nat.eq_zero_or_pos x with h | h
    · rw [h, hr0]; exact hro
    · exact hmin x hx h
  have hrl : r < buf.length := by rw [hlen]; exact hrc
  have hlen0 : (buf.set r (empty_node : unordered_set_node Key)).length = c := by
    rw [List.length_set]; exact hlen
  have hne : ∀ x, 1 ≤ x → x < c → r ≠ (r + x) % c := by
    intro x h1 h2 h
    have h3 : (r + 0) % c = (r + x) % c := by rw [hr0]; exact h
    have := mod_add_inj hpow r hpos h2 h3
    omega
  have hslot : ∀ z, z ≠ r → slot (buf.set r (empty_node : unordered_set_node Key)) z
      = slot buf z := fun z hz => slot_set_ne _ (Ne.symm hz) _
  have hslot_r : slot (buf.set r (empty_node : unordered_set_node Key)) r = empty_node :=
    slot_set_self hrl _
  have hlen_eq := erase_search_len_exact r c (buf.set r empty_node)
    (by intro i; rw [hlen0]; exact probe_lt hpow _ i) (c - 1) 1 L hL1 (by omega)
    (by
      intro d hd1 hd2
      rw [probe_mod hpow, hslot _ (Ne.symm (hne d hd1 (by omega)))]
      exact hin d hd2)
    (by
      rw [probe_mod hpow, hslot _ (Ne.symm (hne L hL1 hLc))]
      exact hend)
  have hg := gap_free_of_contiguous hpow hasher buf hrun
  obtain ⟨open1, buf1, hw, hlen1, ho1, hv1, hg1, hperm1⟩ :=
    erase_walk_repairs hpow hdbl hasher buf r L hrc hLc hin hend (L - 1) 1 0
      (buf.set r empty_node) (by omega) (by omega) hlen0
      (by
        intro z hz
        rw [hr0]
        by_cases hzr : z = r
        · rw [hzr, hslot_r]
          exact ⟨fun _ => Or.inl rfl, fun _ => rfl⟩
        · rw [hslot z hzr]
          constructor
          · exact fun h => Or.inr h
          · rintro (h | h)
            · exact absurd h hzr
            · exact h)
      (by
        intro y z hy hz hoy hvz
        by_cases hyr : y = r
        · rw [hyr, hslot_r] at hoy
          cases hoy
        · rw [hslot y hyr] at hoy ⊢
          exact hg y z hy hz hoy hvz)
      (by intro x hx1 hx2; omega)
      (by
        intro y hy hoy
        by_cases hyr : y = r
        · rw [hyr, hslot_r] at hoy
          cases hoy
        · rw [hslot y hyr] at hoy ⊢
          exact hsmall _ ((stored_iff buf _).mpr ⟨y, by rw [hlen]; exact hy, hoy, rfl⟩))
  rw [hr0] at hw
  have hperm := stored_keys_clear_perm buf r hro
  rw [hrk] at hperm
  refine ⟨open1, buf1, ?_, hlen1, ho1, hv1, contiguous_of_gap_free hpow hasher buf1 hg1,
    hperm.trans (List.Perm.cons k hperm1.symm)⟩
  unfold erase_buf
  rw [hsearch]
  simp only []
  rw [if_pos (by omega), store_of_lt hrl]
  simp only []
  rw [hlen_eq]
  simp only []
  rw [hw]

/-- C30: on a valid table in which every stored key has a digest below twice the capacity, for
every stored key `k`, `erase(k)` completes and returns 1; the table it leaves has the same
capacity, the contiguous-run property and no duplicate keys, its count, one less than before, is
the number of its occupied slots, its stored keys are the stored keys of the table before
without `k`, it is a valid table, and for every other key stored before, `find` returns a
position below the capacity (not the end sentinel) whose slot holds the key. -/
theorem erase_correct_for_small_digests (hasher : Key → Nat) (t : unordered_set Key) (k : Key)
    (hv : valid hasher t)
    (hsmall : ∀ x, stored (buffer t) x → hasher x % size_mod < 2 * t.__capacity)
    (hs : stored (buffer t) k) :
    ∃ t1, erase hasher t k = .ok (1, t1) ∧ t1.__capacity = t.__capacity ∧
      size t1 + 1 = size t ∧
      contiguous_run hasher t1.__capacity (buffer t1) ∧ no_duplicates (buffer t1) ∧
      size t1 = occupied_count (buffer t1) ∧
      (stored_keys (buffer t)).Perm (k :: stored_keys (buffer t1)) ∧
      ¬ stored (buffer t1) k ∧ valid hasher t1 ∧
      ∀ x, stored (buffer t) x → x ≠ k →
        ∃ pos t2, find hasher t1 x = .ok (pos, t2) ∧ pos < t1.__capacity ∧ pos ≠ «end» t1 ∧
          (slot (buffer t2) pos).is_occupied = true ∧ (slot (buffer t2) pos).key = x := by
  obtain ⟨c, u, d⟩ := t
  cases d with
  | none => exact absurd hv (by simp [valid])
  | some buf =>
    have hvb : valid_buf hasher c u buf := hv
    have hs1 : stored buf k := hs
    obtain ⟨open1, buf1, he, hlen1, ho1, hv1, hrun1, hperm⟩ :=
      erase_buf_small hasher c u buf hvb hsmall k hs1
    obtain ⟨hlen, hpow, hbytes, hu, hnd, hrun, hemp⟩ := hvb
    have hdbl := double_of_bytes hbytes
    have hupos : 0 < u := by
      rw [hu, occupied_count_eq_length]
      exact List.length_pos_of_mem hs1
    have hult : u < size_mod := by
      have h1 := count_lt_of_has_empty buf hemp
      omega
    have husub : (u + size_mod - 1) % size_mod = u - 1 := by
      have h4 : u + size_mod - 1 = (u - 1) + size_mod := by omega
      rw [h4, Nat.add_mod_right, Nat.mod_eq_of_lt (by omega)]
    have hnd1 : (k :: stored_keys buf1).Nodup := hperm.nodup_iff.mp hnd
    have hcount : u - 1 = occupied_count buf1 := by
      have h1 := hperm.length_eq
      rw [List.length_cons, ← occupied_count_eq_length, ← occupied_count_eq_length, ← hu] at h1
      omega
    have hval : valid_buf hasher c (u - 1) buf1 :=
      ⟨hlen1, hpow, hbytes, hcount, (List.nodup_cons.mp hnd1).2, hrun1,
        ⟨open1, by rw [hlen1]; exact ho1, hv1⟩⟩
    refine ⟨{ __capacity := c, __usage := u - 1, __data := some buf1 }, ?_, rfl, ?_, hrun1,
      (List.nodup_cons.mp hnd1).2, hcount, hperm, (List.nodup_cons.mp hnd1).1, hval, ?_⟩
    · unfold erase
      simp only []
      rw [he]
      simp [husub]
    · show u - 1 + 1 = u
      omega
    · intro x hx hxk
      have hx1 : stored buf1 x := by
        have h1 : x ∈ k :: stored_keys buf1 := hperm.mem_iff.mp hx
        rcases List.mem_cons.mp h1 with h | h
        · exact absurd h hxk
        · exact h
      obtain ⟨j, hj, hr⟩ := reached_of_stored hpow hasher buf1 hlen1 hrun1 x hx1
      obtain ⟨pos, buf2, hf, hpos, _, hocc, hkey⟩ := find_buf_hit hpow hasher buf1 hlen1 x j hj hr
      refine ⟨pos, { __capacity := c, __usage := u - 1, __data := some buf2 }, ?_, hpos, ?_,
        hocc, hkey⟩
      · unfold find
        simp only []
        rw [hf]
      · show pos ≠ c
        omega

/-- Witness for C30: in the table holding 1, 9, 2 at the slots 1, 2, 3 (digests below 16),
`erase(1)` moves 9 to slot 1 and 2 to slot 2, and `find` still returns a position for both. -/
theorem erase_correct_for_small_digests_witness :
    valid identity_hash small_digest_table ∧
    (∀ x, stored (buffer small_digest_table) x →
      identity_hash x % size_mod < 2 * small_digest_table.__capacity) ∧
    stored (buffer small_digest_table) 1 ∧
    ∃ t1, erase identity_hash small_digest_table 1 = .ok (1, t1) ∧
      (slot (buffer t1) 1).key = 9 ∧ (slot (buffer t1) 2).key = 2 ∧
      (slot (buffer t1) 3).is_occupied = false ∧
      contiguous_run identity_hash t1.__capacity (buffer t1) ∧
      (∃ pos t2, find identity_hash t1 9 = .ok (pos, t2) ∧ pos ≠ «end» t1) ∧
      (∃ pos t2, find identity_hash t1 2 = .ok (pos, t2) ∧ pos ≠ «end» t1) := by
  have hsm : ∀ x, stored (buffer small_digest_table) x →
      identity_hash x % size_mod < 2 * small_digest_table.__capacity := by
    intro x hx
    have h1 : x ∈ [1, 9, 2] := hx
    simp only [List.mem_cons, List.mem_singleton, List.not_mem_nil, or_false] at h1
    rcases h1 with h | h | h <;> subst h <;> decide
  obtain ⟨t1, he, _, _, hrun, _, _, _, _, _, hfind⟩ :=
    erase_correct_for_small_digests identity_hash small_digest_table 1 (by decide) hsm
      (by decide)
  have e0 : erase identity_hash small_digest_table 1 = .ok (1, ⟨8, 2,
      some [⟨0, 0, false⟩, ⟨9, 0, true⟩, ⟨2, 0, true⟩, ⟨0, 0, false⟩,
        ⟨0, 0, false⟩, ⟨0, 0, false⟩, ⟨0, 0, false⟩, ⟨0, 0, false⟩]⟩) := rfl
  have e1 := (Prod.mk.inj (Except.ok.inj (he.symm.trans e0))).2
  subst e1
  obtain ⟨p9, t9, h9, _, hn9, _⟩ := hfind 9 (by decide) (by decide)
  obtain ⟨p2, t2, h2, _, hn2, _⟩ := hfind 2 (by decide) (by decide)
  exact ⟨by decide, hsm, by decide, _, he, rfl, rfl, rfl, hrun, ⟨p9, t9, h9, hn9⟩,
    ⟨p2, t2, h2, hn2⟩⟩

end claims_erase_small


/-! ## The probe-length test of `erase`, the const `find` and the probe sequence -/

section claims_probe_arithmetic

variable {Key : Type} [DecidableEq Key] [Inhabited Key]

theorem probe_length_small {c : Nat} (hcm : c < size_mod) (hv o s : Nat)
    (hhv : hv < 2 * c) (hvm : hv < size_mod) (ho : o < c) (hs : s < c) :
    probe_length o hv c < probe_length s hv c ↔
      cyclic_distance o (hv % c) c < cyclic_distance s (hv % c) c := by
  have hm : hv % c = if hv < c then hv else hv - c := by
    split
    · exact Nat.mod_eq_of_lt (by assumption)
    · rw [Nat.mod_eq_sub_mod (by omega), Nat.mod_eq_of_lt (by omega)]
  have hi : hv % c < c := Nat.mod_lt _ (by omega)
  rw [cyclic_distance_eq ho hi, cyclic_distance_eq hs hi, hm]
  unfold probe_length
  unfold size_mod at hcm hvm ⊢
  split_ifs <;> omega

theorem probe_length_large {c : Nat} (hv o s : Nat)
    (hhv : 2 * c ≤ hv) (hvm : hv < size_mod) (ho : o < c) (hs : s < c) :
    probe_length o hv c < probe_length s hv c ↔ o < s := by
  unfold probe_length
  unfold size_mod at hvm ⊢
  split_ifs <;> omega

/-- C31: in the repair walk of `erase`, for a capacity that is a power of two and slot indices
`open_slot` and `search_idx` below the capacity, the test `new_probe_length < cur_probe_length`,
computed from the raw digest in `size_t` arithmetic, is equivalent to `open_slot < search_idx`
when the digest of the key is at least twice the capacity, whatever the ideal index of the key;
when the digest is below twice the capacity it is equivalent to the comparison of the cyclic
distances of the two slots from the ideal index of the key. -/
theorem probe_length_test_reads_raw_digest (hasher : Key → Nat) (k : Key)
    (c open_slot search_idx : Nat) (hc : power_of_two c) (ho : open_slot < c)
    (hs : search_idx < c) :
    (2 * c ≤ hasher k % size_mod →
      (probe_length open_slot (hasher k % size_mod) c
          < probe_length search_idx (hasher k % size_mod) c ↔ open_slot < search_idx)) ∧
    (hasher k % size_mod < 2 * c →
      (probe_length open_slot (hasher k % size_mod) c
          < probe_length search_idx (hasher k % size_mod) c ↔
        cyclic_distance open_slot (ideal_index hasher k c) c
          < cyclic_distance search_idx (ideal_index hasher k c) c)) := by
  have hvm : hasher k % size_mod < size_mod := Nat.mod_lt _ (by unfold size_mod; omega)
  have hcm : c < size_mod := by
    obtain ⟨j, hj, rfl⟩ := hc
    rw [size_mod_eq]
    exact Nat.pow_lt_pow_right (by norm_num) hj
  have hideal : ideal_index hasher k c = hasher k % size_mod % c := by
    unfold ideal_index
    exact fast_mod2_mod hc _
  constructor
  · intro h
    exact probe_length_large _ _ _ h hvm ho hs
  · intro h
    rw [hideal]
    exact probe_length_small hcm _ _ _ h hvm ho hs

/-- Witness for C31: capacity 8; the key 18 (digest 18, ideal index 2) passes the test for the
open slot 1 and its own slot 2, and the key 10 (digest 10, the same ideal index) does not. -/
theorem probe_length_test_reads_raw_digest_witness :
    power_of_two 8 ∧ ideal_index identity_hash 18 8 = 2 ∧ ideal_index identity_hash 10 8 = 2 ∧
    (probe_length 1 (identity_hash 18 % size_mod) 8
      < probe_length 2 (identity_hash 18 % size_mod) 8) ∧
    ¬ (probe_length 1 (identity_hash 10 % size_mod) 8
      < probe_length 2 (identity_hash 10 % size_mod) 8) := by
  have h18 := probe_length_test_reads_raw_digest identity_hash 18 8 1 2 (by decide) (by decide)
    (by decide)
  have h10 := probe_length_test_reads_raw_digest identity_hash 10 8 1 2 (by decide) (by decide)
    (by decide)
  refine ⟨by decide, rfl, rfl, (h18.1 (by decide)).mpr (by decide), ?_⟩
  intro h
  have := (h10.2 (by decide)).mp h
  revert this
  decide

/-- C32, at the failing input: after `insert(1)`, `insert(9)` and `find(1)` on a freshly
constructed set the table is valid and holds 9 at probe position 1 behind the key 1, whose probe
count is 1.  The non-const `find(9)` raises the probe count of 9 to 1, does not swap and returns
the position 2; the const overload leaves the slots in the same state but, having no `return`
after the increment without a swap, runs on to the Empty slot and returns the end sentinel. -/
theorem const_find_misses_unpromoted_key :
    ∃ t t1, run identity_hash (construct 8 : unordered_set Nat)
        [.insert 1, .insert 9, .find 1] = .ok t ∧
      valid identity_hash t ∧ stored (buffer t) 9 ∧
      find identity_hash t 9 = .ok (2, t1) ∧
      find_const identity_hash t 9 = .ok («end» t, t1) ∧ «end» t = 8 ∧
      (slot (buffer t1) 2).key = 9 ∧ (slot (buffer t1) 2).is_occupied = true :=
  ⟨_, _, rfl, by decide, by decide, rfl, rfl, rfl, rfl, rfl⟩

/-- C34: for every capacity `c` that is a power of two (below `2 ^ 64`) and every digest `d`, the
index probed at offset `i`, computed as `((d + i) mod 2 ^ 64) & (c - 1)`, is
`((d mod c) + i) mod c`, also when `d + i` wraps around `size_t`; the sequence starts at the ideal
index `d mod c`, stays below `c`, and over the offsets `0, ..., c - 1` it visits every index
below `c` exactly once. -/
theorem probe_sequence_is_full_walk (c d : Nat) (hc : power_of_two c) :
    (∀ i, probe d c i = (d % c + i) % c) ∧
    (∀ i, fast_mod2 ((d + i) % size_mod) c = (d % c + i) % c) ∧
    probe d c 0 = d % c ∧ (∀ i, probe d c i < c) ∧
    (∀ i j, i < c → j < c → probe d c i = probe d c j → i = j) ∧
    (∀ x, x < c → ∃ i, i < c ∧ probe d c i = x) ∧
    ((List.range c).map (probe d c)).Nodup ∧
    (∀ x, x ∈ (List.range c).map (probe d c) ↔ x < c) := by
  have h1 : ∀ i, probe d c i = (d % c + i) % c := by
    intro i
    rw [probe_mod hc, Nat.mod_add_mod]
  refine ⟨h1, h1, ?_, fun i => probe_lt hc d i, fun i j hi hj h => probe_inj hc d hi hj h,
    fun x hx => probe_surj hc d hx, ?_, ?_⟩
  · rw [h1, Nat.add_zero, Nat.mod_mod]
  · apply List.Nodup.map_on
    · intro i hi j hj h
      exact probe_inj hc d (List.mem_range.mp hi) (List.mem_range.mp hj) h
    · exact List.nodup_range c
  · intro x
    rw [List.mem_map]
    constructor
    · rintro ⟨i, _, rfl⟩
      exact probe_lt hc d i
    · intro hx
      obtain ⟨i, hi, hp⟩ := probe_surj hc d hx
      exact ⟨i, List.mem_range.mpr hi, hp⟩

/-- Witness for C34: capacity 8 and the digest `2 ^ 64 - 3`, for which `d + i` wraps from the
offset 3 on; the probe sequence is 5, 6, 7, 0, 1, 2, 3, 4. -/
theorem probe_sequence_is_full_walk_witness :
    power_of_two 8 ∧
    (List.range 8).map (probe 18446744073709551613 8) = [5, 6, 7, 0, 1, 2, 3, 4] ∧
    ((List.range 8).map (probe 18446744073709551613 8)).Nodup ∧
    probe 18446744073709551613 8 0 = 18446744073709551613 % 8 :=
  ⟨by decide, by decide,
    (probe_sequence_is_full_walk 8 18446744073709551613 (by decide)).2.2.2.2.2.2.1,
    (probe_sequence_is_full_walk 8 18446744073709551613 (by decide)).2.2.1⟩

end claims_probe_arithmetic


/-! ## Promotion is monotone and local -/

section claims_promotion

variable {Key : Type} [DecidableEq Key] [Inhabited Key]

theorem run_shorter_than_ring {c : Nat} (hc : power_of_two c) (hasher : Key → Nat)
    (buf : List (unordered_set_node Key)) (hlen : buf.length = c)
    (hrun : contiguous_run hasher c buf) (hemp : has_empty_slot buf) (a : Nat) (ha : a < c)
    (hoa : (slot buf a).is_occupied = true) :
    cyclic_distance a (ideal_index hasher (slot buf a).key c) c + 1 < c := by
  obtain ⟨z, hz, hvz⟩ := hemp
  rw [hlen] at hz
  have h1 := gap_free_of_contiguous hc hasher buf hrun a z ha hz hoa hvz
  have h2 := cyclic_distance_lt (power_of_two_pos hc) z (ideal_index hasher (slot buf a).key c)
  omega

theorem cyclic_distance_next {c a h : Nat} (ha : a < c) (hh : h < c)
    (hd : cyclic_distance a h c + 1 < c) :
    cyclic_distance ((a + 1) % c) h c = cyclic_distance a h c + 1 := by
  have h1 := add_cyclic_distance ha hh
  have h2 : (a + 1) % c = (h + (cyclic_distance a h c + 1)) % c := by
    rw [← Nat.add_assoc, ← Nat.mod_add_mod (h + cyclic_distance a h c), h1]
  rw [h2]
  exact cyclic_distance_add hh hd

/-- C33: on a valid table, for every stored key `k`, held by the slot `p`, the non-const
`find(k)` completes and returns a position `pos` whose slot then holds `k`; the cyclic distance of
`pos` from the ideal index of `k` is the distance of `p` or exactly one less (a key at its ideal
index stays there).  Either every slot keeps its key and its flag, or `pos` is the slot before
`p`, exactly the two slots `pos` and `p` exchange their contents, every other slot is unchanged,
and the key that was at `pos` is then at `p`, exactly one slot further from its own ideal
index. -/
theorem find_promotion_is_local (hasher : Key → Nat) (t : unordered_set Key) (k : Key)
    (hv : valid hasher t) (hs : stored (buffer t) k) :
    ∃ p pos t1, p < t.__capacity ∧ (slot (buffer t) p).is_occupied = true ∧
      (slot (buffer t) p).key = k ∧
      find hasher t k = .ok (pos, t1) ∧ pos < t.__capacity ∧
      (slot (buffer t1) pos).is_occupied = true ∧ (slot (buffer t1) pos).key = k ∧
      (cyclic_distance pos (ideal_index hasher k t.__capacity) t.__capacity
          = cyclic_distance p (ideal_index hasher k t.__capacity) t.__capacity ∨
        cyclic_distance pos (ideal_index hasher k t.__capacity) t.__capacity + 1
          = cyclic_distance p (ideal_index hasher k t.__capacity) t.__capacity) ∧
      ((pos = p ∧ ∀ x, (slot (buffer t1) x).key = (slot (buffer t) x).key ∧
          (slot (buffer t1) x).is_occupied = (slot (buffer t) x).is_occupied) ∨
        (p = (pos + 1) % t.__capacity ∧ pos ≠ p ∧
          (slot (buffer t) pos).is_occupied = true ∧
          slot (buffer t1) p = slot (buffer t) pos ∧
          (∀ x, x ≠ pos → x ≠ p → slot (buffer t1) x = slot (buffer t) x) ∧
          cyclic_distance p (ideal_index hasher (slot (buffer t) pos).key t.__capacity)
              t.__capacity
            = cyclic_distance pos (ideal_index hasher (slot (buffer t) pos).key t.__capacity)
              t.__capacity + 1)) := by
  obtain ⟨c, u, d⟩ := t
  cases d with
  | none => exact absurd hv (by simp [valid])
  | some buf =>
    have hvb : valid_buf hasher c u buf := hv
    obtain ⟨hlen, hpow, hbytes, hu, hnd, hrun, hemp⟩ := hvb
    have hdbl := double_of_bytes hbytes
    have hpos := power_of_two_pos hpow
    have hs1 : stored buf k := hs
    have hfind : ∀ pos b, find_buf hasher k c buf = .ok (pos, b) →
        find hasher ⟨c, u, some buf⟩ k = .ok (pos, ⟨c, u, some b⟩) := by
      intro pos b h
      unfold find
      simp only []
      rw [h]
    have hik := ideal_index_lt hpow hasher k
    have hpe : ∀ e, probe (hasher k % size_mod) c e = (ideal_index hasher k c + e) % c :=
      fun e => probe_ideal hpow _ e
    obtain ⟨j, hj, hr⟩ := reached_of_stored hpow hasher buf hlen hrun k hs1
    cases j with
    | zero =>
      have ho := hr.2.1
      have hk := hr.2.2
      rw [probe_zero_ideal] at ho hk
      have hi : ideal_index hasher k c < buf.length := lt_of_occupied ho
      have hag := agree_set_same buf (ideal_index hasher k c)
        { slot buf (ideal_index hasher k c) with
          probe_count := ((slot buf (ideal_index hasher k c)).probe_count + 1) % size_mod }
        rfl rfl hi
      refine ⟨ideal_index hasher k c, _, _, hik, ho, hk,
        hfind _ _ (find_buf_at_zero hasher c buf k hi ho hk), hik, ?_, ?_, Or.inl rfl,
        Or.inl ⟨rfl, hag⟩⟩
      · exact ((hag _).2).trans ho
      · exact ((hag _).1).trans hk
    | succ j =>
      have he := find_buf_at_succ hpow hasher buf hlen k j hj hr
      have hob := hr.2.1
      have hkb := hr.2.2
      have hoa := (hr.1 j (by omega)).1
      simp only [hpe] at he hob hkb hoa
      have hab : (ideal_index hasher k c + j) % c ≠ (ideal_index hasher k c + (j + 1)) % c := by
        intro h
        have := mod_add_inj hpow _ (by omega) hj h
        omega
      have hal : (ideal_index hasher k c + j) % c < buf.length := lt_of_occupied hoa
      have hbl : (ideal_index hasher k c + (j + 1)) % c < buf.length := lt_of_occupied hob
      have hac : (ideal_index hasher k c + j) % c < c := Nat.mod_lt _ hpos
      have hbc : (ideal_index hasher k c + (j + 1)) % c < c := Nat.mod_lt _ hpos
      have hda : cyclic_distance ((ideal_index hasher k c + j) % c) (ideal_index hasher k c) c
          = j := cyclic_distance_add hik (by omega)
      have hdb : cyclic_distance ((ideal_index hasher k c + (j + 1)) % c)
          (ideal_index hasher k c) c = j + 1 := cyclic_distance_add hik hj
      by_cases hgt : ((slot buf ((ideal_index hasher k c + (j + 1)) % c)).probe_count + 1)
          % size_mod > (slot buf ((ideal_index hasher k c + j) % c)).probe_count
      · rw [if_pos hgt] at he
        have hnext : (ideal_index hasher k c + (j + 1)) % c
            = ((ideal_index hasher k c + j) % c + 1) % c := by
          rw [Nat.mod_add_mod, Nat.add_assoc]
        have hshort := run_shorter_than_ring hpow hasher buf hlen hrun hemp _ hac hoa
        have hq := ideal_index_lt hpow hasher (slot buf ((ideal_index hasher k c + j) % c)).key
        have hdq := cyclic_distance_next hac hq hshort
        rw [← hnext] at hdq
        refine ⟨(ideal_index hasher k c + (j + 1)) % c, _, _, hbc, hob, hkb, hfind _ _ he, hac,
          ?_, ?_, Or.inr (by rw [hda, hdb]), Or.inr ⟨hnext, hab, hoa, ?_, ?_, hdq⟩⟩
        · show (slot ((buf.set _ _).set _ _) _).is_occupied = true
          rw [slot_set_self (by rw [List.length_set]; exact hal)]
          exact hob
        · show (slot ((buf.set _ _).set _ _) _).key = k
          rw [slot_set_self (by rw [List.length_set]; exact hal)]
          exact hkb
        · show slot ((buf.set _ _).set _ _) _ = _
          rw [slot_set_ne _ hab, slot_set_self hbl]
          rfl
        · intro x hxa hxb
          show slot ((buf.set _ _).set _ _) _ = _
          rw [slot_set_ne _ (Ne.symm hxa), slot_set_ne _ (Ne.symm hxb)]
          rfl
      · rw [if_neg hgt] at he
        have hag := agree_set_same buf ((ideal_index hasher k c + (j + 1)) % c)
          { slot buf ((ideal_index hasher k c + (j + 1)) % c) with
            probe_count :=
              ((slot buf ((ideal_index hasher k c + (j + 1)) % c)).probe_count + 1) % size_mod }
          rfl rfl hbl
        refine ⟨(ideal_index hasher k c + (j + 1)) % c, _, _, hbc, hob, hkb, hfind _ _ he, hbc,
          ?_, ?_, Or.inl rfl, Or.inl ⟨rfl, hag⟩⟩
        · exact ((hag _).2).trans hob
        · exact ((hag _).1).trans hkb

/-- Witness for C33: in the table holding 1, 9, 17 at the slots 1, 2, 3, `find(9)` moves 9 from
slot 2 to slot 1, one step closer to its ideal index 1, and 1 from slot 1 to slot 2. -/
theorem find_promotion_is_local_witness :
    valid identity_hash chain_table ∧ stored (buffer chain_table) 9 ∧
    ∃ t1, find identity_hash chain_table 9 = .ok (1, t1) ∧
      (slot (buffer t1) 1).key = 9 ∧ (slot (buffer t1) 2).key = 1 ∧
      (slot (buffer t1) 3).key = 17 ∧
      cyclic_distance 1 (ideal_index identity_hash 9 8) 8 + 1
        = cyclic_distance 2 (ideal_index identity_hash 9 8) 8 := by
  obtain ⟨p, pos, t1, _, _, _, he, _, _, _, _, _⟩ :=
    find_promotion_is_local identity_hash chain_table 9 (by decide) (by decide)
  have e0 : find identity_hash chain_table 9 = .ok (1, ⟨8, 3,
      some [⟨0, 0, false⟩, ⟨9, 1, true⟩, ⟨1, 0, true⟩, ⟨17, 0, true⟩,
        ⟨0, 0, false⟩, ⟨0, 0, false⟩, ⟨0, 0, false⟩, ⟨0, 0, false⟩]⟩) := rfl
  exact ⟨by decide, by decide, _, e0, rfl, rfl, rfl, rfl⟩

end claims_promotion


/-! ## The resize trigger of `insert` -/

section claims_resize_trigger

variable {Key : Type} [DecidableEq Key] [Inhabited Key]

end claims_resize_trigger


/-! ## `erase` matches on the key value alone -/

section claims_erase_match

variable {Key : Type} [DecidableEq Key] [Inhabited Key]

theorem erase_search_none (k : Key) (hashed c : Nat) (buf : List (unordered_set_node Key))
    (hlen : ∀ i, probe hashed c i < buf.length) :
    ∀ (rem i : Nat), (∀ d, i ≤ d → d < i + rem → (slot buf (probe hashed c d)).key ≠ k) →
      erase_search k hashed c buf rem i = .ok c := by
  intro rem
  induction rem with
  | zero => intro i _; rfl
  | succ rem ih =>
    intro i hne
    unfold erase_search
    simp only [probe_fold]
    rw [load_of_lt (hlen i)]
    simp only []
    rw [if_neg (hne i (le_refl i) (by omega))]
    exact ih (i + 1) (fun d hd1 hd2 => hne d (by omega) (by omega))

theorem erase_buf_match {c : Nat} (hc : power_of_two c) (hasher : Key → Nat)
    (buf : List (unordered_set_node Key)) (hlen : buf.length = c) (k : Key)
    (hex : ∃ i, i < c ∧ (slot buf i).key = k) :
    ∃ open1 buf1, erase_buf hasher k c buf = .ok (1, open1, buf1) := by
  have hl : ∀ h i, probe h c i < buf.length := by
    intro h i; rw [hlen]; exact probe_lt hc _ i
  have hex1 : ∃ d, d < c ∧ (slot buf (probe (hasher k % size_mod) c d)).key = k := by
    obtain ⟨i, hi, hk⟩ := hex
    obtain ⟨d, hd, hp⟩ := probe_surj hc (hasher k % size_mod) hi
    exact ⟨d, hd, by rw [hp]; exact hk⟩
  classical
  have hj := (Nat.find_spec hex1).1
  have hjk := (Nat.find_spec hex1).2
  have hmin : ∀ d, d < Nat.find hex1 →
      (slot buf (probe (hasher k % size_mod) c d)).key ≠ k := by
    intro d hd hcon
    exact Nat.find_min hex1 hd ⟨by omega, hcon⟩
  generalize Nat.find hex1 = j at hj hjk hmin
  have hsearch := erase_search_of_reached k (hasher k % size_mod) c buf (hl _) c 0 j
    (Nat.zero_le j) (by omega) (fun d _ hd => hmin d hd) hjk
  have hrc : probe (hasher k % size_mod) c j < c := probe_lt hc _ j
  generalize probe (hasher k % size_mod) c j = r at hsearch hrc
  have hlen0 : (buf.set r (empty_node : unordered_set_node Key)).length = c := by
    rw [List.length_set]; exact hlen
  obtain ⟨len, hlen_eq⟩ := erase_search_len_total r c (buf.set r empty_node)
    (by intro i; rw [hlen0]; exact probe_lt hc _ i) (c - 1) 1
  have hv0 : (slot (buf.set r (empty_node : unordered_set_node Key)) r).is_occupied = false := by
    rw [slot_set_self (by rw [hlen]; exact hrc)]
    rfl
  obtain ⟨open1, buf1, hw, _⟩ :=
    erase_walk_spec hasher r c (fun i => probe_lt hc _ i) (len - 1) 1 r _ hlen0 hrc hv0
  refine ⟨open1, buf1, ?_⟩
  unfold erase_buf
  rw [hsearch]
  simp only []
  rw [if_pos (by omega), store_of_lt (by rw [hlen]; exact hrc)]
  simp only []
  rw [hlen_eq]
  simp only []
  rw [hw]

theorem erase_buf_no_match {c : Nat} (hc : power_of_two c) (hasher : Key → Nat)
    (buf : List (unordered_set_node Key)) (hlen : buf.length = c) (k : Key)
    (hne : ∀ i, i < c → (slot buf i).key ≠ k) :
    erase_buf hasher k c buf = .ok (0, c, buf) := by
  have hl : ∀ i, probe (hasher k % size_mod) c i < buf.length := by
    intro i; rw [hlen]; exact probe_lt hc _ i
  have hsearch := erase_search_none k (hasher k % size_mod) c buf hl c 0
    (fun d _ _ => hne _ (probe_lt hc _ d))
  unfold erase_buf
  rw [hsearch]
  simp only []
  rw [if_neg (by simp)]


theorem erase_of_buf (hasher : Key → Nat) (t : unordered_set Key) (k : Key)
    (buf : List (unordered_set_node Key)) (r : Nat × Nat × List (unordered_set_node Key))
    (hd : t.__data = some buf) (he : erase_buf hasher k t.__capacity buf = .ok r) :
    erase hasher t k =
      if r.1 = 1 then
        .ok (1, { t with __data := some r.2.2,
                         __usage := (t.__usage + size_mod - 1) % size_mod })
      else .ok (0, { t with __data := some r.2.2 }) := by
  unfold erase
  rw [hd]
  simp only []
  rw [he]

theorem size_t_decrement (u : Nat) (hpos : 0 < u) (hlt : u < size_mod) :
    (u + size_mod - 1) % size_mod = u - 1 := by
  have h4 : u + size_mod - 1 = (u - 1) + size_mod := by omega
  rw [h4, Nat.add_mod_right, Nat.mod_eq_of_lt (by omega)]

/-- C37, as stated, fails: after `reserve(5)`, `insert(1)`, `insert(4)` on a freshly constructed
set the capacity is 5 and the slots 1, 2 and 3 are Empty and hold the key value 0, yet `erase(0)`
returns 0 and changes nothing: with the mask `capacity - 1 = 4` the search loop reads the slots
0 and 4 only, which hold the keys 1 and 4. -/
theorem erase_skips_slots_off_the_mask :
    ∃ t, run identity_hash (construct 8 : unordered_set Nat)
        [.reserve 5, .insert 1, .insert 4] = .ok t ∧
      t.__capacity = 5 ∧ (buffer t).length = 5 ∧ size t = 2 ∧
      (slot (buffer t) 1).key = 0 ∧ (slot (buffer t) 2).key = 0 ∧ (slot (buffer t) 3).key = 0 ∧
      (slot (buffer t) 1).is_occupied = false ∧
      (slot (buffer t) 0).key = 1 ∧ (slot (buffer t) 4).key = 4 ∧
      ¬ power_of_two t.__capacity ∧
      erase identity_hash t 0 = .ok (0, t) :=
  ⟨_, rfl, rfl, rfl, rfl, rfl, rfl, rfl, rfl, rfl, rfl, by decide, rfl⟩

/-- C37, amended. On every table whose buffer is allocated with `capacity` slots, the capacity a
power of two, and for every key `k`: when some slot of the ring, occupied or Empty, holds a key value
equal to `k`, `erase(k)` completes, returns 1, keeps the capacity and decrements the count (a
`size_t` decrement: the count minus one when the count is positive); when no slot holds a key
value equal to `k`, `erase(k)` returns 0 and leaves the table as it is.  In particular a key value
held by an Empty slot alone is matched. -/
theorem erase_matches_key_value (hasher : Key → Nat) (t : unordered_set Key) (k : Key)
    (buf : List (unordered_set_node Key)) (hd : t.__data = some buf)
    (hlen : buf.length = t.__capacity) (hc : power_of_two t.__capacity) :
    ((∃ i, i < t.__capacity ∧ (slot buf i).key = k) →
      ∃ t1, erase hasher t k = .ok (1, t1) ∧ t1.__capacity = t.__capacity ∧
        t1.__usage = (t.__usage + size_mod - 1) % size_mod ∧
        (0 < t.__usage → t.__usage < size_mod → t1.__usage = t.__usage - 1)) ∧
    ((∀ i, i < t.__capacity → (slot buf i).key ≠ k) → erase hasher t k = .ok (0, t)) ∧
    (∀ i, i < t.__capacity → (slot buf i).is_occupied = false →
      (slot buf i).key = k → ∃ t1, erase hasher t k = .ok (1, t1)) := by
  have hfound : (∃ i, i < t.__capacity ∧ (slot buf i).key = k) →
      ∃ b, erase hasher t k
        = .ok (1, { t with __data := some b,
                           __usage := (t.__usage + size_mod - 1) % size_mod }) := by
    intro hex
    obtain ⟨open1, buf1, he⟩ := erase_buf_match hc hasher buf hlen k hex
    have h1 := erase_of_buf hasher t k buf _ hd he
    rw [if_pos rfl] at h1
    exact ⟨buf1, h1⟩
  refine ⟨?_, ?_, ?_⟩
  · intro hex
    obtain ⟨b, he⟩ := hfound hex
    exact ⟨_, he, rfl, rfl,
      fun hpos hlt => Eq.trans rfl (size_t_decrement t.__usage hpos hlt)⟩
  · intro hne
    have he := erase_buf_no_match hc hasher buf hlen k hne
    have h1 := erase_of_buf hasher t k buf _ hd he
    rw [if_neg Nat.zero_ne_one] at h1
    rw [h1]
    obtain ⟨c, u, d⟩ := t
    have hd1 : d = some buf := hd
    rw [hd1]
  · intro i hi _ hk
    obtain ⟨b, he⟩ := hfound ⟨i, hi, hk⟩
    exact ⟨_, he⟩

/-- Witness for C37, amended: on the table holding 1, 9, 17, whose Empty slots hold the key value 0,
`erase(0)` returns 1 and lowers the count to 2 although 0 is not stored, and `erase(5)` returns 0
and changes nothing. -/
theorem erase_matches_key_value_witness :
    power_of_two chain_table.__capacity ∧ ¬ stored (buffer chain_table) 0 ∧
    (∃ t1, erase identity_hash chain_table 0 = .ok (1, t1) ∧ t1.__usage = 2) ∧
    erase identity_hash chain_table 5 = .ok (0, chain_table) := by
  have h := erase_matches_key_value identity_hash chain_table 5 _ rfl rfl (by decide)
  have h0 := erase_matches_key_value identity_hash chain_table 0 _ rfl rfl (by decide)
  obtain ⟨t1, he, _, _, hu⟩ := h0.1 ⟨0, by decide, rfl⟩
  exact ⟨by decide, by decide, ⟨t1, he, hu (by decide) (by decide)⟩, h.2.1 (by decide)⟩

end claims_erase_match


/-! ## `probe_count` is an access counter -/

section claims_access_counter

variable {Key : Type} [DecidableEq Key] [Inhabited Key]

theorem slot_mem {buf : List (unordered_set_node Key)} {i : Nat} (hi : i < buf.length) :
    slot buf i ∈ buf := by
  rw [slot_eq_getElem hi]
  exact List.getElem_mem hi

theorem node_unique (buf : List (unordered_set_node Key)) (hnd : no_duplicates buf)
    (n : unordered_set_node Key) (hn : n ∈ buf) (hno : n.is_occupied = true) (j : Nat)
    (hj : (slot buf j).is_occupied = true) (hk : n.key = (slot buf j).key) :
    n = slot buf j := by
  obtain ⟨i, hi, rfl⟩ := List.mem_iff_getElem.mp hn
  rw [← slot_eq_getElem hi] at hno hk ⊢
  by_cases hij : i = j
  · rw [hij]
  · exact absurd hk (key_unique buf hnd hij hno hj)

theorem apply_operation_mem (hasher : Key → Nat) (t t1 : unordered_set Key)
    (o : operation Key) (hno : ∀ k, o ≠ operation.find k)
    (h : apply_operation hasher t o = .ok t1) :
    ∀ n, n ∈ buffer t1 → n.is_occupied = true → n ∈ buffer t ∨ n.probe_count = 0 := by
  intro n hn ho
  cases o with
  | insert k =>
    have h1 : insert hasher t k = .ok t1 := h
    exact insert_mem hasher t t1 k h1 n hn
  | find k => exact absurd rfl (hno k)
  | erase k =>
    have h1 : (match erase hasher t k with
      | .error e => .error e
      | .ok r => .ok r.2) = Except.ok t1 := h
    cases he : erase hasher t k with
    | error e =>
      rw [he] at h1
      cases h1
    | ok r =>
      rw [he] at h1
      have h2 : r.2 = t1 := Except.ok.inj h1
      rw [← h2] at hn
      rcases erase_mem hasher t k r he n hn with h3 | h3
      · exact Or.inl h3
      · rw [h3] at ho
        cases ho
  | clear =>
    have h1 : clear t = .ok t1 := h
    rw [clear_buffer t t1 h1] at hn
    exact Or.inl hn
  | reserve n0 =>
    have h1 : reserve hasher t n0 = .ok t1 := h
    exact reserve_mem hasher t t1 n0 h1 n hn

/-- C36: on a valid table, (1) `insert(k)` of a key that is not stored completes and the slot
that then holds `k` has `probe_count` 0, at whatever distance from the ideal index it lies;
(2) a rehash to a power of two above the count whose byte size `n * sizeof(node)` is a value of
`size_t` completes, and every rehash that completes, to whatever size, leaves every slot of the
new buffer with `probe_count` 0; (3) for a stored key `k` the non-const `find(k)` completes, returns the position
of `k` and leaves `k` with its `probe_count` incremented once (a `size_t` increment:
`probe_count + 1` unless the counter is at its maximum); (4) `find(k)` leaves the `probe_count`
of every other stored key as it was; (5) after `insert`, `erase`, `clear` or `reserve` the
`probe_count` of a stored key is at most what it was before the call. -/
theorem probe_count_is_access_counter (hasher : Key → Nat) (t : unordered_set Key)
    (hv : valid hasher t) :
    (∀ k, ¬ stored (buffer t) k →
      ∃ t1, insert hasher t k = .ok t1 ∧ stored (buffer t1) k ∧
        ∀ i, (slot (buffer t1) i).is_occupied = true → (slot (buffer t1) i).key = k →
          (slot (buffer t1) i).probe_count = 0) ∧
    ((∀ n, power_of_two n → size t < n → n * node_size < size_mod →
        ∃ t1, __resize hasher t n = .ok t1 ∧ ∀ i, (slot (buffer t1) i).probe_count = 0) ∧
      (∀ n t1, __resize hasher t n = .ok t1 → ∀ i, (slot (buffer t1) i).probe_count = 0)) ∧
    (∀ k, stored (buffer t) k →
      ∃ p pos t1, (slot (buffer t) p).is_occupied = true ∧ (slot (buffer t) p).key = k ∧
        find hasher t k = .ok (pos, t1) ∧
        (slot (buffer t1) pos).is_occupied = true ∧ (slot (buffer t1) pos).key = k ∧
        (slot (buffer t1) pos).probe_count
          = ((slot (buffer t) p).probe_count + 1) % size_mod ∧
        ((slot (buffer t) p).probe_count + 1 < size_mod →
          (slot (buffer t1) pos).probe_count = (slot (buffer t) p).probe_count + 1)) ∧
    (∀ k pos t1, find hasher t k = .ok (pos, t1) →
      ∀ i j, (slot (buffer t1) i).is_occupied = true → (slot (buffer t) j).is_occupied = true →
        (slot (buffer t1) i).key = (slot (buffer t) j).key → (slot (buffer t) j).key ≠ k →
        (slot (buffer t1) i).probe_count = (slot (buffer t) j).probe_count) ∧
    (∀ o t1, (∀ k, o ≠ operation.find k) → apply_operation hasher t o = .ok t1 →
      ∀ i j, (slot (buffer t1) i).is_occupied = true → (slot (buffer t) j).is_occupied = true →
        (slot (buffer t1) i).key = (slot (buffer t) j).key →
        (slot (buffer t1) i).probe_count ≤ (slot (buffer t) j).probe_count) := by
  obtain ⟨c, u, d⟩ := t
  cases d with
  | none => exact absurd hv (by simp [valid])
  | some buf =>
    have hvb : valid_buf hasher c u buf := hv
    obtain ⟨hlen, hpow, hbytes, hu, hnd, hrun, hemp⟩ := hvb
    have hdbl := double_of_bytes hbytes
    have hb0 : buffer (⟨c, u, some buf⟩ : unordered_set Key) = buf := rfl
    refine ⟨?_, ?_, ?_, ?_, ?_⟩
    · intro k hk
      obtain ⟨buf1, c1, u1, he, _, hlen1, _, _, ⟨j, hj, hr⟩, _⟩ :=
        insert_valid hasher c u buf ⟨hlen, hpow, hbytes, hu, hnd, hrun, hemp⟩ k
      refine ⟨_, he, ?_, ?_⟩
      · exact (stored_iff buf1 k).mpr ⟨_, lt_of_occupied hr.2.1, hr.2.1, hr.2.2⟩
      · intro i hio hik
        have hb1 : buffer (⟨c1, u1, some buf1⟩ : unordered_set Key) = buf1 := rfl
        rw [hb1] at hio hik ⊢
        rcases insert_mem hasher _ _ k he _ (slot_mem (lt_of_occupied hio)) with h1 | h1
        · exfalso
          apply hk
          rw [hb0] at h1 ⊢
          obtain ⟨x, hx, hxe⟩ := List.mem_iff_getElem.mp h1
          refine (stored_iff buf k).mpr ⟨x, hx, ?_, ?_⟩
          · rw [slot_eq_getElem hx, hxe]; exact hio
          · rw [slot_eq_getElem hx, hxe]; exact hik
        · exact h1
    · have hzero : ∀ n t1, __resize hasher ⟨c, u, some buf⟩ n = .ok t1 →
          ∀ i, (slot (buffer t1) i).probe_count = 0 := by
        intro n t1 hres i
        have hfresh := resize_fresh hasher _ _ n hres
        by_cases hi : i < (buffer t1).length
        · exact hfresh _ (slot_mem hi)
        · rw [slot_past_end (by omega)]
          rfl
      refine ⟨?_, hzero⟩
      intro n hn hgt hfit
      have hgt1 : u < n := hgt
      obtain ⟨buf1, he, _⟩ := resize_spec hn hasher buf hnd (by rw [← hu]; exact hgt1)
      have hres : __resize hasher ⟨c, u, some buf⟩ n = .ok ⟨n, u, some buf1⟩ := by
        unfold __resize
        simp only []
        rw [resize_nodes hfit, ← hlen, he]
      exact ⟨_, hres, hzero n _ hres⟩
    · intro k hk
      have hfind : ∀ pos b, find_buf hasher k c buf = .ok (pos, b) →
          find hasher ⟨c, u, some buf⟩ k = .ok (pos, ⟨c, u, some b⟩) := by
        intro pos b h
        unfold find
        simp only []
        rw [h]
      have hbuf : ∀ b : List (unordered_set_node Key),
          buffer (⟨c, u, some b⟩ : unordered_set Key) = b := fun _ => rfl
      simp only [hbuf]
      obtain ⟨j, hj, hr⟩ := reached_of_stored hpow hasher buf hlen hrun k hk
      cases j with
      | zero =>
        have ho := hr.2.1
        have hkk := hr.2.2
        rw [probe_zero_ideal] at ho hkk
        have hi : ideal_index hasher k c < buf.length := lt_of_occupied ho
        refine ⟨ideal_index hasher k c, _, _, ho, hkk,
          hfind _ _ (find_buf_at_zero hasher c buf k hi ho hkk), ?_, ?_, ?_, ?_⟩
        · simp only [hbuf]; rw [slot_set_self hi]; exact ho
        · simp only [hbuf]; rw [slot_set_self hi]; exact hkk
        · simp only [hbuf]; rw [slot_set_self hi]
        · intro hlt
          simp only [hbuf]
          rw [slot_set_self hi]
          exact Nat.mod_eq_of_lt hlt
      | succ j =>
        have he := find_buf_at_succ hpow hasher buf hlen k j hj hr
        have hob := hr.2.1
        have hkb := hr.2.2
        have hoa := (hr.1 j (by omega)).1
        have hal := lt_of_occupied hoa
        have hbl := lt_of_occupied hob
        by_cases hgt : ((slot buf (probe (hasher k % size_mod) c (j + 1))).probe_count + 1)
            % size_mod > (slot buf (probe (hasher k % size_mod) c j)).probe_count
        · rw [if_pos hgt] at he
          have hal1 : probe (hasher k % size_mod) c j
              < (buf.set (probe (hasher k % size_mod) c (j + 1))
                  (slot buf (probe (hasher k % size_mod) c j))).length := by
            rw [List.length_set]; exact hal
          refine ⟨probe (hasher k % size_mod) c (j + 1), _, _, hob, hkb, hfind _ _ he,
            ?_, ?_, ?_, ?_⟩
          · simp only [hbuf]; rw [slot_set_self hal1]; exact hob
          · simp only [hbuf]; rw [slot_set_self hal1]; exact hkb
          · simp only [hbuf]; rw [slot_set_self hal1]
          · intro hlt
            simp only [hbuf]
            rw [slot_set_self hal1]
            exact Nat.mod_eq_of_lt hlt
        · rw [if_neg hgt] at he
          refine ⟨probe (hasher k % size_mod) c (j + 1), _, _, hob, hkb, hfind _ _ he,
            ?_, ?_, ?_, ?_⟩
          · simp only [hbuf]; rw [slot_set_self hbl]; exact hob
          · simp only [hbuf]; rw [slot_set_self hbl]; exact hkb
          · simp only [hbuf]; rw [slot_set_self hbl]
          · intro hlt
            simp only [hbuf]
            rw [slot_set_self hbl]
            exact Nat.mod_eq_of_lt hlt
    · intro k pos t1 he i j hio hjo hkeys hne
      rcases find_mem hasher _ k (pos, t1) he _ (slot_mem (lt_of_occupied hio)) with h1 | h1
      · rw [hb0] at h1 hjo hkeys hne ⊢
        rw [node_unique buf hnd _ h1 hio j hjo hkeys]
      · obtain ⟨m, _, _, hmk, hbump⟩ := h1
        exfalso
        apply hne
        rw [← hkeys]
        unfold bumped at hbump
        have h2 : (slot (buffer t1) i).key = m.key := by
          show (slot (buffer (pos, t1).2) i).key = m.key
          rw [hbump]
        rw [h2, hmk]
    · intro o t1 hno he i j hio hjo hkeys
      rcases apply_operation_mem hasher _ t1 o hno he _ (slot_mem (lt_of_occupied hio)) hio
        with h1 | h1
      · rw [hb0] at h1 hjo hkeys ⊢
        rw [node_unique buf hnd _ h1 hio j hjo hkeys]
      · rw [h1]
        exact Nat.zero_le _

/-- Witness for C36: in the table holding 1, 9, 17 at the slots 1, 2, 3 the key 25, of ideal
index 1, is inserted at distance 3 with `probe_count` 0, and `find(17)` leaves 17 with
`probe_count` 1. -/
theorem probe_count_is_access_counter_witness :
    valid identity_hash chain_table ∧
    (∃ t1, insert identity_hash chain_table 25 = .ok t1 ∧ (slot (buffer t1) 4).key = 25 ∧
      (slot (buffer t1) 4).probe_count = 0 ∧
      cyclic_distance 4 (ideal_index identity_hash 25 8) 8 = 3) ∧
    (∃ pos t1, find identity_hash chain_table 17 = .ok (pos, t1) ∧
      (slot (buffer t1) pos).key = 17 ∧ (slot (buffer t1) pos).probe_count = 1) := by
  have h := probe_count_is_access_counter identity_hash chain_table (by decide)
  obtain ⟨p, pos, t1, hpo, hpk, he, _, hk, _, hpc⟩ := h.2.2.1 17 (by decide)
  have hp : p = 3 := by
    by_contra hne
    have h3 : (slot (buffer chain_table) 3).is_occupied = true := rfl
    exact key_unique (buffer chain_table) (by decide) hne hpo h3 (by rw [hpk]; rfl)
  subst hp
  exact ⟨by decide, ⟨_, rfl, rfl, rfl, rfl⟩, pos, t1, he, hk, hpc (by decide)⟩

end claims_access_counter

end qtl
